import Mathlib

/-!
# Verification of the game-playing agents

Two agents are embedded here:

* `NoGo`: the Monte Carlo Tree Search player of `pj3_root_parallel/agent.h`
  (selection, expansion, simulation, backpropagation, the search loop and the majority vote);
* `Threes`: the temporal-difference player of `project2+/agent.h`
  (action selection, n-tuple value estimate, expectation estimate, learning update, episodes,
  construction of the weight tables).

The class `agent`, which reads the options of an agent from its argument string and is the
same in both files, is embedded in `Framework`.

Conventions of the embedding.

* The `board`, `action` and `weight` classes are declared in headers that are not among the
  sources; the board operations are therefore a parameter (`BoardOps`) of every definition.
  Concrete stand-in boards (`Grid`, `Tiles`) serve the evaluations at concrete inputs only.
* The tree of `node` objects linked by raw pointers is an arena: a list of nodes, a pointer is
  the index of the node in the arena, `new node` appends at the end, `nullptr` is `none`.
* C++ `int` counters are `Int` (signed overflow is undefined behaviour and is not modelled).
* `float` values are rationals; `std::sqrt` and `std::log` are parameters (`Libm`); the
  NaN that the division `0.0 / 0` yields is a value of its own (`fval.nan`). The definitions
  under the source's names compute in exact arithmetic. Where the result of a statement
  depends on the rounding of `float`, the definitions named `Rounded.…` carry the rounding of
  each operation as a parameter (`Framework.Rounding`); the exact definitions are their
  instances without rounding, and `Rounding.ieee` is IEEE 754 rounding for evaluations.
* `std::random_shuffle` and `std::shuffle` are parameters: the shuffled vector, or the
  shuffling function, is passed in.
* Strings are lists of characters; `std::stod` is a parameter; a constructor that throws
  returns the exception as an error value.
* Undefined behaviour (dereferencing an invalid pointer, an uninitialised pointer, reading the
  front of an empty deque, an index outside an array) and exhaustion of the fuel of a loop are
  the result `none`; the theorems show that the result is `some` under their hypotheses.
-/

namespace NoGo

/-! ## Data model -/

/-- Piece colours of `board::piece_type` that the agent mentions. -/
inductive piece_type
  | empty
  | black
  | white
  deriving DecidableEq, Repr

/-- Modelled from the spec: `board::size_x` of board.h (absent), the 9x9 board of the spec. -/
def size_x : Nat := 9

/-- Modelled from the spec: `board::size_y` of board.h (absent), the 9x9 board of the spec. -/
def size_y : Nat := 9

/-- Operations of the NoGo `board` class that the agent calls. -/
structure BoardOps (β : Type) where
  /-- The call `b.place(pos)`, a placement by the side to move: the flag tells whether the
  result is `board::legal`, the board is `b` after the call. -/
  place : β → Int → Bool × β
  /-- The call `action::place(pos, who).apply(b)`, with the same reading of the result. -/
  apply : Int → piece_type → β → Bool × β
  /-- The field `b.info().who_take_turns`. -/
  who_take_turns : β → piece_type

/-- The class `player::node`; `children` and `parent` hold arena indices. -/
structure node (β : Type) where
  state : β
  wins : Int
  total : Int
  pos : Int
  children : List Nat
  children_pos : Finset Int
  parent : Option Nat
  deriving DecidableEq

/-- The constructor `node(const board& b)`. -/
def node.new {β : Type} (b : β) : node β :=
  { state := b, wins := 0, total := 0, pos := -1, children := [], children_pos := ∅,
    parent := none }

/-- The arena of all nodes allocated so far. -/
abbrev Tree (β : Type) := List (node β)

/-! ## Backpropagation -/

/-- Body of the loop of `takeBackpropagation` for one path entry. -/
def backpropNode {β : Type} (ops : BoardOps β) (winner : piece_type) (games win_count : Int)
    (n : node β) : node β :=
  { n with
    total := n.total + games
    wins := if winner ≠ ops.who_take_turns n.state then n.wins + win_count
            else n.wins - win_count }

/-- The method `player::takeBackpropagation`. -/
def takeBackpropagation {β : Type} (ops : BoardOps β) (tree : Tree β) (path : List Nat)
    (winner : piece_type) (games win_count : Int) : Tree β :=
  path.foldl (fun t i => t.modify (backpropNode ops winner games win_count) i) tree

/-! ## Selection -/

/-- The functions of `<cmath>` that `calculateUCB` calls, on exact values. -/
structure Libm where
  sqrt : ℚ → ℚ
  log : ℚ → ℚ

/-- The class `action::place` as the agent uses it: a position and a colour. -/
structure place where
  position : Int
  color : piece_type
  deriving DecidableEq, Repr

/-- The class `action`: the default-constructed `action()` or a placement. -/
inductive action
  | none
  | place (move : NoGo.place)
  deriving DecidableEq, Repr

/-- The data members of `player` that the search reads. -/
structure player where
  space : List place
  who : piece_type
  deriving DecidableEq

/-- The loop of the constructor `player::player` that fills `space` once the role is known:
`space[i] = action::place(i, who)` for every index of the board. -/
def player.ofRole (who : piece_type) : player :=
  { space := (List.range (size_x * size_y)).map
      (fun (i : Nat) => { position := (i : Int), color := who })
    who := who }

/-- The method `node::calculateWinRate` in exact arithmetic, that is without the rounding of
`float`; with the rounding it is `Rounded.calculateWinRate`. -/
def node.calculateWinRate {β : Type} (n : node β) : ℚ :=
  if n.total = 0 then 0 else (n.wins : ℚ) / (n.total : ℚ)

/-- The method `node::calculateUCB` in exact arithmetic, that is without the rounding of
`float` and `double`; with the rounding it is `Rounded.calculateUCB`. The result is `none`
when the parent pointer cannot be dereferenced. -/
def node.calculateUCB {β : Type} (M : Libm) (tree : Tree β) (n : node β) : Option ℚ :=
  match n.parent with
  | none => none
  | some p =>
    match tree[p]? with
    | none => none
    | some pn =>
      some (if pn.total = 0 ∨ n.total = 0 then n.calculateWinRate
            else n.calculateWinRate + (1 / 2) * M.sqrt (M.log (pn.total : ℚ) / (n.total : ℚ)))

/-- The counting loop of `takeSelection`: the number of moves of `space` that apply legally to
a copy of the board. -/
def legalCount {β : Type} (ops : BoardOps β) (self : player) (b : β) : Nat :=
  self.space.countP (fun move => (ops.apply move.position move.color b).1)

/-- The flag `leaf` of `takeSelection` for the node `current`. -/
def isLeaf {β : Type} (ops : BoardOps β) (self : player) (current : node β) : Bool :=
  legalCount ops self current.state == 0 ||
    current.children.length != legalCount ops self current.state

/-- The inner `for` loop of `takeSelection` over the children, from the running `value` and
`nextNode` (`none` while `nextNode` is uninitialised). -/
def pickChild {β : Type} (M : Libm) (tree : Tree β) : List Nat → ℚ → Option Nat → Option Nat
  | [], _, nextNode => nextNode
  | c :: rest, value, nextNode =>
    match tree[c]? with
    | none => none
    | some childNode =>
      match childNode.calculateUCB M tree with
      | none => none
      | some tmp =>
        if tmp > value then pickChild M tree rest tmp (some c)
        else pickChild M tree rest value nextNode

/-- The `while` loop of `takeSelection`, with the leaf test evaluated at the head of each
round for the node `current`; `vec` is the path so far. -/
def selectLoop {β : Type} (M : Libm) (ops : BoardOps β) (self : player) (tree : Tree β) :
    Nat → Nat → List Nat → Option (List Nat)
  | 0, _, _ => none
  | fuel + 1, current, vec =>
    match tree[current]? with
    | none => none
    | some cur =>
      if isLeaf ops self cur then some vec
      else
        match pickChild M tree cur.children (-1000000) none with
        | none => none
        | some nextNode => selectLoop M ops self tree fuel nextNode (vec ++ [nextNode])

/-- The method `player::takeSelection` with the scores in exact arithmetic; with the scores
in `float` it is `Rounded.takeSelection`. -/
def takeSelection {β : Type} (M : Libm) (ops : BoardOps β) (self : player) (tree : Tree β)
    (fuel : Nat) (root : Nat) : Option (List Nat) :=
  selectLoop M ops self tree fuel root [root]

/-! ## Expansion -/

/-- The vector `0, 1, ..., 80` that `takeExpansion` and `takeSimulation` fill before they
shuffle it. -/
def positions : List Int := (List.range 81).map (fun (i : Nat) => (i : Int))

/-- The scanning loop of `takeExpansion` over the shuffled vector: the first position whose
placement on a copy of the state is legal and that is not in `children_pos`, with the board
after the placement. -/
def findMove {β : Type} (ops : BoardOps β) (state : β) (children_pos : Finset Int) :
    List Int → Option (Int × β)
  | [] => none
  | v :: rest =>
    if (ops.place state v).1 && decide (v ∉ children_pos) then some (v, (ops.place state v).2)
    else findMove ops state children_pos rest

/-- The branch `if (success)` of `takeExpansion`: a node is allocated for the board `b`, its
`pos` and `parent` are set, and it is registered in `children` and `children_pos` of `Node`.
The new node is the last entry of the arena. -/
def attachChild {β : Type} (tree : Tree β) (Node : Nat) (pos : Int) (b : β) : Tree β :=
  tree.modify (fun n => { n with children := n.children ++ [tree.length]
                                 children_pos := insert pos n.children_pos }) Node
    ++ [{ node.new b with pos := pos, parent := some Node }]

/-- The method `player::takeExpansion`; `vec` is the vector after `std::random_shuffle`.
The result is the arena after the call and the pointer returned. -/
def takeExpansion {β : Type} (ops : BoardOps β) (tree : Tree β) (Node : Nat) (vec : List Int) :
    Option (Tree β × Nat) :=
  match tree[Node]? with
  | none => none
  | some nd =>
    match findMove ops nd.state nd.children_pos vec with
    | some (pos, b) => some (attachChild tree Node pos b, tree.length)
    | none => some (tree, Node)

/-! ## Simulation -/

/-- The result of a rollout: the value returned, the local board `b` when the loop ends, the
positions placed legally in order, and the board of the caller after the call. -/
structure Rollout (β : Type) where
  value : Int
  final : β
  placed : List Int
  caller : β

/-- The `while (remaining != 0)` loop of `takeSimulation` on the local board `b` and the
deque `dq`; `placed` records the legal placements made so far. -/
def simLoop {β : Type} (ops : BoardOps β) : Nat → β → List Int → Nat → List Int →
    Option (β × List Int)
  | 0, _, _, _, _ => none
  | fuel + 1, b, dq, remaining, placed =>
    if remaining = 0 then some (b, placed)
    else
      match dq with
      | [] => none
      | i :: rest =>
        if (ops.place b i).1 then
          simLoop ops fuel (ops.place b i).2 rest rest.length (placed ++ [i])
        else
          simLoop ops fuel (ops.place b i).2 (rest ++ [i]) (remaining - 1) placed

/-- A number of rounds that the loop of `takeSimulation` cannot exceed from a deque of
length `n`. -/
def simFuel (n : Nat) : Nat := n * (n + 1) + n + 1

/-- The method `player::takeSimulation`; `dq` is the deque after `std::random_shuffle`. -/
def takeSimulation {β : Type} (ops : BoardOps β) (state : β) (dq : List Int) :
    Option (Rollout β) :=
  match simLoop ops (simFuel dq.length) state dq dq.length [] with
  | none => none
  | some (b, placed) =>
    some { value := if ops.who_take_turns b = piece_type.black then 1 else -1
           final := b
           placed := placed
           caller := state }

/-! ## The search loop -/

/-- One round of the `for` loop of `MCTS`; `vecE` and `vecS` are the shuffled vectors of the
expansion and of the simulation of this round. The walk of `takeSelection` gets as much fuel
as the arena has nodes, which is enough on a well-formed arena (`selectLoop_spec`). -/
def mctsRound {β : Type} (M : Libm) (ops : BoardOps β) (self : player) (root : Nat)
    (tree : Tree β) (vecE vecS : List Int) : Option (Tree β) :=
  match takeSelection M ops self tree tree.length root with
  | none => none
  | some path =>
    match path.getLast? with
    | none => none
    | some back =>
      match takeExpansion ops tree back vecE with
      | none => none
      | some (tree1, expandNode) =>
        let path1 := if expandNode ≠ back then path ++ [expandNode] else path
        match path1.getLast? with
        | none => none
        | some back1 =>
          match tree1[back1]? with
          | none => none
          | some nd =>
            match takeSimulation ops nd.state vecS with
            | none => none
            | some r =>
              let Winners := if r.value > 0 then piece_type.white else piece_type.black
              some (takeBackpropagation ops tree1 path1 Winners 1 |r.value|)

/-- The `for` loop of `MCTS`, `count` rounds; round `i` draws the shuffles `2 * i` and
`2 * i + 1` of the stream `shuffles`, counted from `k`. -/
def mctsLoop {β : Type} (M : Libm) (ops : BoardOps β) (self : player) (root : Nat)
    (shuffles : Nat → List Int) : Nat → Nat → Tree β → Option (Tree β)
  | 0, _, tree => some tree
  | count + 1, k, tree =>
    match mctsRound M ops self root tree (shuffles (2 * k)) (shuffles (2 * k + 1)) with
    | none => none
    | some tree1 => mctsLoop M ops self root shuffles count (k + 1) tree1

/-- The final loop of `MCTS` over the children of the root, from the running `value` and
`res`. -/
def bestChild {β : Type} (tree : Tree β) : List Nat → Int → Int → Option Int
  | [], _, res => some res
  | c :: rest, value, res =>
    match tree[c]? with
    | none => none
    | some childNode =>
      if childNode.total > value then bestChild tree rest childNode.total childNode.pos
      else bestChild tree rest value res

/-- The method `player::MCTS`: the value returned and the arena after the search. -/
def MCTS {β : Type} (M : Libm) (ops : BoardOps β) (self : player) (tree : Tree β) (root : Nat)
    (count : Nat) (shuffles : Nat → List Int) : Option (Int × Tree β) :=
  match mctsLoop M ops self root shuffles count 0 tree with
  | none => none
  | some t =>
    match t[root]? with
    | none => none
    | some r =>
      if r.children.length = 0 then some (-1, t)
      else (bestChild t r.children (-1000000) (-1)).map (fun res => (res, t))

/-! ## Majority vote of `take_action` -/

/-- The aggregation loop of `take_action` over `res_parallel`, from the running
`majorityVote`, `max_count` and `result`; `none` when an index is outside `majorityVote`. -/
def voteLoop : List Int → List Int → Int → Int → Option Int
  | [], _, _, result => some result
  | tmp :: rest, majorityVote, max_count, result =>
    if tmp ≠ -1 then
      if 0 ≤ tmp ∧ tmp.toNat < majorityVote.length then
        if (majorityVote.modify (· + 1) tmp.toNat).getD tmp.toNat 0 > max_count then
          voteLoop rest (majorityVote.modify (· + 1) tmp.toNat)
            ((majorityVote.modify (· + 1) tmp.toNat).getD tmp.toNat 0) tmp
        else voteLoop rest (majorityVote.modify (· + 1) tmp.toNat) max_count result
      else none
    else voteLoop rest majorityVote max_count result

/-- The part of `player::take_action` (MCTS branch) after the parallel region: the majority
vote over the results of the workers and the action returned. -/
def take_action_vote {β : Type} (ops : BoardOps β) (state : β) (res_parallel : List Int) :
    Option action :=
  match voteLoop res_parallel (List.replicate 81 0) 0 (-1) with
  | none => none
  | some result =>
    if result ≠ -1 then
      some (action.place { position := result, color := ops.who_take_turns state })
    else some action.none

/-! ## Predicates on arenas used in the statements -/

/-- An arena is well formed when every child pointer stored in a node points to a later entry
of the arena whose `parent` field points back to that node. Arenas built with `new node` by
`takeExpansion` from a fresh root are of this kind. -/
def WellFormed {β : Type} (tree : Tree β) : Prop :=
  ∀ p, p < tree.length → ∀ c ∈ ((tree[p]?).map node.children).getD [],
    p < c ∧ (tree[c]?).map node.parent = some (some p)

/-- Every score that `calculateUCB` computes in the arena is above `-1000000.0`, the initial
`value` of the selection loop. -/
def ScoresAboveInit {β : Type} (M : Libm) (tree : Tree β) : Prop :=
  ∀ cn ∈ tree, ∀ s ∈ cn.calculateUCB M tree, (-1000000 : ℚ) < s

instance {β : Type} (tree : Tree β) : Decidable (WellFormed tree) := by
  unfold WellFormed; infer_instance

instance {β : Type} (M : Libm) (tree : Tree β) : Decidable (ScoresAboveInit M tree) := by
  unfold ScoresAboveInit; infer_instance

/-- The UCB score in the words of the specification, from the counters of the child and the
visit count of its parent: the win rate is 0 when `total` is 0 and `wins / total` otherwise;
the score is the win rate when `parentTotal` or `total` is 0 and
`winRate + 0.5 * sqrt (ln parentTotal / total)` otherwise. -/
def specScore (M : Libm) (wins total parentTotal : Int) : ℚ :=
  if parentTotal = 0 ∨ total = 0 then (if total = 0 then 0 else (wins : ℚ) / (total : ℚ))
  else (if total = 0 then 0 else (wins : ℚ) / (total : ℚ))
    + (1 / 2) * M.sqrt (M.log (parentTotal : ℚ) / (total : ℚ))

/-- The node `c` is the first child of `p`, in insertion order, whose score is the maximum of
the scores of the children of `p`. -/
def FirstMaxChild {β : Type} (M : Libm) (tree : Tree β) (p c : Nat) : Prop :=
  ∃ pn cn pre post, tree[p]? = some pn ∧ tree[c]? = some cn ∧ pn.children = pre ++ c :: post ∧
    (∀ d ∈ pre, ∀ dn, tree[d]? = some dn →
      specScore M dn.wins dn.total pn.total < specScore M cn.wins cn.total pn.total) ∧
    (∀ d ∈ post, ∀ dn, tree[d]? = some dn →
      specScore M dn.wins dn.total pn.total ≤ specScore M cn.wins cn.total pn.total)

/-- One step of the walk of `takeSelection`: `p` is not a leaf for the loop and `c` is the
child chosen. -/
def SelStep {β : Type} (M : Libm) (ops : BoardOps β) (self : player) (tree : Tree β)
    (p c : Nat) : Prop :=
  (∃ pn, tree[p]? = some pn ∧ isLeaf ops self pn = false) ∧ p < c ∧ FirstMaxChild M tree p c

/-- The score of the entry `c` of the arena under a parent with visit count `parentTotal`. -/
def scoreOf {β : Type} (M : Libm) (tree : Tree β) (parentTotal : Int) (c : Nat) : ℚ :=
  match tree[c]? with
  | some cn => specScore M cn.wins cn.total parentTotal
  | none => 0

/-- The state of the aggregation loop of `take_action` once the results `done` have been
scanned: `majorityVote` counts the occurrences of each position, `max_count` bounds every
count, and `result` is `-1` with `max_count = 0`, or the position whose count was the first
to reach `max_count`. -/
structure VoteInv (done : List Int) (majorityVote : List Int) (max_count result : Int) :
    Prop where
  len : majorityVote.length = 81
  cnt : ∀ q : Int, 0 ≤ q → q < 81 → majorityVote.getD q.toNat 0 = (done.count q : Int)
  le : ∀ q : Int, 0 ≤ q → q < 81 → (done.count q : Int) ≤ max_count
  first : (result = -1 ∧ max_count = 0) ∨
    (∃ l1 l2, done = l1 ++ result :: l2 ∧ 0 ≤ result ∧ result < 81 ∧
      (l1.count result : Int) + 1 = max_count ∧
      ∀ q : Int, 0 ≤ q → q < 81 → (l1.count q : Int) < max_count)

/-- The invariant of the arena during `MCTS` on a root, entry 0, created for `board`: the
arena is well formed; the root keeps its board, has an empty `children_pos` as long as it has
no child, and every child of the root carries a position of the board that is a legal
placement on `board`; every node has `|wins| ≤ total`. -/
structure SearchInv {β : Type} (ops : BoardOps β) (board : β) (tree : Tree β) : Prop where
  wf : WellFormed tree
  root : ∃ rn, tree[0]? = some rn ∧ rn.state = board ∧
    (rn.children = [] → rn.children_pos = ∅) ∧
    ∀ c ∈ rn.children, ∃ cn, tree[c]? = some cn ∧ cn.pos ∈ positions ∧
      (ops.place board cn.pos).1 = true
  counters : ∀ (i : Nat) (n : node β), tree[i]? = some n → |n.wins| ≤ n.total

/-- Modelled from the spec: a concrete stand-in for the `board` class of board.h, which is not
among the sources. It holds the 81 cells and the side to move. A stone is placed legally when
the position is on the board, its colour is that of the side to move and the cell is empty; a
legal placement passes the turn, an illegal call leaves the board as it is. The liberty rules
of NoGo are left out. It is used for concrete evaluations only. -/
structure Grid where
  cells : List piece_type
  turn : piece_type
  deriving DecidableEq

/-- The opponent of a colour. -/
def other : piece_type → piece_type
  | piece_type.black => piece_type.white
  | piece_type.white => piece_type.black
  | piece_type.empty => piece_type.empty

/-- Modelled from the spec: the legality test of `board::place(pos, who)` on the stand-in
board. -/
def Grid.canPut (b : Grid) (pos : Int) (who : piece_type) : Prop :=
  0 ≤ pos ∧ pos.toNat < b.cells.length ∧ who = b.turn ∧ who ≠ piece_type.empty ∧
    b.cells.getD pos.toNat piece_type.empty = piece_type.empty

instance (b : Grid) (pos : Int) (who : piece_type) : Decidable (b.canPut pos who) := by
  unfold Grid.canPut; infer_instance

/-- Modelled from the spec: `board::place(pos, who)` on the stand-in board. -/
def Grid.put (b : Grid) (pos : Int) (who : piece_type) : Bool × Grid :=
  if b.canPut pos who then (true, { cells := b.cells.set pos.toNat who, turn := other who })
  else (false, b)

/-- A cell of the stand-in board holds a stone. -/
def Grid.occupied (b : Grid) (pos : Int) : Prop :=
  b.cells.getD pos.toNat piece_type.empty ≠ piece_type.empty

/-- The board operations of the stand-in board. -/
def gridOps : BoardOps Grid :=
  { place := fun b pos => b.put pos b.turn
    apply := fun pos who b => b.put pos who
    who_take_turns := Grid.turn }

/-- A stand-in board with stones on every cell except those listed, Black and White
alternating, and the given side to move. -/
def gridWithHoles (holes : List Nat) (turn : piece_type) : Grid :=
  { cells := (List.range 81).map (fun (i : Nat) =>
      if i ∈ holes then piece_type.empty
      else if i % 2 = 0 then piece_type.black else piece_type.white)
    turn := turn }

/-- Stand-ins for `std::sqrt` and `std::log` in concrete evaluations: non-negative and
monotone, with `log 1 = 0`. -/
def demoLibm : Libm :=
  { sqrt := fun x => max 0 x
    log := fun x => x - 1 }

/-- A board with two empty cells, 0 and 1, and Black to move. -/
def twoHoles : Grid := gridWithHoles [0, 1] piece_type.black

/-- The arena that four rounds of `MCTS` build for the Black player from a fresh root on
`twoHoles` when no shuffle moves anything: the root 0, its children 1 (Black at 0) and
2 (Black at 1), and their children 3 (White at 1) and 4 (White at 0). -/
def demoTree : Tree Grid :=
  [ { state := twoHoles, wins := 4, total := 4, pos := -1, children := [1, 2],
      children_pos := {0, 1}, parent := none },
    { state := (gridOps.place twoHoles 0).2, wins := -2, total := 2, pos := 0,
      children := [3], children_pos := {1}, parent := some 0 },
    { state := (gridOps.place twoHoles 1).2, wins := -2, total := 2, pos := 1,
      children := [4], children_pos := {0}, parent := some 0 },
    { state := (gridOps.place (gridOps.place twoHoles 0).2 1).2, wins := 1, total := 1,
      pos := 1, children := [], children_pos := ∅, parent := some 1 },
    { state := (gridOps.place (gridOps.place twoHoles 1).2 0).2, wins := 1, total := 1,
      pos := 0, children := [], children_pos := ∅, parent := some 2 } ]

/-- The content of a node in a form that can be compared by evaluation: `children_pos` is
listed as the positions of the board that belong to it. -/
structure NodeView where
  state : Grid
  wins : Int
  total : Int
  pos : Int
  children : List Nat
  children_pos : List Int
  parent : Option Nat
  deriving DecidableEq

/-- The view of a node over the stand-in board. -/
def node.view (n : node Grid) : NodeView :=
  { state := n.state, wins := n.wins, total := n.total, pos := n.pos, children := n.children,
    children_pos := positions.filter (fun p => p ∈ n.children_pos), parent := n.parent }

end NoGo

namespace Threes

/-! ## Data model of the temporal-difference agent -/

/-- Operations of the Threes! `board` class that the agent calls. Positions, cell values,
tile values and bag counts are naturals; rewards and slide directions are `int`. -/
structure BoardOps (β : Type) where
  /-- The accessor `b(i)`. -/
  cell : β → Nat → Nat
  /-- The call `b.slide(op)`: the reward returned (`-1` when the slide is illegal) and the
  board after the call. -/
  slide : β → Int → Int × β
  /-- The call `b.place(pos, tile, hint)`: the board after the call. -/
  place : β → Nat → Nat → Nat → β
  /-- The accessor `b.last()`. -/
  last : β → Nat
  /-- The accessor `b.hint()`. -/
  hint : β → Nat
  /-- The accessor `b.bag(t)`. -/
  bag : β → Nat → Nat
  /-- The board after `b.rotate_clockwise()`. -/
  rotate_clockwise : β → β
  /-- The board after `b.reflect_horizontal()`. -/
  reflect_horizontal : β → β
  /-- The default-constructed `board()`. -/
  fresh : β

/-- The class `action` of the Threes! framework: the default-constructed `action()`, a slide
built by `action::slide(op)` from the `int` passed to it, or a placement. -/
inductive action
  | none
  | slide (op : Int)
  | place (pos tile hint : Nat)
  deriving DecidableEq, Repr

/-- Modelled from the spec: the class `weight` of weight.h (absent), a fixed-size array of
floating-point entries; `size` is its length and `value i` the entry at index `i`. -/
structure weight where
  size : Nat
  value : Nat → ℚ

/-- The lookup `w[i]` with an `int` index; `none` when the index is outside the array. -/
def weight.get (w : weight) (i : Int) : Option ℚ :=
  if 0 ≤ i ∧ i.toNat < w.size then some (w.value i.toNat) else none

/-- The struct `td_agent::step`. -/
structure step (β : Type) where
  reward : Int
  afterstate : β
  deriving DecidableEq

/-- The member `opcode` of `td_agent`. -/
def opcode : List Int := [0, 1, 2, 3]

/-- The member `spaces` of `td_agent`. -/
def spaces : List (List Nat) :=
  [[12, 13, 14, 15], [0, 4, 8, 12], [0, 1, 2, 3], [3, 7, 11, 15],
   [0, 1, 2, 3, 4, 5, 6, 7, 8, 9, 10, 11, 12, 13, 14, 15]]

/-- A 32-bit unsigned value read as `int`. -/
def wrap32 (x : Nat) : Int :=
  if x % 2 ^ 32 < 2 ^ 31 then ((x % 2 ^ 32 : Nat) : Int) else ((x % 2 ^ 32 : Nat) : Int) - 2 ^ 32

/-- The method `td_agent::featureExtract` (4x6-tuple version); the arithmetic is that of
32-bit cells. -/
def featureExtract {β : Type} (ops : BoardOps β) (after : β) (a b c d e f : Nat) : Int :=
  wrap32 (ops.cell after a * 16 * 16 * 16 * 16 * 16 + ops.cell after b * 16 * 16 * 16 * 16
    + ops.cell after c * 16 * 16 * 16 + ops.cell after d * 16 * 16 + ops.cell after e * 16
    + ops.cell after f)

/-- The lookup `net[k][i]`; `none` when the table or the entry does not exist. -/
def lookup (net : List weight) (k : Nat) (i : Int) : Option ℚ :=
  match net[k]? with
  | none => none
  | some w => w.get i

/-- The four statements `value += net[k][featureExtract(state, ...)]` of one round of the
loops of `valueEstimate`. -/
def addTuples {β : Type} (ops : BoardOps β) (net : List weight) (state : β) (value : ℚ) :
    Option ℚ :=
  match lookup net 0 (featureExtract ops state 0 1 2 3 4 5),
        lookup net 1 (featureExtract ops state 4 5 6 7 8 9),
        lookup net 2 (featureExtract ops state 0 1 2 4 5 6),
        lookup net 3 (featureExtract ops state 4 5 6 8 9 10) with
  | some v0, some v1, some v2, some v3 => some (value + v0 + v1 + v2 + v3)
  | _, _, _, _ => none

/-- A loop `for (r = 0; r < 4; r++)` of `valueEstimate`, `r` rounds from `state` and
`value`. -/
def estimateLoop {β : Type} (ops : BoardOps β) (net : List weight) :
    Nat → β → ℚ → Option (β × ℚ)
  | 0, state, value => some (state, value)
  | r + 1, state, value =>
    match addTuples ops net state value with
    | none => none
    | some v => estimateLoop ops net r (ops.rotate_clockwise state) v

/-- The method `td_agent::valueEstimate` in exact arithmetic; with the rounding of `float`
it is `Rounded.valueEstimate`. -/
def valueEstimate {β : Type} (ops : BoardOps β) (net : List weight) (after : β) : Option ℚ :=
  match estimateLoop ops net 4 after 0 with
  | none => none
  | some (state, value) =>
    match estimateLoop ops net 4 (ops.reflect_horizontal state) value with
    | none => none
    | some (_, value1) => some value1

/-- A `float` in exact arithmetic: a rational, or the NaN that `0.0 / 0` produces. -/
inductive fval
  | num (q : ℚ)
  | nan
  deriving DecidableEq

/-- The inner loop of `expectationEstimate` over `opcode` for the board `b`, from the running
`bestReward` and `bestValue`. -/
def bestOnePly {β : Type} (ops : BoardOps β) (net : List weight) (b : β) :
    List Int → Int → ℚ → Option (Int × ℚ)
  | [], bestReward, bestValue => some (bestReward, bestValue)
  | op :: rest, bestReward, bestValue =>
    if (ops.slide b op).1 = -1 then bestOnePly ops net b rest bestReward bestValue
    else
      match valueEstimate ops net (ops.slide b op).2 with
      | none => none
      | some value =>
        if ((ops.slide b op).1 : ℚ) + value > (bestReward : ℚ) + bestValue then
          bestOnePly ops net b rest (ops.slide b op).1 value
        else bestOnePly ops net b rest bestReward bestValue

/-- The loop of `expectationEstimate` over the positions of `space`, from the running
`expectation` and `emptySpace`. -/
def expectLoop {β : Type} (ops : BoardOps β) (net : List weight) (after : β)
    (tile hint : Nat) : List Nat → ℚ → Nat → Option (ℚ × Nat)
  | [], expectation, emptySpace => some (expectation, emptySpace)
  | pos :: rest, expectation, emptySpace =>
    if ops.cell after pos ≠ 0 then expectLoop ops net after tile hint rest expectation emptySpace
    else
      match bestOnePly ops net (ops.place after pos tile hint) opcode (-1) (-100000) with
      | none => none
      | some (bestReward, bestValue) =>
        expectLoop ops net after tile hint rest
          (expectation + ((bestReward : ℚ) + bestValue)) (emptySpace + 1)

/-- The statement `bag[--num]`: the last tile of the array and the array without it. -/
def popBag (bag : List Nat) : Option (Nat × List Nat) :=
  match bag.getLast? with
  | none => none
  | some t => some (t, bag.dropLast)

/-- The array `bag` that `expectationEstimate` fills from the counts `after.bag(t)`,
`t = 1, 2, 3`, before it shuffles it. -/
def fillBag {β : Type} (ops : BoardOps β) (after : β) : List Nat :=
  List.replicate (ops.bag after 1) 1 ++ List.replicate (ops.bag after 2) 2
    ++ List.replicate (ops.bag after 3) 3

/-- The method `td_agent::expectationEstimate`; `shuffle` is `std::shuffle` with the
default-constructed engine. The result is `none` when `spaces[after.last()]`, the array
`bag[3]` or a table is accessed out of bounds. -/
def expectationEstimate {β : Type} (ops : BoardOps β) (net : List weight)
    (shuffle : List Nat → List Nat) (after : β) : Option fval :=
  match spaces[ops.last after]? with
  | none => none
  | some space =>
    if (fillBag ops after).length > 3 then none
    else
      match (if ops.hint after ≠ 0 then some (ops.hint after, shuffle (fillBag ops after))
             else popBag (shuffle (fillBag ops after))) with
      | none => none
      | some (tile, bag1) =>
        match popBag bag1 with
        | none => none
        | some (hint, _) =>
          match expectLoop ops net after tile hint space 0 0 with
          | none => none
          | some (expectation, emptySpace) =>
            if emptySpace = 0 then some fval.nan
            else some (fval.num (expectation / (emptySpace : ℚ)))

/-- The local variables `bestOP`, `bestReward`, `bestValue`, `bestAfterstate` of
`take_action`. -/
structure Best (β : Type) where
  bestOP : Int
  bestReward : Int
  bestValue : ℚ
  bestAfterstate : β

/-- The loop of `td_agent::take_action` over `opcode`; a comparison with NaN is false. -/
def chooseLoop {β : Type} (ops : BoardOps β) (net : List weight)
    (shuffle : List Nat → List Nat) (before : β) : List Int → Best β → Option (Best β)
  | [], best => some best
  | op :: rest, best =>
    if (ops.slide before op).1 = -1 then chooseLoop ops net shuffle before rest best
    else
      match expectationEstimate ops net shuffle (ops.slide before op).2 with
      | none => none
      | some fval.nan => chooseLoop ops net shuffle before rest best
      | some (fval.num value) =>
        if ((ops.slide before op).1 : ℚ) + value > (best.bestReward : ℚ) + best.bestValue then
          chooseLoop ops net shuffle before rest
            { bestOP := op, bestReward := (ops.slide before op).1, bestValue := value
              bestAfterstate := (ops.slide before op).2 }
        else chooseLoop ops net shuffle before rest best

/-- The method `td_agent::take_action`: the action returned and `replayBuffer` after the
call. -/
def take_action {β : Type} (ops : BoardOps β) (net : List weight)
    (shuffle : List Nat → List Nat) (replayBuffer : List (step β)) (before : β) :
    Option (action × List (step β)) :=
  match chooseLoop ops net shuffle before opcode
      { bestOP := -1, bestReward := -1, bestValue := -100000, bestAfterstate := ops.fresh } with
  | none => none
  | some best =>
    some (action.slide best.bestOP,
      if best.bestOP ≠ -1 then
        replayBuffer ++ [{ reward := best.bestReward, afterstate := best.bestAfterstate }]
      else replayBuffer)

/-- The score `reward + value` that `take_action` compares for the direction `op`: `none`
when the slide is illegal or the expectation estimate is NaN or undefined. -/
def slideScore {β : Type} (ops : BoardOps β) (net : List weight)
    (shuffle : List Nat → List Nat) (before : β) (op : Int) : Option ℚ :=
  if (ops.slide before op).1 = -1 then none
  else
    match expectationEstimate ops net shuffle (ops.slide before op).2 with
    | some (fval.num value) => some (((ops.slide before op).1 : ℚ) + value)
    | _ => none

/-- What the loop of `take_action` over the directions `ops1` yields from the running best
`best`: either `best` itself, no direction of `ops1` having a score above that of `best`, or
the record of the first direction of `ops1` whose score is the maximum, which is above that
of `best`. -/
def ChooseResult {β : Type} (ops : BoardOps β) (net : List weight)
    (shuffle : List Nat → List Nat) (before : β) (ops1 : List Int) (best : Best β)
    (out : Option (Best β)) : Prop :=
  (out = some best ∧
    ∀ op ∈ ops1, ∀ sc, slideScore ops net shuffle before op = some sc →
      sc ≤ (best.bestReward : ℚ) + best.bestValue) ∨
  (∃ pre op post value, ops1 = pre ++ op :: post ∧ (ops.slide before op).1 ≠ -1 ∧
    expectationEstimate ops net shuffle (ops.slide before op).2 = some (fval.num value) ∧
    out = some
      { bestOP := op, bestReward := (ops.slide before op).1, bestValue := value
        bestAfterstate := (ops.slide before op).2 } ∧
    (best.bestReward : ℚ) + best.bestValue < ((ops.slide before op).1 : ℚ) + value ∧
    (∀ d ∈ pre, ∀ sc, slideScore ops net shuffle before d = some sc →
      sc < ((ops.slide before op).1 : ℚ) + value) ∧
    (∀ d ∈ post, ∀ sc, slideScore ops net shuffle before d = some sc →
      sc ≤ ((ops.slide before op).1 : ℚ) + value))

/-! ## A concrete board for evaluations -/

/-- Modelled from the spec: a concrete stand-in for the `board` class of the Threes!
framework (board.h is not among the sources). It holds sixteen cells in row-major order with
tile indices (0 empty, 1, 2, 3 for the tile 3, 4 for the tile 6, ...), the pending hint tile,
the counts of the tiles 1, 2, 3 left in the bag, and the direction of the last slide (4
before any slide). It is used for concrete evaluations only. -/
structure Tiles where
  cells : List Nat
  hint : Nat
  bag : List Nat
  last : Nat
  deriving DecidableEq

/-- Two neighbouring tiles merge: 1 with 2, or two equal tiles from 3 on. -/
def mergeable (a b : Nat) : Bool :=
  (a == 1 && b == 2) || (a == 2 && b == 1) || (decide (3 ≤ a) && a == b)

/-- Modelled from the spec: a row slides to the left by one cell at its first gap or first
merging pair; the result is the new row and the reward (the index of the merged tile, 0
without a merge), or `none` when nothing moves. -/
def slideRow : List Nat → Option (List Nat × Int)
  | x :: y :: rest =>
    if x = 0 then
      (if (y :: rest).all (fun t => t == 0) then none else some (y :: rest ++ [0], 0))
    else if mergeable x y then some ((max x y + 1) :: rest ++ [0], ((max x y + 1 : Nat) : Int))
    else (slideRow (y :: rest)).map (fun r => (x :: r.1, r.2))
  | _ => none

/-- The cells rearranged: cell `i` of the result is cell `f i` of the argument. -/
def permute (f : Nat → Nat) (cells : List Nat) : List Nat :=
  (List.range 16).map (fun (i : Nat) => cells.getD (f i) 0)

/-- Mirror image of the cells, left to right. -/
def reflectCells (cells : List Nat) : List Nat :=
  permute (fun i => 4 * (i / 4) + (3 - i % 4)) cells

/-- The cells turned clockwise by a quarter. -/
def rotateCells (cells : List Nat) : List Nat :=
  permute (fun i => 4 * (3 - i % 4) + i / 4) cells

/-- The cells mirrored along the main diagonal. -/
def transposeCells (cells : List Nat) : List Nat :=
  permute (fun i => 4 * (i % 4) + i / 4) cells

/-- Modelled from the spec: all four rows slide to the left; `none` when no row moves. -/
def slideLeftCells (cells : List Nat) : Option (List Nat × Int) :=
  let rows := [cells.take 4, (cells.drop 4).take 4, (cells.drop 8).take 4, (cells.drop 12).take 4]
  if rows.all (fun r => (slideRow r).isNone) then none
  else
    some ((rows.map (fun r => ((slideRow r).map (fun m => m.1)).getD r)).flatten,
      (rows.map (fun r => ((slideRow r).map (fun m => m.2)).getD 0)).sum)

/-- Modelled from the spec: the cells and the reward after a slide in direction `op`
(0 up, 1 right, 2 down, 3 left, the convention of `spaces`); `none` when it is illegal. -/
def slideCells (cells : List Nat) (op : Int) : Option (List Nat × Int) :=
  if op = 3 then slideLeftCells cells
  else if op = 1 then
    (slideLeftCells (reflectCells cells)).map (fun m => (reflectCells m.1, m.2))
  else if op = 0 then
    (slideLeftCells (transposeCells cells)).map (fun m => (transposeCells m.1, m.2))
  else if op = 2 then
    (slideLeftCells (reflectCells (transposeCells cells))).map
      (fun m => (transposeCells (reflectCells m.1), m.2))
  else none

/-- Modelled from the spec: `board::slide(op)` on the stand-in board. -/
def Tiles.slide (b : Tiles) (op : Int) : Int × Tiles :=
  match slideCells b.cells op with
  | none => (-1, b)
  | some (cells, reward) => (reward, { b with cells := cells, last := op.toNat })

/-- Modelled from the spec: `board::place(pos, tile, hint)` on the stand-in board: the tile is
put on the cell and the new hint is taken out of the bag. -/
def Tiles.place (b : Tiles) (pos tile hint : Nat) : Tiles :=
  { b with cells := b.cells.set pos tile, hint := hint
           bag := b.bag.modify (fun n => n - 1) (hint - 1) }

/-- The board operations of the stand-in board. -/
def tilesOps : BoardOps Tiles :=
  { cell := fun b i => b.cells.getD i 0
    slide := Tiles.slide
    place := Tiles.place
    last := Tiles.last
    hint := Tiles.hint
    bag := fun b t => if t = 0 then 0 else b.bag.getD (t - 1) 0
    rotate_clockwise := fun b => { b with cells := rotateCells b.cells }
    reflect_horizontal := fun b => { b with cells := reflectCells b.cells }
    fresh := { cells := List.replicate 16 0, hint := 0, bag := [1, 1, 1], last := 4 } }

/-- Four tables of `16^6` entries, all zero: the tables after `init_weights` with the
default sizes. -/
def zeroNet : List weight :=
  List.replicate 4 { size := 16777216, value := fun _ => 0 }

/-- A board one move before the end of a game: the only empty cell is the top right corner,
no two neighbouring tiles merge, and the pending tile is a 3. Sliding right or up is legal and
merges nothing; whatever cell then receives the 3, no slide is legal afterwards. -/
def lastMove : Tiles :=
  { cells := [4, 5, 6, 0, 7, 8, 9, 10, 11, 12, 13, 4, 5, 6, 7, 8]
    hint := 3, bag := [1, 1, 0], last := 4 }

/-- A full board on which no two neighbouring tiles merge: no slide is legal. -/
def deadBoard : Tiles :=
  { cells := [3, 4, 5, 6, 7, 8, 9, 10, 11, 12, 13, 4, 5, 6, 7, 8]
    hint := 3, bag := [1, 1, 0], last := 1 }

end Threes

namespace Threes

/-! ## Quantities used in the statements about the expectation estimate -/

/-- The score `reward + valueEstimate(afterstate)` of the slide `op` on the board `b`; `none`
when the slide is illegal (or the estimate is undefined). -/
def onePlyScore {β : Type} (ops : BoardOps β) (net : List weight) (b : β) (op : Int) :
    Option ℚ :=
  if (ops.slide b op).1 = -1 then none
  else (valueEstimate ops net (ops.slide b op).2).map (fun v => ((ops.slide b op).1 : ℚ) + v)

/-- The score that the loop of `expectationEstimate` accumulates for the cell `pos`: the
largest of the initial `-1 + -100000` and the scores of the legal slides of the board with
the tile and the hint placed at `pos`. -/
def cellScore {β : Type} (ops : BoardOps β) (net : List weight) (after : β) (tile hint : Nat)
    (pos : Nat) : ℚ :=
  (opcode.filterMap (onePlyScore ops net (ops.place after pos tile hint))).foldl max (-100001)

/-- The eligible cells of an afterstate: the empty cells among the positions of `space`. -/
def eligible {β : Type} (ops : BoardOps β) (after : β) (space : List Nat) : List Nat :=
  space.filter (fun pos => decide (ops.cell after pos = 0))

/-- Four tables of `16^6` entries that all hold `-5000`. -/
def lowNet : List weight :=
  List.replicate 4 { size := 16777216, value := fun _ => -5000 }

/-- An afterstate of a slide to the right whose only eligible cell is the top left corner;
with the pending 3 placed there, the first row slides legally (the two 3 merge). -/
def mergeAfter : Tiles :=
  { cells := [0, 3, 5, 6, 7, 8, 9, 10, 11, 12, 13, 4, 5, 6, 7, 8]
    hint := 3, bag := [1, 1, 0], last := 1 }

end Threes

namespace Threes

/-! ## Learning update -/

/-- The statement `net[k][i] += delta` in exact arithmetic (with the rounding of `float` it
is `Rounded.bump`); `none` when the table or the entry does not exist. -/
def bump (net : List weight) (k : Nat) (i : Int) (delta : ℚ) : Option (List weight) :=
  match net[k]? with
  | none => none
  | some w =>
    if 0 ≤ i ∧ i.toNat < w.size then
      some (net.set k
        { w with value := Function.update w.value i.toNat (w.value i.toNat + delta) })
    else none

/-- The four statements `net[k][featureExtract(state, ...)] += adjustment/8` of one round of
the loops of `valueAdjust`; `delta` is `adjustment/8`. -/
def adjustTuples {β : Type} (ops : BoardOps β) (net : List weight) (state : β) (delta : ℚ) :
    Option (List weight) :=
  match bump net 0 (featureExtract ops state 0 1 2 3 4 5) delta with
  | none => none
  | some n0 =>
    match bump n0 1 (featureExtract ops state 4 5 6 7 8 9) delta with
    | none => none
    | some n1 =>
      match bump n1 2 (featureExtract ops state 0 1 2 4 5 6) delta with
      | none => none
      | some n2 => bump n2 3 (featureExtract ops state 4 5 6 8 9 10) delta

/-- A loop `for (r = 0; r < 4; r++)` of `valueAdjust`, `r` rounds from `state` and `net`. -/
def adjustLoop {β : Type} (ops : BoardOps β) (delta : ℚ) :
    Nat → β → List weight → Option (β × List weight)
  | 0, state, net => some (state, net)
  | r + 1, state, net =>
    match adjustTuples ops net state delta with
    | none => none
    | some net1 => adjustLoop ops delta r (ops.rotate_clockwise state) net1

/-- The method `td_agent::valueAdjust` in exact arithmetic: the tables after the call. With
the rounding of `float` it is `Rounded.valueAdjust`. -/
def valueAdjust {β : Type} (ops : BoardOps β) (net : List weight) (alpha : ℚ) (after : β)
    (TDtarget : ℚ) : Option (List weight) :=
  match valueEstimate ops net after with
  | none => none
  | some currentV =>
    match adjustLoop ops (alpha * (TDtarget - currentV) / 8) 4 after net with
    | none => none
    | some (state, net1) =>
      match adjustLoop ops (alpha * (TDtarget - currentV) / 8) 4
          (ops.reflect_horizontal state) net1 with
      | none => none
      | some (_, net2) => some net2

/-! ## The lookups of an afterstate -/

/-- The four (table, index) pairs that one round of the loops of `valueEstimate` and
`valueAdjust` addresses on the board `state`. -/
def tupleKeys {β : Type} (ops : BoardOps β) (state : β) : List (Nat × Int) :=
  [(0, featureExtract ops state 0 1 2 3 4 5), (1, featureExtract ops state 4 5 6 7 8 9),
   (2, featureExtract ops state 0 1 2 4 5 6), (3, featureExtract ops state 4 5 6 8 9 10)]

/-- The boards `state`, its rotation, ... visited by `r` rounds of a loop. -/
def rotations {β : Type} (ops : BoardOps β) : Nat → β → List β
  | 0, _ => []
  | r + 1, state => state :: rotations ops r (ops.rotate_clockwise state)

/-- The 8 boards visited for an afterstate: four rotations, then the horizontal reflection
of the board reached and its four rotations. -/
def orientations {β : Type} (ops : BoardOps β) (after : β) : List β :=
  rotations ops 4 after
    ++ rotations ops 4 (ops.reflect_horizontal (ops.rotate_clockwise^[4] after))

/-- The 32 (table, index) pairs addressed for an afterstate, in the order of the loops. -/
def featureKeys {β : Type} (ops : BoardOps β) (after : β) : List (Nat × Int) :=
  ((orientations ops after).map (tupleKeys ops)).flatten

/-- The entry `j` of table `k` (0 when the table does not exist). -/
def entry (net : List weight) (k j : Nat) : ℚ :=
  match net[k]? with
  | some w => w.value j
  | none => 0

/-- A (table, index) pair addresses an existing entry of the tables. -/
def ValidKey (net : List weight) (key : Nat × Int) : Prop :=
  ∃ w, net[key.1]? = some w ∧ 0 ≤ key.2 ∧ key.2.toNat < w.size

/-- The lookups of a list of pairs accumulated on `value`, in order. -/
def sumKeys (net : List weight) : List (Nat × Int) → ℚ → Option ℚ
  | [], value => some value
  | key :: rest, value =>
    match lookup net key.1 key.2 with
    | none => none
    | some x => sumKeys net rest (value + x)

/-- The statements `net[k][i] += delta` for a list of pairs, in order. -/
def bumpKeys (delta : ℚ) : List (Nat × Int) → List weight → Option (List weight)
  | [], net => some net
  | key :: rest, net =>
    match bump net key.1 key.2 delta with
    | none => none
    | some net1 => bumpKeys delta rest net1

end Threes

namespace Threes

/-! ## Episodes -/

/-- The data members of `td_agent` that the learning methods read and write. -/
structure td_agent (β : Type) where
  net : List weight
  alpha : ℚ
  replayBuffer : List (step β)

/-- The method `td_agent::open_episode`. -/
def open_episode {β : Type} (self : td_agent β) : td_agent β :=
  { self with replayBuffer := [] }

/-- The loop `for (t = replayBuffer.size() - 2; t >= 0; t--)` of `close_episode` with `n`
rounds left: the next round has `t = n - 1`. -/
def closeLoop {β : Type} (ops : BoardOps β) (alpha : ℚ) (replayBuffer : List (step β)) :
    Nat → List weight → Option (List weight)
  | 0, net => some net
  | t + 1, net =>
    match replayBuffer[t + 1]?, replayBuffer[t]? with
    | some next, some current =>
      match valueEstimate ops net next.afterstate with
      | none => none
      | some v =>
        match valueAdjust ops net alpha current.afterstate ((next.reward : ℚ) + v) with
        | none => none
        | some net1 => closeLoop ops alpha replayBuffer t net1
    | _, _ => none

/-- The method `td_agent::close_episode`. -/
def close_episode {β : Type} (ops : BoardOps β) (self : td_agent β) : Option (td_agent β) :=
  if self.replayBuffer.isEmpty || decide (self.alpha = 0) then some self
  else
    match self.replayBuffer[self.replayBuffer.length - 1]? with
    | none => none
    | some last =>
      match valueAdjust ops self.net self.alpha last.afterstate 0 with
      | none => none
      | some net1 =>
        match closeLoop ops self.alpha self.replayBuffer (self.replayBuffer.length - 1)
            net1 with
        | none => none
        | some net2 => some { self with net := net2 }

/-- The method `td_agent::take_action` on the data members of the agent: the action returned
and the agent after the call. -/
def td_agent.take_action {β : Type} (ops : BoardOps β) (shuffle : List Nat → List Nat)
    (self : td_agent β) (before : β) : Option (action × td_agent β) :=
  match Threes.take_action ops self.net shuffle self.replayBuffer before with
  | none => none
  | some (a, replayBuffer) => some (a, { self with replayBuffer := replayBuffer })

/-- The calls that an episode makes on the agent before `close_episode`: `open_episode`,
then `take_action` on each board presented to the agent, in order. -/
def playEpisode {β : Type} (ops : BoardOps β) (shuffle : List Nat → List Nat)
    (self : td_agent β) (boards : List β) : Option (td_agent β) :=
  boards.foldl
    (fun (st : Option (td_agent β)) before =>
      match st with
      | none => none
      | some agent => (td_agent.take_action ops shuffle agent before).map (fun r => r.2))
    (some (open_episode self))

/-- The backward pass in the words of the specification: the steps after the first are
handled first; then the first step is adjusted towards the reward of the second step plus the
value estimate of its afterstate on the tables already updated; the last step is adjusted
towards 0. -/
def closeSpec {β : Type} (ops : BoardOps β) (alpha : ℚ) :
    List (step β) → List weight → Option (List weight)
  | [], net => some net
  | [s], net => valueAdjust ops net alpha s.afterstate 0
  | s :: s1 :: rest, net =>
    match closeSpec ops alpha (s1 :: rest) net with
    | none => none
    | some net1 =>
      match valueEstimate ops net1 s1.afterstate with
      | none => none
      | some v => valueAdjust ops net1 alpha s.afterstate ((s1.reward : ℚ) + v)

end Threes

namespace Threes

/-- An agent with the default zero tables, learning rate `1/4` and a trajectory of two
steps. -/
def demoAgent : td_agent Tiles :=
  { net := zeroNet, alpha := 1 / 4
    replayBuffer := [{ reward := 0, afterstate := lastMove },
                     { reward := 5, afterstate := deadBoard }] }

end Threes

namespace Framework

/-! ## The options of an agent

The class `agent` is the same in both agent.h files. Strings are lists of characters. -/

/-- The test `std::isspace` in the default locale: the space and the characters 9 to 13. -/
def isspace (c : Char) : Bool :=
  c.toNat = 32 || (9 ≤ c.toNat && c.toNat ≤ 13)

/-- The test `std::isdigit`. -/
def isdigit (c : Char) : Bool :=
  48 ≤ c.toNat && c.toNat ≤ 57

/-- The extractions `ss >> pair` of a string stream until one fails: the maximal runs of
characters that are not white space, in order. `cur` holds the run being read, last character
first. -/
def readTokens : List Char → List Char → List (List Char)
  | [], cur => if cur.isEmpty then [] else [cur.reverse]
  | c :: rest, cur =>
    if isspace c then
      (if cur.isEmpty then readTokens rest [] else cur.reverse :: readTokens rest [])
    else readTokens rest (c :: cur)

/-- The expression `pair.substr(0, pair.find('='))`: the text before the first `=`, all of
`pair` when it has none. -/
def keyOf (pair : List Char) : List Char :=
  pair.takeWhile (fun c => c != '=')

/-- The expression `pair.substr(pair.find('=') + 1)`: the text after the first `=`; when
there is none, `npos + 1` is 0 and the result is all of `pair`. -/
def valueOf (pair : List Char) : List Char :=
  if pair.contains '=' then (pair.dropWhile (fun c => c != '=')).drop 1 else pair

/-- The member `meta`, a `std::map` from keys to values, as the list of the assignments made,
the latest first. -/
abbrev MetaMap := List (List Char × List Char)

/-- The lookup `meta.find(key)`: the value, or `none` for `meta.end()`. -/
def MetaMap.find (m : MetaMap) (key : List Char) : Option (List Char) :=
  m.lookup key

/-- The assignment `meta[key] = { value }`. -/
def MetaMap.set (m : MetaMap) (key value : List Char) : MetaMap :=
  (key, value) :: m

/-- The constructor `agent::agent`: the map `meta` after it. -/
def agent.new (args : List Char) : MetaMap :=
  (readTokens ("name=unknown role=unknown ".toList ++ args) []).foldl
    (fun m pair => m.set (keyOf pair) (valueOf pair)) []

end Framework

namespace Threes

open Framework

/-! ## Construction of the weight tables -/

/-- Modelled from the spec: the constructor `weight(size_t len)` of weight.h (absent), an
array of `len` entries, all zero. -/
def weight.new (len : Nat) : weight :=
  { size := len, value := fun _ => 0 }

/-- A run of digits read as a number. -/
def readNat (digits : List Char) : Nat :=
  digits.foldl (fun n c => 10 * n + (c.toNat - 48)) 0

/-- The numbers that the loop `for (size_t size; in >> size; ...)` of `init_weights` reads
from `info`: every character that is not a digit is replaced by a space, the runs of digits
are read in order, and the loop ends at the first number that does not fit the 64 bits of
`size_t`. -/
def readSizes (info : List Char) : List Nat :=
  ((readTokens (info.map (fun ch => if isdigit ch then ch else ' ')) []).map readNat).takeWhile
    (fun n => n < 2 ^ 64)

/-- The method `weight_agent::init_weights`: the member `net` after the call. -/
def init_weights (net : List weight) (info : List Char) : List weight :=
  net ++ (readSizes info).map weight.new

/-- The local `tuple6` of the constructor of `weight_agent`. -/
def tuple6 : List Char :=
  "16777216,16777216,16777216,16777216".toList

/-- The members of `weight_agent` that its constructor sets before any file is read. -/
structure weight_agent where
  meta : MetaMap
  net : List weight
  alpha : ℚ

/-- The constructor `weight_agent::weight_agent` up to and including the call of
`init_weights`, that is, before `load_weights` and before `alpha` is read. -/
def weight_agent.new (args : List Char) : weight_agent :=
  let meta1 := (agent.new args).set "init".toList tuple6
  { meta := meta1
    net :=
      match meta1.find "init".toList with
      | some info => init_weights [] info
      | none => []
    alpha := 0 }

end Threes

namespace NoGo

open Framework

/-! ## Construction of the player -/

/-- The outcomes of `std::stod`: the number converted, or one of its two exceptions. -/
inductive StodResult
  | value (x : ℚ)
  | invalid_argument
  | out_of_range
  deriving DecidableEq

/-- The ways in which a constructor does not produce an object: the exceptions
`std::invalid_argument` and `std::out_of_range`, and the conversion to `int` of a `double`
outside the range of `int`, which is undefined. -/
inductive Failure
  | invalid_argument
  | out_of_range
  | undefined
  deriving DecidableEq

deriving instance DecidableEq for Except

/-- The conversion `int(x)` of a `double`: the fraction is dropped; `none` outside the range
of a 32-bit `int`. -/
def toInt (x : ℚ) : Option Int :=
  if -2 ^ 31 ≤ Int.tdiv x.num x.den ∧ Int.tdiv x.num x.den < 2 ^ 31 then
    some (Int.tdiv x.num x.den)
  else none

/-- The members of `random_agent` after its constructor: the options, and the seed given to
the engine when there is one. -/
structure random_agent where
  meta : MetaMap
  seed : Option Int
  deriving DecidableEq

/-- The constructor `random_agent::random_agent`; `stod` is `std::stod`. -/
def random_agent.new (stod : List Char → StodResult) (args : List Char) :
    Except Failure random_agent :=
  match (agent.new args).find "seed".toList with
  | none => Except.ok { meta := agent.new args, seed := none }
  | some text =>
    match stod text with
    | StodResult.invalid_argument => Except.error Failure.invalid_argument
    | StodResult.out_of_range => Except.error Failure.out_of_range
    | StodResult.value x =>
      match toInt x with
      | none => Except.error Failure.undefined
      | some s => Except.ok { meta := agent.new args, seed := some s }

/-- The method `agent::property`, that is `meta.at(key)`, which throws `std::out_of_range`
for a key that the map does not hold. -/
def property (m : MetaMap) (key : List Char) : Except Failure (List Char) :=
  match m.find key with
  | some value => Except.ok value
  | none => Except.error Failure.out_of_range

/-- The constructor `player::player`; `stod` is `std::stod`. -/
def player.new (stod : List Char → StodResult) (args : List Char) : Except Failure player :=
  match random_agent.new stod ("name=random role=unknown ".toList ++ args) with
  | Except.error e => Except.error e
  | Except.ok base =>
    match property base.meta "name".toList, property base.meta "role".toList with
    | Except.ok name, Except.ok role =>
      if name.any (fun c => "[]():; ".toList.contains c) then
        Except.error Failure.invalid_argument
      else
        let who1 := if role = "black".toList then piece_type.black else piece_type.empty
        let who2 := if role = "white".toList then piece_type.white else who1
        if who2 = piece_type.empty then Except.error Failure.invalid_argument
        else Except.ok (player.ofRole who2)
    | Except.error e, _ => Except.error e
    | _, Except.error e => Except.error e

/-- Modelled from the spec: the option `key` as resolved from the arguments of the player, the
value of the last pair with that key (a token without `=` is read as the pair of the token
with itself), and `dflt` when no pair has the key. -/
def resolved (key dflt args : List Char) : List Char :=
  match (readTokens args []).reverse.find? (fun pair => keyOf pair == key) with
  | some pair => valueOf pair
  | none => dflt

/-- A name holds one of the characters `[ ] ( ) : ;` or a space. -/
def reservedName (name : List Char) : Bool :=
  name.any (fun c => "[]():; ".toList.contains c)

/-- A stand-in for `std::stod`, exact on the texts of the concrete evaluations: a run of
decimal digits converts to its value, and a text such as `x`, which starts no number, makes
`std::stod` throw `std::invalid_argument`. On other texts (signs, fractions, exponents,
`inf`, `nan`, characters after the number) it is not a model of `std::stod`. -/
def stodDigits (text : List Char) : StodResult :=
  if text ≠ [] ∧ text.all isdigit then
    StodResult.value ((text.foldl (fun n c => 10 * n + (c.toNat - 48)) 0 : Nat) : ℚ)
  else StodResult.invalid_argument

end NoGo

namespace NoGo

/-! ## Arenas grown from a fresh root -/

/-- The `pos` fields of the children of a node, in the order of `children`. -/
def childPos {β : Type} (tree : Tree β) (n : node β) : List Int :=
  n.children.map (fun c => ((tree[c]?).map node.pos).getD (-1))

/-- The arenas grown from a fresh root for `board`: by calls of `takeExpansion` on any node
with any shuffled vector and, as `MCTS` interleaves them with the expansions, calls of
`takeBackpropagation`. -/
inductive Grown {β : Type} (ops : BoardOps β) (board : β) : Tree β → Prop
  | fresh : Grown ops board [node.new board]
  | expand {tree tree1 : Tree β} {Node res : Nat} {vec : List Int} :
      Grown ops board tree → takeExpansion ops tree Node vec = some (tree1, res) →
      Grown ops board tree1
  | backprop {tree : Tree β} (path : List Nat) (winner : piece_type) (games win_count : Int) :
      Grown ops board tree →
      Grown ops board (takeBackpropagation ops tree path winner games win_count)

/-- The invariant of a node `n` of the arena: its children are entries of the arena, their
`pos` fields are pairwise distinct, `children_pos` holds exactly these, and each of them is a
legal placement on the board of `n`. -/
def NodeInv {β : Type} (ops : BoardOps β) (tree : Tree β) (n : node β) : Prop :=
  (∀ c ∈ n.children, c < tree.length) ∧
  (childPos tree n).Nodup ∧
  (∀ p : Int, p ∈ n.children_pos ↔ p ∈ childPos tree n) ∧
  ∀ c ∈ n.children, ∃ cn, tree[c]? = some cn ∧ (ops.place n.state cn.pos).1 = true

end NoGo

namespace NoGo

/-! ## Visit counts -/

/-- The node at which the path of one round of `MCTS` ends, that is `path.back()` once the
expansion has been added to the path: the node from which the rollout of the round starts. -/
def roundEnd {β : Type} (M : Libm) (ops : BoardOps β) (self : player) (root : Nat)
    (tree : Tree β) (vecE : List Int) : Option Nat :=
  match takeSelection M ops self tree tree.length root with
  | none => none
  | some path =>
    match path.getLast? with
    | none => none
    | some back =>
      match takeExpansion ops tree back vecE with
      | none => none
      | some (_, expandNode) =>
        (if expandNode ≠ back then path ++ [expandNode] else path).getLast?

/-- The nodes at which the paths of the rounds of the loop of `MCTS` end, in the order of the
rounds; the rounds and their shuffles are those of `mctsLoop`. -/
def mctsEnds {β : Type} (M : Libm) (ops : BoardOps β) (self : player) (root : Nat)
    (shuffles : Nat → List Int) : Nat → Nat → Tree β → Option (List Nat)
  | 0, _, _ => some []
  | count + 1, k, tree =>
    match roundEnd M ops self root tree (shuffles (2 * k)),
        mctsRound M ops self root tree (shuffles (2 * k)) (shuffles (2 * k + 1)) with
    | some e, some tree1 =>
      (mctsEnds M ops self root shuffles count (k + 1) tree1).map (fun es => e :: es)
    | _, _ => none

end NoGo

namespace NoGo

/-! ## One iteration of the rollout loop -/

/-- The body of the `while (remaining != 0)` loop of `takeSimulation`: the front of the deque
is popped and placed; after a legal placement `remaining` is the new size of the deque,
otherwise the position goes to the back of the deque and `remaining` drops by one. The result
is the board, the deque, `remaining` and the record of the legal placements after the
iteration; `none` when the deque is empty. -/
def simStep {β : Type} (ops : BoardOps β) (b : β) (dq : List Int) (remaining : Nat)
    (placed : List Int) : Option (β × List Int × Nat × List Int) :=
  match dq with
  | [] => none
  | i :: rest =>
    if (ops.place b i).1 then some ((ops.place b i).2, rest, rest.length, placed ++ [i])
    else some ((ops.place b i).2, rest ++ [i], remaining - 1, placed)

end NoGo

namespace Threes

/-! ## Coinciding lookups -/

/-- The sum, over the distinct (table, index) pairs of a list of lookups, of the square of
the number of lookups of the list that address the pair. -/
def touchedSquares (keys : List (Nat × Int)) : Nat :=
  (keys.dedup.map (fun e => keys.count e ^ 2)).sum

end Threes

namespace Framework

/-! ## Floating-point rounding

The code computes scores and weights in `float` and `double`. In the definitions named
`Rounded.…` the rounding of every floating-point operation is explicit: the operation is
carried out on exact values and its result is rounded by a function of a `Rounding`. The
definitions without rounding are their instances at `Rounding.exact`. -/

/-- The rounding of the two floating-point formats: `toFloat x` is the `float` and
`toDouble x` the `double` that stands for the exact value `x`. Infinities and NaN are not
values of this model: it describes the operations whose results are finite numbers. -/
structure Rounding where
  toFloat : ℚ → ℚ
  toDouble : ℚ → ℚ

/-- Arithmetic without rounding. -/
def Rounding.exact : Rounding :=
  { toFloat := fun x => x, toDouble := fun x => x }

/-- The number of halvings that bring `n` below 2, that is `⌊log₂ n⌋` for `n ≥ 1`; `fuel`
bounds the number of halvings. -/
def bitLength : Nat → Nat → Nat
  | 0, _ => 0
  | fuel + 1, n => if n < 2 then 0 else bitLength fuel (n / 2) + 1

/-- The binary exponent of a non-zero rational: the `e` with `2^e ≤ |x| < 2^(e+1)`. -/
def expOf (x : ℚ) : Int :=
  let n := x.num.natAbs
  let d := x.den
  let e0 : Int := (bitLength n n : Int) - (bitLength d d : Int)
  if (if 0 ≤ e0 then d * 2 ^ e0.toNat ≤ n else d ≤ n * 2 ^ (-e0).toNat) then e0 else e0 - 1

/-- The integer nearest to `q`, the even one of the two when `q` lies halfway. -/
def nearestEven (q : ℚ) : Int :=
  if q - q.floor < 1 / 2 then q.floor
  else if 1 / 2 < q - q.floor then q.floor + 1
  else if q.floor % 2 = 0 then q.floor else q.floor + 1

/-- The product `x * 2^k`. -/
def scaleBy (x : ℚ) (k : Int) : ℚ :=
  if 0 ≤ k then x * (2 ^ k.toNat : Nat) else x / (2 ^ (-k).toNat : Nat)

/-- Modelled from IEEE 754: the value with a significand of `p` bits and an exponent not
below `emin` that is nearest to `x`, ties going to the even significand. Overflow to infinity
is not modelled: the function is the rounding of the format for magnitudes below its largest
finite value. -/
def roundTo (p : Nat) (emin : Int) (x : ℚ) : ℚ :=
  if x = 0 then 0
  else
    scaleBy (nearestEven (scaleBy x ((p : Int) - 1 - max (expOf x) emin)) : ℚ)
      (max (expOf x) emin - ((p : Int) - 1))

/-- Rounding to `float` (IEEE 754 binary32). -/
def binary32 : ℚ → ℚ := roundTo 24 (-126)

/-- Rounding to `double` (IEEE 754 binary64). -/
def binary64 : ℚ → ℚ := roundTo 53 (-1022)

/-- The rounding of IEEE 754 arithmetic, used for concrete evaluations. -/
def Rounding.ieee : Rounding :=
  { toFloat := binary32, toDouble := binary64 }

end Framework

namespace NoGo

open Framework

/-! ## Selection in floating-point arithmetic -/

/-- The method `node::calculateWinRate` with its rounding: `(float) wins / total` converts
`wins` and `total` to `float` and divides in `float`. -/
def Rounded.calculateWinRate {β : Type} (R : Rounding) (n : node β) : ℚ :=
  if n.total = 0 then 0 else R.toFloat (R.toFloat (n.wins : ℚ) / R.toFloat (n.total : ℚ))

/-- The method `node::calculateUCB` with its rounding; `none` when the parent pointer cannot
be dereferenced. The sum `calculateWinRate() + 0.5 * std::sqrt(std::log(parent->total) /
total)` is computed in `double` (`M.log` and `M.sqrt` are the `double` functions, the totals
convert to `double` exactly) and converted to the `float` that the method returns. -/
def Rounded.calculateUCB {β : Type} (R : Rounding) (M : Libm) (tree : Tree β) (n : node β) :
    Option ℚ :=
  match n.parent with
  | none => none
  | some p =>
    match tree[p]? with
    | none => none
    | some pn =>
      some (if pn.total = 0 ∨ n.total = 0 then Rounded.calculateWinRate R n
            else R.toFloat (R.toDouble (Rounded.calculateWinRate R n
              + R.toDouble ((1 / 2)
                * M.sqrt (R.toDouble (M.log (pn.total : ℚ) / (n.total : ℚ)))))))

/-- The inner `for` loop of `takeSelection` over the children, comparing the `float` scores,
from the running `value` and `nextNode` (`none` while `nextNode` is uninitialised). -/
def Rounded.pickChild {β : Type} (R : Rounding) (M : Libm) (tree : Tree β) :
    List Nat → ℚ → Option Nat → Option Nat
  | [], _, nextNode => nextNode
  | c :: rest, value, nextNode =>
    match tree[c]? with
    | none => none
    | some childNode =>
      match Rounded.calculateUCB R M tree childNode with
      | none => none
      | some tmp =>
        if tmp > value then Rounded.pickChild R M tree rest tmp (some c)
        else Rounded.pickChild R M tree rest value nextNode

/-- The `while` loop of `takeSelection` with `float` scores, with the leaf test evaluated at
the head of each round for the node `current`; `vec` is the path so far. -/
def Rounded.selectLoop {β : Type} (R : Rounding) (M : Libm) (ops : BoardOps β) (self : player)
    (tree : Tree β) : Nat → Nat → List Nat → Option (List Nat)
  | 0, _, _ => none
  | fuel + 1, current, vec =>
    match tree[current]? with
    | none => none
    | some cur =>
      if isLeaf ops self cur then some vec
      else
        match Rounded.pickChild R M tree cur.children (-1000000) none with
        | none => none
        | some nextNode =>
          Rounded.selectLoop R M ops self tree fuel nextNode (vec ++ [nextNode])

/-- The method `player::takeSelection` with `float` scores. -/
def Rounded.takeSelection {β : Type} (R : Rounding) (M : Libm) (ops : BoardOps β)
    (self : player) (tree : Tree β) (fuel : Nat) (root : Nat) : Option (List Nat) :=
  Rounded.selectLoop R M ops self tree fuel root [root]

/-- The UCB score as the code computes it, from the counters of the child and the visit count
of its parent: the win rate is 0 when `total` is 0 and `float(wins) / float(total)` rounded
to `float` otherwise; the score is the win rate when `parentTotal` or `total` is 0 and
otherwise `winRate + 0.5 * sqrt (ln parentTotal / total)` evaluated in `double` and rounded
to `float`. -/
def roundedScore (R : Rounding) (M : Libm) (wins total parentTotal : Int) : ℚ :=
  if parentTotal = 0 ∨ total = 0 then
    (if total = 0 then 0 else R.toFloat (R.toFloat (wins : ℚ) / R.toFloat (total : ℚ)))
  else
    R.toFloat (R.toDouble
      ((if total = 0 then 0 else R.toFloat (R.toFloat (wins : ℚ) / R.toFloat (total : ℚ)))
        + R.toDouble ((1 / 2) * M.sqrt (R.toDouble (M.log (parentTotal : ℚ) / (total : ℚ))))))

/-- Every `float` score that `calculateUCB` computes in the arena is above `-1000000.0`, the
initial `value` of the selection loop. -/
def Rounded.ScoresAboveInit {β : Type} (R : Rounding) (M : Libm) (tree : Tree β) : Prop :=
  ∀ cn ∈ tree, ∀ s ∈ Rounded.calculateUCB R M tree cn, (-1000000 : ℚ) < s

instance {β : Type} (R : Rounding) (M : Libm) (tree : Tree β) :
    Decidable (Rounded.ScoresAboveInit R M tree) := by
  unfold Rounded.ScoresAboveInit; infer_instance

/-- The node `c` is the first child of `p`, in insertion order, whose `float` score is the
maximum of the `float` scores of the children of `p`. -/
def Rounded.FirstMaxChild {β : Type} (R : Rounding) (M : Libm) (tree : Tree β) (p c : Nat) :
    Prop :=
  ∃ pn cn pre post, tree[p]? = some pn ∧ tree[c]? = some cn ∧ pn.children = pre ++ c :: post ∧
    (∀ d ∈ pre, ∀ dn, tree[d]? = some dn →
      roundedScore R M dn.wins dn.total pn.total < roundedScore R M cn.wins cn.total pn.total) ∧
    (∀ d ∈ post, ∀ dn, tree[d]? = some dn →
      roundedScore R M dn.wins dn.total pn.total ≤ roundedScore R M cn.wins cn.total pn.total)

/-- One step of the walk of `takeSelection` with `float` scores: `p` is not a leaf for the
loop, and `c`, a later entry of the arena, is the child chosen. -/
def Rounded.SelStep {β : Type} (R : Rounding) (M : Libm) (ops : BoardOps β) (self : player)
    (tree : Tree β) (p c : Nat) : Prop :=
  (∃ pn, tree[p]? = some pn ∧ isLeaf ops self pn = false) ∧ p < c ∧
    Rounded.FirstMaxChild R M tree p c

/-- The `float` score of the entry `c` of the arena under a parent with visit count
`parentTotal`. -/
def Rounded.scoreOf {β : Type} (R : Rounding) (M : Libm) (tree : Tree β) (parentTotal : Int)
    (c : Nat) : ℚ :=
  match tree[c]? with
  | some cn => roundedScore R M cn.wins cn.total parentTotal
  | none => 0

/-- An arena on the board `twoHoles` in which the two children of the root have the win rates
`16777216 / 16777217` and `16777217 / 16777217`, and the root has no visit. -/
def tieTree : Tree Grid :=
  [ { state := twoHoles, wins := 0, total := 0, pos := -1, children := [1, 2],
      children_pos := {0, 1}, parent := none },
    { state := (gridOps.place twoHoles 0).2, wins := 16777216, total := 16777217, pos := 0,
      children := [], children_pos := ∅, parent := some 0 },
    { state := (gridOps.place twoHoles 1).2, wins := 16777217, total := 16777217, pos := 1,
      children := [], children_pos := ∅, parent := some 0 } ]

end NoGo

namespace Threes

open Framework

/-! ## Value estimate and learning update in `float` arithmetic -/

/-- The four statements `value += net[k][featureExtract(state, ...)]` of one round of the
loops of `valueEstimate`, each `+=` rounding its sum to `float`. -/
def Rounded.addTuples {β : Type} (R : Rounding) (ops : BoardOps β) (net : List weight)
    (state : β) (value : ℚ) : Option ℚ :=
  match lookup net 0 (featureExtract ops state 0 1 2 3 4 5),
        lookup net 1 (featureExtract ops state 4 5 6 7 8 9),
        lookup net 2 (featureExtract ops state 0 1 2 4 5 6),
        lookup net 3 (featureExtract ops state 4 5 6 8 9 10) with
  | some v0, some v1, some v2, some v3 =>
    some (R.toFloat (R.toFloat (R.toFloat (R.toFloat (value + v0) + v1) + v2) + v3))
  | _, _, _, _ => none

/-- A loop `for (r = 0; r < 4; r++)` of `valueEstimate` in `float` arithmetic, `r` rounds
from `state` and `value`. -/
def Rounded.estimateLoop {β : Type} (R : Rounding) (ops : BoardOps β) (net : List weight) :
    Nat → β → ℚ → Option (β × ℚ)
  | 0, state, value => some (state, value)
  | r + 1, state, value =>
    match Rounded.addTuples R ops net state value with
    | none => none
    | some v => Rounded.estimateLoop R ops net r (ops.rotate_clockwise state) v

/-- The method `td_agent::valueEstimate` in `float` arithmetic. -/
def Rounded.valueEstimate {β : Type} (R : Rounding) (ops : BoardOps β) (net : List weight)
    (after : β) : Option ℚ :=
  match Rounded.estimateLoop R ops net 4 after 0 with
  | none => none
  | some (state, value) =>
    match Rounded.estimateLoop R ops net 4 (ops.reflect_horizontal state) value with
    | none => none
    | some (_, value1) => some value1

/-- The statement `net[k][i] += delta` in `float` arithmetic: the entry becomes the sum
rounded to `float`; `none` when the table or the entry does not exist. -/
def Rounded.bump (R : Rounding) (net : List weight) (k : Nat) (i : Int) (delta : ℚ) :
    Option (List weight) :=
  match net[k]? with
  | none => none
  | some w =>
    if 0 ≤ i ∧ i.toNat < w.size then
      some (net.set k
        { w with
          value := Function.update w.value i.toNat (R.toFloat (w.value i.toNat + delta)) })
    else none

/-- The four statements `net[k][featureExtract(state, ...)] += adjustment/8` of one round of
the loops of `valueAdjust` in `float` arithmetic; `delta` is the `float` `adjustment/8`. -/
def Rounded.adjustTuples {β : Type} (R : Rounding) (ops : BoardOps β) (net : List weight)
    (state : β) (delta : ℚ) : Option (List weight) :=
  match Rounded.bump R net 0 (featureExtract ops state 0 1 2 3 4 5) delta with
  | none => none
  | some n0 =>
    match Rounded.bump R n0 1 (featureExtract ops state 4 5 6 7 8 9) delta with
    | none => none
    | some n1 =>
      match Rounded.bump R n1 2 (featureExtract ops state 0 1 2 4 5 6) delta with
      | none => none
      | some n2 => Rounded.bump R n2 3 (featureExtract ops state 4 5 6 8 9 10) delta

/-- A loop `for (r = 0; r < 4; r++)` of `valueAdjust` in `float` arithmetic, `r` rounds from
`state` and `net`. -/
def Rounded.adjustLoop {β : Type} (R : Rounding) (ops : BoardOps β) (delta : ℚ) :
    Nat → β → List weight → Option (β × List weight)
  | 0, state, net => some (state, net)
  | r + 1, state, net =>
    match Rounded.adjustTuples R ops net state delta with
    | none => none
    | some net1 => Rounded.adjustLoop R ops delta r (ops.rotate_clockwise state) net1

/-- The `float` value `adjustment/8` of `valueAdjust`: `TDerror = TDtarget - currentV`,
`adjustment = alpha * TDerror` and the quotient by 8, each rounded to `float`. -/
def Rounded.step (R : Rounding) (alpha TDtarget currentV : ℚ) : ℚ :=
  R.toFloat (R.toFloat (alpha * R.toFloat (TDtarget - currentV)) / 8)

/-- The method `td_agent::valueAdjust` in `float` arithmetic: the tables after the call. -/
def Rounded.valueAdjust {β : Type} (R : Rounding) (ops : BoardOps β) (net : List weight)
    (alpha : ℚ) (after : β) (TDtarget : ℚ) : Option (List weight) :=
  match Rounded.valueEstimate R ops net after with
  | none => none
  | some currentV =>
    match Rounded.adjustLoop R ops (Rounded.step R alpha TDtarget currentV) 4 after net with
    | none => none
    | some (state, net1) =>
      match Rounded.adjustLoop R ops (Rounded.step R alpha TDtarget currentV) 4
          (ops.reflect_horizontal state) net1 with
      | none => none
      | some (_, net2) => some net2

/-- The lookups of a list of pairs accumulated on `value` in `float` arithmetic, in order. -/
def Rounded.sumKeys (R : Rounding) (net : List weight) : List (Nat × Int) → ℚ → Option ℚ
  | [], value => some value
  | key :: rest, value =>
    match lookup net key.1 key.2 with
    | none => none
    | some x => Rounded.sumKeys R net rest (R.toFloat (value + x))

/-- The statements `net[k][i] += delta` in `float` arithmetic for a list of pairs, in
order. -/
def Rounded.bumpKeys (R : Rounding) (delta : ℚ) :
    List (Nat × Int) → List weight → Option (List weight)
  | [], net => some net
  | key :: rest, net =>
    match Rounded.bump R net key.1 key.2 delta with
    | none => none
    | some net1 => Rounded.bumpKeys R delta rest net1

end Threes

/-! # Theorems -/

namespace NoGo

/-! ## Backpropagation -/

theorem backpropNode_iterate {β : Type} (ops : BoardOps β) (winner : piece_type)
    (games win_count : Int) (n : node β) (k : Nat) :
    (backpropNode ops winner games win_count)^[k] n =
      { n with
        total := n.total + games * k
        wins := if winner ≠ ops.who_take_turns n.state then n.wins + win_count * k
                else n.wins - win_count * k } := by
  induction k generalizing n with
  | zero => cases n; simp
  | succ k ih =>
    rw [Function.iterate_succ_apply, ih]
    cases n
    simp only [backpropNode]
    split <;> (congr 1 <;> push_cast <;> ring)

theorem takeBackpropagation_length {β : Type} (ops : BoardOps β) (winner : piece_type)
    (games win_count : Int) (path : List Nat) (tree : Tree β) :
    (takeBackpropagation ops tree path winner games win_count).length = tree.length := by
  induction path generalizing tree with
  | nil => rfl
  | cons p rest ih =>
    simp only [takeBackpropagation, List.foldl_cons] at ih ⊢
    rw [ih]; simp

theorem takeBackpropagation_getElem? {β : Type} (ops : BoardOps β) (winner : piece_type)
    (games win_count : Int) (path : List Nat) (tree : Tree β) (i : Nat) :
    (takeBackpropagation ops tree path winner games win_count)[i]? =
      (tree[i]?).map ((backpropNode ops winner games win_count)^[path.count i]) := by
  induction path generalizing tree with
  | nil => simp [takeBackpropagation]
  | cons p rest ih =>
    simp only [takeBackpropagation, List.foldl_cons] at ih ⊢
    rw [ih, List.getElem?_modify, List.count_cons]
    by_cases hp : p = i
    · subst hp
      cases h : tree[p]? <;> simp [Function.iterate_succ_apply]
    · have hne : (p == i) = false := by simpa using hp
      cases h : tree[i]? <;> simp [hp, hne]

/-- C1: `takeBackpropagation(path, winner, games, win_count)`, for every path, winner, games
and win_count, keeps the arena size and every node's board, pos, children, children_pos and
parent. A node that occurs `k` times on the path ends with `total` increased by `k * games`
and with `wins` increased by `k * win_count` when `winner` differs from the side to move on
the node's board and decreased by it when it equals it. So on a path that lists each node
once, each node on the path ends with `total` increased by `games` and `wins` increased or
decreased by `win_count`; and a node that is not on the path is unchanged. -/
theorem takeBackpropagation_spec {β : Type} (ops : BoardOps β) (tree : Tree β)
    (path : List Nat) (winner : piece_type) (games win_count : Int) :
    (takeBackpropagation ops tree path winner games win_count).length = tree.length ∧
    ∀ (i : Nat) (n : node β), tree[i]? = some n →
      ∃ n1, (takeBackpropagation ops tree path winner games win_count)[i]? = some n1 ∧
        n1.state = n.state ∧ n1.pos = n.pos ∧ n1.children = n.children ∧
        n1.children_pos = n.children_pos ∧ n1.parent = n.parent ∧
        n1.total = n.total + games * (path.count i : Nat) ∧
        n1.wins = (if winner ≠ ops.who_take_turns n.state then
                     n.wins + win_count * (path.count i : Nat)
                   else n.wins - win_count * (path.count i : Nat)) ∧
        (path.Nodup → i ∈ path → n1.total = n.total + games ∧
          n1.wins = if winner ≠ ops.who_take_turns n.state then n.wins + win_count
                    else n.wins - win_count) ∧
        (i ∉ path → n1 = n) := by
  refine ⟨takeBackpropagation_length ops winner games win_count path tree, ?_⟩
  intro i n hn
  refine ⟨_, by rw [takeBackpropagation_getElem?, hn]; rfl, ?_⟩
  rw [backpropNode_iterate]
  refine ⟨rfl, rfl, rfl, rfl, rfl, rfl, rfl, ?_, ?_⟩
  · intro hnd hi
    have hc : path.count i = 1 := List.count_eq_one_of_mem hnd hi
    simp [hc]
  · intro hi
    have hc : path.count i = 0 := List.count_eq_zero_of_not_mem hi
    cases n
    simp [hc]

theorem takeBackpropagation_spec_witness :
    (takeBackpropagation gridOps demoTree [0, 1, 3] piece_type.white 1 1).length
      = demoTree.length ∧
    ∀ (i : Nat) (n : node Grid), demoTree[i]? = some n →
      ∃ n1, (takeBackpropagation gridOps demoTree [0, 1, 3] piece_type.white 1 1)[i]?
          = some n1 ∧
        n1.state = n.state ∧ n1.pos = n.pos ∧ n1.children = n.children ∧
        n1.children_pos = n.children_pos ∧ n1.parent = n.parent ∧
        n1.total = n.total + 1 * ([0, 1, 3].count i : Nat) ∧
        n1.wins = (if piece_type.white ≠ gridOps.who_take_turns n.state then
                     n.wins + 1 * ([0, 1, 3].count i : Nat)
                   else n.wins - 1 * ([0, 1, 3].count i : Nat)) ∧
        ([0, 1, 3].Nodup → i ∈ [0, 1, 3] → n1.total = n.total + 1 ∧
          n1.wins = if piece_type.white ≠ gridOps.who_take_turns n.state then n.wins + 1
                    else n.wins - 1) ∧
        (i ∉ [0, 1, 3] → n1 = n) :=
  takeBackpropagation_spec gridOps demoTree [0, 1, 3] piece_type.white 1 1

theorem takeBackpropagation_demo :
    (takeBackpropagation gridOps demoTree [0, 1, 3] piece_type.white 1 1).map
      (fun n => (n.wins, n.total)) = [(5, 5), (-3, 3), (-2, 2), (2, 2), (1, 1)] := by
  decide!

/-! ## Selection -/

/-- C2 (evaluation of the code): on `demoTree`, with the agent playing Black, `takeSelection`
from the root returns the path `[0, 1]`; its last node 1 has White to move, White has a
legal placement there (position 1), and every placement that is legal there is already a
child (it is in `children_pos`), so the walk stopped on a fully expanded node that has a
legal move. The count that `takeSelection` makes at node 1 is 0, because it tries the
placements of the agent's own colour. -/
theorem takeSelection_stops_on_expanded_node :
    takeSelection demoLibm gridOps (player.ofRole piece_type.black) demoTree demoTree.length 0
      = some [0, 1] ∧
    (∃ nd, demoTree[1]? = some nd ∧
      gridOps.who_take_turns nd.state = piece_type.white ∧
      (gridOps.place nd.state 1).1 = true ∧
      legalCount gridOps (player.ofRole piece_type.black) nd.state = 0 ∧
      nd.children.length = 1 ∧
      ∀ p ∈ List.range 81, (gridOps.place nd.state (p : Int)).1 = true →
        (p : Int) ∈ nd.children_pos) := by
  refine ⟨by decide!, ⟨_, rfl, by decide!, by decide!, by decide!, by decide!, by decide!⟩⟩

theorem WellFormed.child {β : Type} {tree : Tree β} (hwf : WellFormed tree) {p c : Nat}
    {pn : node β} (hp : tree[p]? = some pn) (hc : c ∈ pn.children) :
    p < c ∧ ∃ cn, tree[c]? = some cn ∧ cn.parent = some p := by
  have hlt : p < tree.length := (List.getElem?_eq_some.mp hp).1
  have h := hwf p hlt c (by simpa [hp] using hc)
  refine ⟨h.1, ?_⟩
  cases hcn : tree[c]? with
  | none => simp [hcn] at h
  | some cn =>
    refine ⟨cn, rfl, ?_⟩
    have h2 := h.2
    simp only [hcn, Option.map_some', Option.some.injEq] at h2
    exact h2

theorem calculateUCB_eq_specScore {β : Type} (M : Libm) {tree : Tree β} {p : Nat}
    {pn cn : node β} (hp : tree[p]? = some pn) (hpar : cn.parent = some p) :
    cn.calculateUCB M tree = some (specScore M cn.wins cn.total pn.total) := by
  simp only [node.calculateUCB, hpar, hp, specScore, node.calculateWinRate]

theorem pickChild_spec {β : Type} (M : Libm) (tree : Tree β) (score : Nat → ℚ) :
    ∀ (cs : List Nat) (value : ℚ) (next : Option Nat),
      (∀ c ∈ cs, ∃ cn, tree[c]? = some cn ∧ cn.calculateUCB M tree = some (score c)) →
      (pickChild M tree cs value next = next ∧ ∀ c ∈ cs, score c ≤ value) ∨
      (∃ pre c post, cs = pre ++ c :: post ∧ pickChild M tree cs value next = some c ∧
        value < score c ∧ (∀ d ∈ pre, score d < score c) ∧ (∀ d ∈ post, score d ≤ score c)) := by
  intro cs
  induction cs with
  | nil => intro value next _; left; simp [pickChild]
  | cons c rest ih =>
    intro value next h
    obtain ⟨cn, hcn, hs⟩ := h c (List.mem_cons_self c rest)
    have hrest : ∀ d ∈ rest, ∃ dn, tree[d]? = some dn ∧
        dn.calculateUCB M tree = some (score d) :=
      fun d hd => h d (List.mem_cons_of_mem c hd)
    simp only [pickChild, hcn, hs]
    by_cases hgt : score c > value
    · rw [if_pos hgt]
      rcases ih (score c) (some c) hrest with ⟨heq, hle⟩ | ⟨pre, d, post, hsplit, heq, hlt, hpre, hpost⟩
      · right
        exact ⟨[], c, rest, rfl, heq, hgt, by simp, hle⟩
      · right
        refine ⟨c :: pre, d, post, by simp [hsplit], heq, lt_trans hgt hlt, ?_, hpost⟩
        intro e he
        rcases List.mem_cons.mp he with rfl | he
        · exact hlt
        · exact hpre e he
    · rw [if_neg hgt]
      have hle : score c ≤ value := not_lt.mp hgt
      rcases ih value next hrest with ⟨heq, hall⟩ | ⟨pre, d, post, hsplit, heq, hlt, hpre, hpost⟩
      · left
        refine ⟨heq, ?_⟩
        intro e he
        rcases List.mem_cons.mp he with rfl | he
        · exact hle
        · exact hall e he
      · right
        refine ⟨c :: pre, d, post, by simp [hsplit], heq, hlt, ?_, hpost⟩
        intro e he
        rcases List.mem_cons.mp he with rfl | he
        · exact lt_of_le_of_lt hle hlt
        · exact hpre e he

theorem isLeaf_false_children {β : Type} (ops : BoardOps β) (self : player) (n : node β)
    (h : isLeaf ops self n = false) : n.children ≠ [] := by
  intro hnil
  simp only [isLeaf, hnil, List.length_nil, Bool.or_eq_false_iff, beq_eq_false_iff_ne,
    bne_eq_false_iff_eq] at h
  exact h.1 h.2.symm

theorem selectLoop_spec {β : Type} (M : Libm) (ops : BoardOps β) (self : player)
    {tree : Tree β} (hwf : WellFormed tree) (hinit : ScoresAboveInit M tree) :
    ∀ (fuel current : Nat) (vec : List Nat), current < tree.length →
      tree.length ≤ fuel + current →
      ∃ rest, selectLoop M ops self tree fuel current vec = some (vec ++ rest) ∧
        List.Chain (SelStep M ops self tree) current rest ∧
        ∃ l ln, (current :: rest).getLast? = some l ∧ tree[l]? = some ln ∧
          isLeaf ops self ln = true := by
  intro fuel
  induction fuel with
  | zero => intro current vec h1 h2; omega
  | succ fuel ih =>
    intro current vec h1 h2
    obtain ⟨cur, hcur⟩ : ∃ cur, tree[current]? = some cur :=
      ⟨tree[current], List.getElem?_eq_getElem h1⟩
    simp only [selectLoop, hcur]
    by_cases hleaf : isLeaf ops self cur = true
    · rw [if_pos hleaf]
      exact ⟨[], by simp, List.Chain.nil, current, cur, by simp, hcur, hleaf⟩
    · have hleaf2 : isLeaf ops self cur = false := by simpa using hleaf
      rw [if_neg hleaf]
      have hch : ∀ c ∈ cur.children, ∃ cn, tree[c]? = some cn ∧
          cn.calculateUCB M tree = some (scoreOf M tree cur.total c) := by
        intro c hc
        obtain ⟨_, cn, hcn, hpar⟩ := hwf.child hcur hc
        exact ⟨cn, hcn, by rw [calculateUCB_eq_specScore M hcur hpar]; simp [scoreOf, hcn]⟩
      rcases pickChild_spec M tree (scoreOf M tree cur.total) cur.children (-1000000) none hch
        with ⟨_, hall⟩ | ⟨pre, c, post, hsplit, heq, hlt, hpre, hpost⟩
      · exfalso
        obtain ⟨c, hc⟩ := List.exists_mem_of_ne_nil _ (isLeaf_false_children ops self cur hleaf2)
        obtain ⟨cn, hcn, hs⟩ := hch c hc
        have hgt := hinit cn (List.getElem?_mem hcn) _ hs
        exact absurd (hall c hc) (not_le.mpr hgt)
      · have hc : c ∈ cur.children := by rw [hsplit]; simp
        obtain ⟨hpc, cn, hcn, hpar⟩ := hwf.child hcur hc
        have hclt : c < tree.length := (List.getElem?_eq_some.mp hcn).1
        obtain ⟨rest, hsel, hchain, l, ln, hl, hln, hlf⟩ := ih c (vec ++ [c]) hclt (by omega)
        rw [heq]
        refine ⟨c :: rest, by simpa using hsel, List.Chain.cons
          ⟨⟨cur, hcur, hleaf2⟩, hpc, cur, cn, pre, post, hcur, hcn, hsplit, ?_, ?_⟩ hchain,
          l, ln, by simpa using hl, hln, hlf⟩
        · intro d hd dn hdn
          have := hpre d hd
          simpa [scoreOf, hdn, hcn] using this
        · intro d hd dn hdn
          have := hpost d hd
          simpa [scoreOf, hdn, hcn] using this

/-- In exact arithmetic: on a well-formed arena whose scores are above the initial value of
the loop, `takeSelection` returns a path (fuel as large as the arena suffices); the path
starts with the given root, and every later element is, among the children of the element
before it, the first one in insertion order whose score is the maximum, the score being
`winRate + 0.5 * sqrt (ln parent.total / total)`, the raw win rate when `parent.total` or
`total` is zero, with win rate 0 when `total` is 0 (`specScore`). -/
theorem takeSelection_path {β : Type} (M : Libm) (ops : BoardOps β) (self : player)
    (tree : Tree β) (root fuel : Nat) (hwf : WellFormed tree)
    (hinit : ScoresAboveInit M tree) (hroot : root < tree.length)
    (hfuel : tree.length ≤ fuel) :
    ∃ path, takeSelection M ops self tree fuel root = some path ∧
      path.head? = some root ∧
      List.Chain' (fun p c => FirstMaxChild M tree p c) path := by
  obtain ⟨rest, hsel, hchain, _⟩ :=
    selectLoop_spec M ops self hwf hinit fuel root [root] hroot (by omega)
  refine ⟨root :: rest, by simpa [takeSelection] using hsel, rfl, ?_⟩
  show List.Chain (fun p c => FirstMaxChild M tree p c) root rest
  exact hchain.imp (fun _ _ h => h.2.2)

theorem takeSelection_path_witness :
    WellFormed demoTree ∧ ScoresAboveInit demoLibm demoTree ∧ 0 < demoTree.length ∧
    demoTree.length ≤ 5 ∧
    ∃ path, takeSelection demoLibm gridOps (player.ofRole piece_type.black) demoTree 5 0
        = some path ∧
      path.head? = some 0 ∧
      List.Chain' (fun p c => FirstMaxChild demoLibm demoTree p c) path :=
  ⟨by decide, by decide!, by decide, by decide,
    takeSelection_path demoLibm gridOps (player.ofRole piece_type.black) demoTree 0 5
      (by decide) (by decide!) (by decide) (by decide)⟩

/-! ## Expansion -/

theorem findMove_none {β : Type} (ops : BoardOps β) (state : β) (cp : Finset Int) :
    ∀ vec : List Int, (∀ v ∈ vec, ¬ ((ops.place state v).1 = true ∧ v ∉ cp)) →
      findMove ops state cp vec = none := by
  intro vec
  induction vec with
  | nil => intro _; rfl
  | cons v rest ih =>
    intro h
    have hv := h v (List.mem_cons_self v rest)
    have hcond : ((ops.place state v).1 && decide (v ∉ cp)) = false := by
      rw [Bool.and_eq_false_iff]
      by_cases hl : (ops.place state v).1 = true
      · right
        have : ¬ v ∉ cp := fun hn => hv ⟨hl, hn⟩
        simpa using this
      · left; simpa using hl
    simp only [findMove, hcond]
    exact ih (fun w hw => h w (List.mem_cons_of_mem v hw))

theorem findMove_some {β : Type} (ops : BoardOps β) (state : β) (cp : Finset Int) :
    ∀ vec : List Int, (∃ v ∈ vec, (ops.place state v).1 = true ∧ v ∉ cp) →
      ∃ pre p post, vec = pre ++ p :: post ∧
        ((ops.place state p).1 = true ∧ p ∉ cp) ∧
        (∀ q ∈ pre, ¬ ((ops.place state q).1 = true ∧ q ∉ cp)) ∧
        findMove ops state cp vec = some (p, (ops.place state p).2) := by
  intro vec
  induction vec with
  | nil => rintro ⟨v, hv, _⟩; cases hv
  | cons v rest ih =>
    rintro ⟨w, hw, hwl⟩
    by_cases hv : (ops.place state v).1 = true ∧ v ∉ cp
    · refine ⟨[], v, rest, rfl, hv, by simp, ?_⟩
      simp [findMove, hv.1, hv.2]
    · have hw2 : w ∈ rest := by
        rcases List.mem_cons.mp hw with rfl | h
        · exact absurd hwl hv
        · exact h
      obtain ⟨pre, p, post, hsplit, hp, hpre, hfind⟩ := ih ⟨w, hw2, hwl⟩
      refine ⟨v :: pre, p, post, by simp [hsplit], hp, ?_, ?_⟩
      · intro q hq
        rcases List.mem_cons.mp hq with rfl | h
        · exact hv
        · exact hpre q h
      · have hcond : ((ops.place state v).1 && decide (v ∉ cp)) = false := by
          rw [Bool.and_eq_false_iff]
          by_cases hl : (ops.place state v).1 = true
          · right
            have : ¬ v ∉ cp := fun hn => hv ⟨hl, hn⟩
            simpa using this
          · left; simpa using hl
        simp only [findMove, hcond]
        exact hfind

/-- C4: when none of the 81 positions is both a legal placement on the board of the node and
absent from its `children_pos` (in particular when the side to move has no legal placement
at all), `takeExpansion` returns the input node itself and the arena is the same as before,
so no node is created and no field of any node changes, whatever the shuffle order. -/
theorem takeExpansion_unchanged {β : Type} (ops : BoardOps β) (tree : Tree β) (Node : Nat)
    (vec : List Int) (nd : node β) (hnd : tree[Node]? = some nd)
    (hshuffle : vec.Perm positions)
    (hnone : ∀ p ∈ positions, ¬ ((ops.place nd.state p).1 = true ∧ p ∉ nd.children_pos)) :
    takeExpansion ops tree Node vec = some (tree, Node) := by
  have h := findMove_none ops nd.state nd.children_pos vec
    (fun v hv => hnone v (hshuffle.subset hv))
  simp [takeExpansion, hnd, h]

theorem takeExpansion_unchanged_witness :
    demoTree[1]? = some
      { state := (gridOps.place twoHoles 0).2, wins := -2, total := 2, pos := 0,
        children := [3], children_pos := {1}, parent := some 0 } ∧
    positions.reverse.Perm positions ∧
    (∀ p ∈ positions, ¬ ((gridOps.place (gridOps.place twoHoles 0).2 p).1 = true ∧
      p ∉ ({1} : Finset Int))) ∧
    takeExpansion gridOps demoTree 1 positions.reverse = some (demoTree, 1) :=
  ⟨rfl, List.reverse_perm positions, by decide!,
    takeExpansion_unchanged gridOps demoTree 1 positions.reverse _ rfl
      (List.reverse_perm positions) (by decide!)⟩

/-- C5: when some position is a legal placement on the board of the node and is not in its
`children_pos`, `takeExpansion` returns a pointer to a new node, different from the input:
its `pos` is the first such position `p` of the shuffled vector, its board is the board of
the input node after the placement at `p`, its `wins` and `total` are 0 and its parent is
the input node; the input node gains that child at the end of `children` and `p` in
`children_pos`; every other field and every other node is unchanged. -/
theorem takeExpansion_new_child {β : Type} (ops : BoardOps β) (tree : Tree β) (Node : Nat)
    (vec : List Int) (nd : node β) (hnd : tree[Node]? = some nd)
    (hshuffle : vec.Perm positions)
    (hsome : ∃ p ∈ positions, (ops.place nd.state p).1 = true ∧ p ∉ nd.children_pos) :
    ∃ pre p post tree1, vec = pre ++ p :: post ∧ p ∈ positions ∧
      ((ops.place nd.state p).1 = true ∧ p ∉ nd.children_pos) ∧
      (∀ q ∈ pre, ¬ ((ops.place nd.state q).1 = true ∧ q ∉ nd.children_pos)) ∧
      takeExpansion ops tree Node vec = some (tree1, tree.length) ∧
      tree.length ≠ Node ∧
      tree1.length = tree.length + 1 ∧
      tree1[tree.length]? = some
        { state := (ops.place nd.state p).2, wins := 0, total := 0, pos := p, children := [],
          children_pos := ∅, parent := some Node } ∧
      tree1[Node]? = some
        { nd with children := nd.children ++ [tree.length]
                  children_pos := insert p nd.children_pos } ∧
      ∀ i, i ≠ Node → i < tree.length → tree1[i]? = tree[i]? := by
  obtain ⟨q, hq, hql⟩ := hsome
  obtain ⟨pre, p, post, hsplit, hp, hpre, hfind⟩ :=
    findMove_some ops nd.state nd.children_pos vec ⟨q, hshuffle.mem_iff.mpr hq, hql⟩
  have hNode : Node < tree.length := (List.getElem?_eq_some.mp hnd).1
  have hpmem : p ∈ positions := hshuffle.subset (by rw [hsplit]; simp)
  refine ⟨pre, p, post, attachChild tree Node p (ops.place nd.state p).2,
    hsplit, hpmem, hp, hpre, by simp [takeExpansion, hnd, hfind],
    by omega, by simp [attachChild], ?_, ?_, ?_⟩
  all_goals unfold attachChild
  · rw [List.getElem?_append_right (by simp)]
    simp [node.new]
  · rw [List.getElem?_append_left (by simpa using hNode)]
    simp [List.getElem?_modify, hnd]
  · intro i hi hlt
    rw [List.getElem?_append_left (by simpa using hlt)]
    simp [List.getElem?_modify, Ne.symm hi]

theorem takeExpansion_new_child_witness :
    [node.new twoHoles][0]? = some (node.new twoHoles) ∧
    positions.reverse.Perm positions ∧
    (∃ p ∈ positions, (gridOps.place (node.new twoHoles).state p).1 = true ∧
      p ∉ (node.new twoHoles).children_pos) ∧
    ∃ pre p post tree1, positions.reverse = pre ++ p :: post ∧ p ∈ positions ∧
      ((gridOps.place (node.new twoHoles).state p).1 = true ∧
        p ∉ (node.new twoHoles).children_pos) ∧
      (∀ q ∈ pre, ¬ ((gridOps.place (node.new twoHoles).state q).1 = true ∧
        q ∉ (node.new twoHoles).children_pos)) ∧
      takeExpansion gridOps [node.new twoHoles] 0 positions.reverse
        = some (tree1, [node.new twoHoles].length) ∧
      [node.new twoHoles].length ≠ 0 ∧
      tree1.length = [node.new twoHoles].length + 1 ∧
      tree1[[node.new twoHoles].length]? = some
        { state := (gridOps.place (node.new twoHoles).state p).2, wins := 0, total := 0,
          pos := p, children := [], children_pos := ∅, parent := some 0 } ∧
      tree1[0]? = some
        { node.new twoHoles with
          children := (node.new twoHoles).children ++ [[node.new twoHoles].length]
          children_pos := insert p (node.new twoHoles).children_pos } ∧
      ∀ i, i ≠ 0 → i < [node.new twoHoles].length → tree1[i]? = [node.new twoHoles][i]? :=
  ⟨rfl, List.reverse_perm positions, ⟨0, by decide!, by decide!, by decide!⟩,
    takeExpansion_new_child gridOps [node.new twoHoles] 0 positions.reverse
      (node.new twoHoles) rfl (List.reverse_perm positions)
      ⟨0, by decide!, by decide!, by decide!⟩⟩

/-! ## Simulation -/

theorem simLoop_spec {β : Type} (ops : BoardOps β) (occ : β → Int → Prop)
    (hkeep : ∀ b p, (ops.place b p).1 = false → (ops.place b p).2 = b)
    (hocc : ∀ b p, occ b p → (ops.place b p).1 = false)
    (hput : ∀ b p, (ops.place b p).1 = true →
      occ (ops.place b p).2 p ∧ ∀ q, occ b q → occ (ops.place b p).2 q) :
    ∀ (fuel : Nat) (b : β) (front back : List Int) (placed : List Int),
      (∀ p ∈ back, (ops.place b p).1 = false) →
      (∀ p ∈ positions, p ∉ front ++ back → occ b p) →
      (front ++ back).length * ((front ++ back).length + 1) + front.length + 1 ≤ fuel →
      ∃ final placed1,
        simLoop ops fuel b (front ++ back) front.length placed = some (final, placed ++ placed1) ∧
        (∀ p ∈ positions, (ops.place final p).1 = false) ∧
        final = placed1.foldl (fun c p => (ops.place c p).2) b ∧
        ((∀ p ∈ front ++ back, (ops.place b p).1 = false) → placed1 = [] ∧ final = b) := by
  intro fuel
  induction fuel with
  | zero => intro b front back placed _ _ h; omega
  | succ fuel ih =>
    intro b front back placed hback hout hfuel
    cases front with
    | nil =>
      refine ⟨b, [], by simp [simLoop], ?_, rfl, fun _ => ⟨rfl, rfl⟩⟩
      intro p hp
      by_cases hin : p ∈ back
      · exact hback p hin
      · exact hocc b p (hout p hp (by simpa using hin))
    | cons i front1 =>
      have hrem : (i :: front1).length ≠ 0 := by simp
      by_cases hl : (ops.place b i).1 = true
      · -- a legal placement: the deque loses `i` and `remaining` is reset
        have hnew := hput b i hl
        obtain ⟨final, placed1, hrun, hfin, hfold, _⟩ :=
          ih (ops.place b i).2 (front1 ++ back) [] (placed ++ [i])
            (by simp)
            (by
              intro p hp hnot
              by_cases hpi : p = i
              · subst hpi; exact hnew.1
              · refine hnew.2 p (hout p hp ?_)
                simp only [List.append_nil] at hnot
                simp only [List.cons_append, List.mem_cons, not_or]
                exact ⟨hpi, hnot⟩)
            (by
              simp only [List.append_nil, List.cons_append, List.length_cons] at hfuel ⊢
              nlinarith)
        refine ⟨final, i :: placed1, ?_, hfin, by simpa using hfold, ?_⟩
        · simp only [List.append_nil] at hrun
          simp only [simLoop, List.cons_append, if_neg hrem, hl, if_true]
          rw [hrun]; simp
        · intro hall
          have := hall i (by simp)
          rw [hl] at this
          cases this
      · -- an illegal placement: `i` is requeued and `remaining` decreases
        have hl2 : (ops.place b i).1 = false := by simpa using hl
        have hb := hkeep b i hl2
        obtain ⟨final, placed1, hrun, hfin, hfold, hnoplace⟩ :=
          ih b front1 (back ++ [i]) placed
            (by
              intro p hp
              rcases List.mem_append.mp hp with h | h
              · exact hback p h
              · rw [List.mem_singleton.mp h]; exact hl2)
            (by
              intro p hp hnot
              refine hout p hp ?_
              simp only [List.mem_append, List.mem_cons, List.mem_singleton, List.not_mem_nil,
                or_false, not_or] at hnot ⊢
              exact ⟨⟨hnot.2.2, hnot.1⟩, hnot.2.1⟩)
            (by
              simp only [List.length_append, List.length_cons, List.length_nil] at hfuel ⊢
              have e : front1.length + (back.length + (0 + 1)) = front1.length + 1 + back.length := by
                omega
              rw [e]
              omega)
        refine ⟨final, placed1, ?_, hfin, hfold, ?_⟩
        · simp only [simLoop, List.cons_append, if_neg hrem, hl2, hb]
          simpa using hrun
        · intro hall
          apply hnoplace
          intro p hp
          apply hall
          simp only [List.mem_append, List.mem_cons, List.mem_singleton] at hp ⊢
          tauto

/-- C6: for a board whose placements obey the contract of the game (an illegal placement
leaves the board as it is; a cell that holds a stone admits no placement and keeps its stone;
a legal placement puts a stone on its cell), for every starting board and every shuffle
order, `takeSimulation` returns; the board on which its loop stops admits no legal placement
at any of the 81 positions; the value returned is `+1` when the side to move on that final
board is Black and `-1` otherwise; the final board is the starting board after the recorded
placements; the board of the caller is not modified; and from a starting board without a
legal placement no placement is made, so the final board is the starting board. -/
theorem takeSimulation_spec {β : Type} (ops : BoardOps β) (occ : β → Int → Prop)
    (hkeep : ∀ b p, (ops.place b p).1 = false → (ops.place b p).2 = b)
    (hocc : ∀ b p, occ b p → (ops.place b p).1 = false)
    (hput : ∀ b p, (ops.place b p).1 = true →
      occ (ops.place b p).2 p ∧ ∀ q, occ b q → occ (ops.place b p).2 q)
    (state : β) (dq : List Int) (hshuffle : dq.Perm positions) :
    ∃ r, takeSimulation ops state dq = some r ∧
      (∀ p ∈ positions, (ops.place r.final p).1 = false) ∧
      r.value = (if ops.who_take_turns r.final = piece_type.black then 1 else -1) ∧
      r.final = r.placed.foldl (fun c p => (ops.place c p).2) state ∧
      r.caller = state ∧
      ((∀ p ∈ positions, (ops.place state p).1 = false) →
        r.placed = [] ∧ r.final = state ∧
        r.value = (if ops.who_take_turns state = piece_type.black then 1 else -1)) := by
  obtain ⟨final, placed1, hrun, hfin, hfold, hnone⟩ :=
    simLoop_spec ops occ hkeep hocc hput (simFuel dq.length) state dq [] []
      (by simp)
      (by
        intro p hp hnot
        exact absurd (hshuffle.mem_iff.mpr hp) (by simpa using hnot))
      (by simp [simFuel])
  simp only [List.append_nil, List.nil_append] at hrun hnone
  refine ⟨{ value := if ops.who_take_turns final = piece_type.black then 1 else -1
            final := final, placed := placed1, caller := state }, ?_, hfin, rfl, hfold, rfl, ?_⟩
  · simp [takeSimulation, hrun]
  · intro hall
    obtain ⟨h1, h2⟩ := hnone (fun p hp => hall p (hshuffle.subset hp))
    exact ⟨h1, h2, by simp [h2]⟩

theorem gridOps_keep (b : Grid) (p : Int) (h : (gridOps.place b p).1 = false) :
    (gridOps.place b p).2 = b := by
  show (b.put p b.turn).2 = b
  have h2 : (b.put p b.turn).1 = false := h
  unfold Grid.put at h2 ⊢
  by_cases hc : b.canPut p b.turn
  · rw [if_pos hc] at h2; cases h2
  · rw [if_neg hc]

theorem gridOps_occupied (b : Grid) (p : Int) (h : b.occupied p) :
    (gridOps.place b p).1 = false := by
  show (b.put p b.turn).1 = false
  unfold Grid.put
  by_cases hc : b.canPut p b.turn
  · exact absurd hc.2.2.2.2 h
  · rw [if_neg hc]

theorem gridOps_put (b : Grid) (p : Int) (h : (gridOps.place b p).1 = true) :
    (gridOps.place b p).2.occupied p ∧ ∀ q, b.occupied q → (gridOps.place b p).2.occupied q := by
  show (b.put p b.turn).2.occupied p ∧ ∀ q, b.occupied q → (b.put p b.turn).2.occupied q
  have h2 : (b.put p b.turn).1 = true := h
  unfold Grid.put at h2 ⊢
  by_cases hc : b.canPut p b.turn
  · rw [if_pos hc]
    obtain ⟨_, hlen, _, hne, _⟩ := hc
    constructor
    · simp only [Grid.occupied, List.getD_eq_getElem?_getD, List.getElem?_set, hlen]
      simpa using hne
    · intro q hq
      simp only [Grid.occupied, List.getD_eq_getElem?_getD, List.getElem?_set] at hq ⊢
      by_cases e : p.toNat = q.toNat
      · simp only [e] at hlen ⊢
        simpa [hlen] using hne
      · simpa [e] using hq
  · rw [if_neg hc] at h2; cases h2

theorem takeSimulation_spec_witness :
    (∀ b p, (gridOps.place b p).1 = false → (gridOps.place b p).2 = b) ∧
    (∀ b p, Grid.occupied b p → (gridOps.place b p).1 = false) ∧
    (∀ b p, (gridOps.place b p).1 = true →
      Grid.occupied (gridOps.place b p).2 p ∧
        ∀ q, Grid.occupied b q → Grid.occupied (gridOps.place b p).2 q) ∧
    positions.reverse.Perm positions ∧
    ∃ r, takeSimulation gridOps twoHoles positions.reverse = some r ∧
      (∀ p ∈ positions, (gridOps.place r.final p).1 = false) ∧
      r.value = (if gridOps.who_take_turns r.final = piece_type.black then 1 else -1) ∧
      r.final = r.placed.foldl (fun c p => (gridOps.place c p).2) twoHoles ∧
      r.caller = twoHoles ∧
      ((∀ p ∈ positions, (gridOps.place twoHoles p).1 = false) →
        r.placed = [] ∧ r.final = twoHoles ∧
        r.value = (if gridOps.who_take_turns twoHoles = piece_type.black then 1 else -1)) :=
  ⟨gridOps_keep, gridOps_occupied, gridOps_put, List.reverse_perm positions,
    takeSimulation_spec gridOps Grid.occupied gridOps_keep gridOps_occupied gridOps_put
      twoHoles positions.reverse (List.reverse_perm positions)⟩

theorem takeSimulation_twoHoles :
    (takeSimulation gridOps twoHoles positions.reverse).map (fun r => (r.value, r.placed))
      = some (1, [1, 0]) := by
  decide!

/-! ## Majority vote -/

theorem getD_modify_succ (mv : List Int) (t q : Nat) (ht : t < mv.length) :
    (mv.modify (· + 1) t).getD q 0 = mv.getD q 0 + (if t = q then 1 else 0) := by
  simp only [List.getD_eq_getElem?_getD, List.getElem?_modify]
  by_cases h : t = q
  · subst h
    simp [List.getElem?_eq_getElem ht]
  · simp [h]

theorem voteLoop_spec :
    ∀ (rest done mv : List Int) (mc res : Int), VoteInv done mv mc res →
      (∀ x ∈ rest, x = -1 ∨ (0 ≤ x ∧ x < 81)) →
      ∃ mv1 mc1 res1, voteLoop rest mv mc res = some res1 ∧
        VoteInv (done ++ rest) mv1 mc1 res1 := by
  intro rest
  induction rest with
  | nil =>
    intro done mv mc res hinv _
    exact ⟨mv, mc, res, rfl, by simpa using hinv⟩
  | cons tmp rest ih =>
    intro done mv mc res hinv hvalid
    have hrest : ∀ x ∈ rest, x = -1 ∨ (0 ≤ x ∧ x < 81) :=
      fun x hx => hvalid x (List.mem_cons_of_mem tmp hx)
    have happ : done ++ tmp :: rest = (done ++ [tmp]) ++ rest := by simp
    rw [happ]
    by_cases hneg : tmp = -1
    · -- a worker without a recommendation: nothing changes
      subst hneg
      have hcount : ∀ q : Int, 0 ≤ q → (done ++ [-1]).count q = done.count q := by
        intro q hq
        have : ¬ ((-1 : Int) = q) := by omega
        simp [List.count_append, List.count_singleton, this]
      have hinv2 : VoteInv (done ++ [-1]) mv mc res := by
        refine ⟨hinv.len, ?_, ?_, ?_⟩
        · intro q h0 h1; rw [hcount q h0]; exact hinv.cnt q h0 h1
        · intro q h0 h1; rw [hcount q h0]; exact hinv.le q h0 h1
        · rcases hinv.first with h | ⟨l1, l2, hsplit, h0, h1, hc, hall⟩
          · exact Or.inl h
          · exact Or.inr ⟨l1, l2 ++ [-1], by simp [hsplit], h0, h1, hc, hall⟩
      obtain ⟨mv1, mc1, res1, hrun, hfin⟩ := ih (done ++ [-1]) mv mc res hinv2 hrest
      exact ⟨mv1, mc1, res1, by simpa [voteLoop] using hrun, hfin⟩
    · -- a vote for the position `tmp`
      obtain ⟨h0, h1⟩ : 0 ≤ tmp ∧ tmp < 81 := by
        rcases hvalid tmp (List.mem_cons_self tmp rest) with h | h
        · exact absurd h hneg
        · exact h
      have hidx : tmp.toNat < mv.length := by rw [hinv.len]; omega
      have hcount : ∀ q : Int, 0 ≤ q → ((done ++ [tmp]).count q : Int)
          = (done.count q : Int) + (if tmp.toNat = q.toNat then 1 else 0) := by
        intro q hq
        by_cases e : tmp = q
        · subst e; simp [List.count_append]
        · have e2 : ¬ tmp.toNat = q.toNat := by omega
          simp [List.count_append, List.count_singleton, e, e2]
      have hcnt2 : ∀ q : Int, 0 ≤ q → q < 81 →
          (mv.modify (· + 1) tmp.toNat).getD q.toNat 0 = ((done ++ [tmp]).count q : Int) := by
        intro q hq0 hq1
        rw [getD_modify_succ mv tmp.toNat q.toNat hidx, hinv.cnt q hq0 hq1, hcount q hq0]
      have hnew : (mv.modify (· + 1) tmp.toNat).getD tmp.toNat 0
          = (done.count tmp : Int) + 1 := by
        rw [hcnt2 tmp h0 h1, hcount tmp h0]; simp
      have hlen2 : (mv.modify (· + 1) tmp.toNat).length = 81 := by
        rw [List.length_modify]; exact hinv.len
      by_cases hgt : (done.count tmp : Int) + 1 > mc
      · -- the count of `tmp` exceeds `max_count`: `tmp` becomes the result
        have hinv2 : VoteInv (done ++ [tmp]) (mv.modify (· + 1) tmp.toNat)
            ((done.count tmp : Int) + 1) tmp := by
          refine ⟨hlen2, hcnt2, ?_, ?_⟩
          · intro q hq0 hq1
            rw [hcount q hq0]
            by_cases e : tmp.toNat = q.toNat
            · have : tmp = q := by omega
              subst this; simp
            · have := hinv.le q hq0 hq1
              simp only [e, if_false]; omega
          · refine Or.inr ⟨done, [], rfl, h0, h1, rfl, ?_⟩
            intro q hq0 hq1
            have := hinv.le q hq0 hq1
            omega
        obtain ⟨mv1, mc1, res1, hrun, hfin⟩ := ih _ _ _ _ hinv2 hrest
        refine ⟨mv1, mc1, res1, ?_, hfin⟩
        have hc : 0 ≤ tmp ∧ tmp.toNat < mv.length := ⟨h0, hidx⟩
        simp only [voteLoop, ne_eq, hneg, not_false_eq_true, if_true, hc, and_self, hnew,
          if_pos hgt]
        exact hrun
      · -- the count of `tmp` does not exceed `max_count`: the result stays
        have hle : (done.count tmp : Int) + 1 ≤ mc := not_lt.mp hgt
        have hinv2 : VoteInv (done ++ [tmp]) (mv.modify (· + 1) tmp.toNat) mc res := by
          refine ⟨hlen2, hcnt2, ?_, ?_⟩
          · intro q hq0 hq1
            rw [hcount q hq0]
            by_cases e : tmp.toNat = q.toNat
            · have : tmp = q := by omega
              subst this; simpa using hle
            · have := hinv.le q hq0 hq1
              simp only [e, if_false]; omega
          · rcases hinv.first with ⟨_, hz⟩ | ⟨l1, l2, hsplit, hr0, hr1, hc, hall⟩
            · exfalso
              have : (0 : Int) ≤ (done.count tmp : Int) := Int.natCast_nonneg _
              omega
            · exact Or.inr ⟨l1, l2 ++ [tmp], by simp [hsplit], hr0, hr1, hc, hall⟩
        obtain ⟨mv1, mc1, res1, hrun, hfin⟩ := ih _ _ _ _ hinv2 hrest
        refine ⟨mv1, mc1, res1, ?_, hfin⟩
        have hc : 0 ≤ tmp ∧ tmp.toNat < mv.length := ⟨h0, hidx⟩
        simp only [voteLoop, ne_eq, hneg, not_false_eq_true, if_true, hc, and_self, hnew,
          if_neg hgt]
        exact hrun

theorem voteInv_init : VoteInv [] (List.replicate 81 0) 0 (-1) := by
  refine ⟨by simp, ?_, by simp, Or.inl ⟨rfl, rfl⟩⟩
  intro q _ _
  simp only [List.getD_eq_getElem?_getD, List.getElem?_replicate, List.count_nil]
  split <;> rfl

/-- C7: for every list of results of the workers, each `-1` or a position in `0..80`, the
majority vote of `take_action` returns an action. When every result is `-1` it is the
no-action `action()`. Otherwise it is the placement, for the side to move on the given board,
at a position `pos` whose number of votes is at least that of every other position and whose
running count was the first to reach that maximum in scan order: the results split as
`l1 ++ pos :: l2` where this occurrence brings `pos` to its final count and no position has
reached that count within `l1`. -/
theorem take_action_vote_spec {β : Type} (ops : BoardOps β) (state : β) (res : List Int)
    (hvalid : ∀ x ∈ res, x = -1 ∨ (0 ≤ x ∧ x < 81)) :
    ∃ a, take_action_vote ops state res = some a ∧
      ((∀ x ∈ res, x = -1) → a = action.none) ∧
      ((∃ x ∈ res, x ≠ -1) → ∃ pos l1 l2,
        a = action.place { position := pos, color := ops.who_take_turns state } ∧
        0 ≤ pos ∧ pos < 81 ∧ res = l1 ++ pos :: l2 ∧
        (∀ q : Int, q ≠ -1 → res.count q ≤ res.count pos) ∧
        l1.count pos + 1 = res.count pos ∧
        (∀ q : Int, q ≠ -1 → l1.count q < res.count pos)) := by
  obtain ⟨mv1, mc1, result, hrun, hinv⟩ :=
    voteLoop_spec res [] (List.replicate 81 0) 0 (-1) voteInv_init hvalid
  simp only [List.nil_append] at hinv
  rcases hinv.first with ⟨hr, hz⟩ | ⟨l1, l2, hsplit, h0, h1, hc, hall⟩
  · -- no worker produced a position
    subst hr
    refine ⟨action.none, by unfold take_action_vote; rw [hrun]; simp, fun _ => rfl, ?_⟩
    rintro ⟨x, hx, hne⟩
    exfalso
    rcases hvalid x hx with h | ⟨hx0, hx1⟩
    · exact hne h
    · have hle := hinv.le x hx0 hx1
      have hpos : 0 < res.count x := List.count_pos_iff.mpr hx
      omega
  · have hne : result ≠ -1 := by omega
    have hmem : result ∈ res := by rw [hsplit]; simp
    have hcount : (res.count result : Int) = mc1 := by
      have hle := hinv.le result h0 h1
      have hge : l1.count result + 1 ≤ res.count result := by
        rw [hsplit]; simp [List.count_append]
      omega
    refine ⟨action.place { position := result, color := ops.who_take_turns state },
      by unfold take_action_vote; rw [hrun]; simp [hne], ?_, ?_⟩
    · intro hall1
      exact absurd (hall1 result hmem) hne
    · intro _
      refine ⟨result, l1, l2, rfl, h0, h1, hsplit, ?_, by omega, ?_⟩
      · intro q hq
        by_cases hv : 0 ≤ q ∧ q < 81
        · have := hinv.le q hv.1 hv.2
          omega
        · have hnot : q ∉ res := by
            intro hin
            rcases hvalid q hin with h | h
            · exact hq h
            · exact hv h
          rw [List.count_eq_zero_of_not_mem hnot]
          exact Nat.zero_le _
      · intro q hq
        by_cases hv : 0 ≤ q ∧ q < 81
        · have := hall q hv.1 hv.2
          omega
        · have hnot : q ∉ l1 := by
            intro hin
            have hin2 : q ∈ res := by rw [hsplit]; simp [hin]
            rcases hvalid q hin2 with h | h
            · exact hq h
            · exact hv h
          rw [List.count_eq_zero_of_not_mem hnot]
          have : 0 < res.count result := List.count_pos_iff.mpr hmem
          exact this

theorem take_action_vote_spec_witness :
    (∀ x ∈ [3, -1, 5, 5, 3], x = -1 ∨ (0 ≤ x ∧ x < (81 : Int))) ∧
    ∃ a, take_action_vote gridOps twoHoles [3, -1, 5, 5, 3] = some a ∧
      ((∀ x ∈ [3, -1, 5, 5, 3], x = (-1 : Int)) → a = action.none) ∧
      ((∃ x ∈ [3, -1, 5, 5, 3], x ≠ (-1 : Int)) → ∃ pos l1 l2,
        a = action.place { position := pos, color := gridOps.who_take_turns twoHoles } ∧
        0 ≤ pos ∧ pos < 81 ∧ [3, -1, 5, 5, 3] = l1 ++ pos :: l2 ∧
        (∀ q : Int, q ≠ -1 → [3, -1, 5, 5, 3].count q ≤ [3, -1, 5, 5, 3].count pos) ∧
        l1.count pos + 1 = [3, -1, 5, 5, 3].count pos ∧
        (∀ q : Int, q ≠ -1 → l1.count q < [3, -1, 5, 5, 3].count pos)) :=
  ⟨by decide, take_action_vote_spec gridOps twoHoles [3, -1, 5, 5, 3] (by decide)⟩

theorem take_action_vote_example :
    take_action_vote gridOps twoHoles [3, -1, 5, 5, 3]
      = some (action.place { position := 5, color := piece_type.black }) ∧
    take_action_vote gridOps twoHoles [-1, -1] = some action.none := by
  constructor <;> decide!

/-! ## The search loop -/

theorem wellFormed_intro {β : Type} {tree : Tree β}
    (h : ∀ (p : Nat) (pn : node β), tree[p]? = some pn → ∀ c ∈ pn.children,
      p < c ∧ ∃ cn : node β, tree[c]? = some cn ∧ cn.parent = some p) : WellFormed tree := by
  intro p hp c hc
  have hpn : tree[p]? = some tree[p] := List.getElem?_eq_getElem hp
  rw [hpn] at hc
  obtain ⟨hlt, cn, hcn, hpar⟩ := h p _ hpn c (by simpa using hc)
  exact ⟨hlt, by simp [hcn, hpar]⟩

theorem length_attachChild {β : Type} (tree : Tree β) (Node : Nat) (pos : Int) (b : β) :
    (attachChild tree Node pos b).length = tree.length + 1 := by
  simp [attachChild]

theorem attachChild_new {β : Type} (tree : Tree β) (Node : Nat) (pos : Int) (b : β) :
    (attachChild tree Node pos b)[tree.length]? = some
      { state := b, wins := 0, total := 0, pos := pos, children := [], children_pos := ∅,
        parent := some Node } := by
  unfold attachChild
  rw [List.getElem?_append_right (by simp)]
  simp [node.new]

theorem attachChild_self {β : Type} (tree : Tree β) (Node : Nat) (pos : Int) (b : β)
    (nd : node β) (hnd : tree[Node]? = some nd) :
    (attachChild tree Node pos b)[Node]? = some
      { nd with children := nd.children ++ [tree.length]
                children_pos := insert pos nd.children_pos } := by
  have hNode : Node < tree.length := (List.getElem?_eq_some.mp hnd).1
  unfold attachChild
  rw [List.getElem?_append_left (by simpa using hNode)]
  simp [List.getElem?_modify, hnd]

theorem attachChild_other {β : Type} (tree : Tree β) (Node : Nat) (pos : Int) (b : β)
    (i : Nat) (n : node β) (hn : tree[i]? = some n) (hi : i ≠ Node) :
    (attachChild tree Node pos b)[i]? = some n := by
  have hlt : i < tree.length := (List.getElem?_eq_some.mp hn).1
  unfold attachChild
  rw [List.getElem?_append_left (by simpa using hlt)]
  simp [List.getElem?_modify, Ne.symm hi, hn]

theorem attachChild_cases {β : Type} (tree : Tree β) (Node : Nat) (pos : Int) (b : β)
    (i : Nat) (n1 : node β) (h : (attachChild tree Node pos b)[i]? = some n1) :
    (i = tree.length ∧ n1 =
      { state := b, wins := 0, total := 0, pos := pos, children := [], children_pos := ∅,
        parent := some Node }) ∨
    (i = Node ∧ ∃ nd, tree[Node]? = some nd ∧
      n1 = { nd with children := nd.children ++ [tree.length]
                     children_pos := insert pos nd.children_pos }) ∨
    (i ≠ Node ∧ tree[i]? = some n1) := by
  have hlen : i < tree.length + 1 := by
    have := (List.getElem?_eq_some.mp h).1
    rwa [length_attachChild] at this
  by_cases hi : i = tree.length
  · left
    subst hi
    rw [attachChild_new] at h
    exact ⟨rfl, (Option.some.inj h).symm⟩
  · right
    have hlt : i < tree.length := by omega
    have hn : tree[i]? = some tree[i] := List.getElem?_eq_getElem hlt
    by_cases hN : i = Node
    · left
      subst hN
      rw [attachChild_self tree i pos b _ hn] at h
      exact ⟨rfl, _, hn, (Option.some.inj h).symm⟩
    · right
      rw [attachChild_other tree Node pos b i _ hn hN] at h
      exact ⟨hN, by rw [hn, h]⟩

theorem backprop_lookup {β : Type} (ops : BoardOps β) (tree : Tree β) (path : List Nat)
    (winner : piece_type) (games win_count : Int) (i : Nat) (n : node β)
    (hn : tree[i]? = some n) :
    (takeBackpropagation ops tree path winner games win_count)[i]? = some
      { n with
        total := n.total + games * (path.count i : Nat)
        wins := if winner ≠ ops.who_take_turns n.state then n.wins + win_count * (path.count i : Nat)
                else n.wins - win_count * (path.count i : Nat) } := by
  rw [takeBackpropagation_getElem?, hn, Option.map_some', backpropNode_iterate]

theorem backprop_lookup_inv {β : Type} (ops : BoardOps β) (tree : Tree β) (path : List Nat)
    (winner : piece_type) (games win_count : Int) (i : Nat) (n1 : node β)
    (h : (takeBackpropagation ops tree path winner games win_count)[i]? = some n1) :
    ∃ n, tree[i]? = some n ∧ n1 =
      { n with
        total := n.total + games * (path.count i : Nat)
        wins := if winner ≠ ops.who_take_turns n.state then n.wins + win_count * (path.count i : Nat)
                else n.wins - win_count * (path.count i : Nat) } := by
  have hlt : i < tree.length := by
    have := (List.getElem?_eq_some.mp h).1
    rwa [takeBackpropagation_length] at this
  have hn : tree[i]? = some tree[i] := List.getElem?_eq_getElem hlt
  rw [backprop_lookup ops tree path winner games win_count i _ hn] at h
  exact ⟨_, hn, (Option.some.inj h).symm⟩

theorem SearchInv.backprop {β : Type} {ops : BoardOps β} {board : β} {tree : Tree β}
    (h : SearchInv ops board tree) (path : List Nat) (winner : piece_type) :
    SearchInv ops board (takeBackpropagation ops tree path winner 1 1) := by
  refine ⟨wellFormed_intro ?_, ?_, ?_⟩
  · intro q qn hq c hc
    obtain ⟨pn, hpn, e⟩ := backprop_lookup_inv ops tree path winner 1 1 q qn hq
    rw [e] at hc
    obtain ⟨hlt, cn, hcn, hpar⟩ := h.wf.child hpn hc
    exact ⟨hlt, _, backprop_lookup ops tree path winner 1 1 c cn hcn, hpar⟩
  · obtain ⟨rn, hrn, hst, hcp, hch⟩ := h.root
    refine ⟨_, backprop_lookup ops tree path winner 1 1 0 rn hrn, hst, hcp, ?_⟩
    intro c hc
    obtain ⟨cn, hcn, hpos, hleg⟩ := hch c hc
    exact ⟨_, backprop_lookup ops tree path winner 1 1 c cn hcn, hpos, hleg⟩
  · intro i n1 hn1
    obtain ⟨n, hn, e⟩ := backprop_lookup_inv ops tree path winner 1 1 i n1 hn1
    have hc := h.counters i n hn
    rw [e]
    rw [abs_le] at hc ⊢
    have hk : (0 : Int) ≤ (path.count i : Nat) := Int.natCast_nonneg _
    simp only
    split <;> constructor <;> omega

theorem MCTS_builds_demoTree :
    (MCTS demoLibm gridOps (player.ofRole piece_type.black) [node.new twoHoles] 0 4
      (fun _ => positions)).map (fun r => (r.1, r.2.map node.view))
      = some (0, demoTree.map node.view) := by
  decide!

end NoGo

namespace Threes

/-! ## Action selection -/

theorem chooseLoop_all_illegal {β : Type} (ops : BoardOps β) (net : List weight)
    (shuffle : List Nat → List Nat) (before : β) :
    ∀ (ops1 : List Int) (best : Best β), (∀ op ∈ ops1, (ops.slide before op).1 = -1) →
      chooseLoop ops net shuffle before ops1 best = some best := by
  intro ops1
  induction ops1 with
  | nil => intro best _; rfl
  | cons op rest ih =>
    intro best h
    simp only [chooseLoop, h op (List.mem_cons_self op rest), if_true]
    exact ih best (fun o ho => h o (List.mem_cons_of_mem op ho))

theorem take_action_all_illegal {β : Type} (ops : BoardOps β) (net : List weight)
    (shuffle : List Nat → List Nat) (replayBuffer : List (step β)) (before : β)
    (h : ∀ op ∈ opcode, (ops.slide before op).1 = -1) :
    take_action ops net shuffle replayBuffer before
      = some (action.slide (-1), replayBuffer) := by
  simp [take_action, chooseLoop_all_illegal ops net shuffle before opcode _ h]

theorem chooseResult_keep {β : Type} (ops : BoardOps β) (net : List weight)
    (shuffle : List Nat → List Nat) (before : β) (op : Int) (rest : List Int) (best : Best β)
    (out : Option (Best β)) (h : ChooseResult ops net shuffle before rest best out)
    (hsc : ∀ sc, slideScore ops net shuffle before op = some sc →
      sc ≤ (best.bestReward : ℚ) + best.bestValue) :
    ChooseResult ops net shuffle before (op :: rest) best out := by
  rcases h with ⟨heq, hall⟩ | ⟨pre, d, post, v, hsplit, hleg, hexp, heq, hlt, hpre, hpost⟩
  · left
    refine ⟨heq, ?_⟩
    intro e he sc hs
    rcases List.mem_cons.mp he with rfl | he
    · exact hsc sc hs
    · exact hall e he sc hs
  · right
    refine ⟨op :: pre, d, post, v, by simp [hsplit], hleg, hexp, heq, hlt, ?_, hpost⟩
    intro e he sc hs
    rcases List.mem_cons.mp he with rfl | he
    · exact lt_of_le_of_lt (hsc sc hs) hlt
    · exact hpre e he sc hs

theorem chooseResult_take {β : Type} (ops : BoardOps β) (net : List weight)
    (shuffle : List Nat → List Nat) (before : β) (op : Int) (rest : List Int) (best : Best β)
    (out : Option (Best β)) (value : ℚ) (hill : (ops.slide before op).1 ≠ -1)
    (hexp : expectationEstimate ops net shuffle (ops.slide before op).2
      = some (fval.num value))
    (hgt : (best.bestReward : ℚ) + best.bestValue < ((ops.slide before op).1 : ℚ) + value)
    (h : ChooseResult ops net shuffle before rest
      { bestOP := op, bestReward := (ops.slide before op).1, bestValue := value
        bestAfterstate := (ops.slide before op).2 } out) :
    ChooseResult ops net shuffle before (op :: rest) best out := by
  have hscore : slideScore ops net shuffle before op
      = some (((ops.slide before op).1 : ℚ) + value) := by
    simp [slideScore, hill, hexp]
  rcases h with ⟨heq, hall⟩ | ⟨pre, d, post, v, hsplit, hleg, hexp2, heq, hlt, hpre, hpost⟩
  · right
    exact ⟨[], op, rest, value, rfl, hill, hexp, heq, hgt, by simp, hall⟩
  · right
    refine ⟨op :: pre, d, post, v, by simp [hsplit], hleg, hexp2, heq, lt_trans hgt hlt, ?_,
      hpost⟩
    intro e he sc hs
    rcases List.mem_cons.mp he with rfl | he
    · rw [hscore] at hs
      rw [← Option.some.inj hs]
      exact hlt
    · exact hpre e he sc hs

theorem chooseLoop_spec {β : Type} (ops : BoardOps β) (net : List weight)
    (shuffle : List Nat → List Nat) (before : β) :
    ∀ (ops1 : List Int) (best : Best β),
      (∀ op ∈ ops1, (ops.slide before op).1 ≠ -1 →
        expectationEstimate ops net shuffle (ops.slide before op).2 ≠ none) →
      ChooseResult ops net shuffle before ops1 best
        (chooseLoop ops net shuffle before ops1 best) := by
  intro ops1
  induction ops1 with
  | nil => intro best _; left; simp [chooseLoop]
  | cons op rest ih =>
    intro best hdef
    have hrest : ∀ o ∈ rest, (ops.slide before o).1 ≠ -1 →
        expectationEstimate ops net shuffle (ops.slide before o).2 ≠ none :=
      fun o ho => hdef o (List.mem_cons_of_mem op ho)
    by_cases hill : (ops.slide before op).1 = -1
    · have hrun : chooseLoop ops net shuffle before (op :: rest) best
          = chooseLoop ops net shuffle before rest best := by
        simp only [chooseLoop, hill, if_true]
      rw [hrun]
      exact chooseResult_keep ops net shuffle before op rest best _ (ih best hrest)
        (by intro sc hs; simp [slideScore, hill] at hs)
    · cases hexp : expectationEstimate ops net shuffle (ops.slide before op).2 with
      | none => exact absurd hexp (hdef op (List.mem_cons_self op rest) hill)
      | some fv =>
        cases fv with
        | nan =>
          have hrun : chooseLoop ops net shuffle before (op :: rest) best
              = chooseLoop ops net shuffle before rest best := by
            simp only [chooseLoop, if_neg hill, hexp]
          rw [hrun]
          exact chooseResult_keep ops net shuffle before op rest best _ (ih best hrest)
            (by intro sc hs; simp [slideScore, hill, hexp] at hs)
        | num value =>
          have hscore : slideScore ops net shuffle before op
              = some (((ops.slide before op).1 : ℚ) + value) := by
            simp [slideScore, hill, hexp]
          by_cases hgt : ((ops.slide before op).1 : ℚ) + value
              > (best.bestReward : ℚ) + best.bestValue
          · have hrun : chooseLoop ops net shuffle before (op :: rest) best
                = chooseLoop ops net shuffle before rest
                  { bestOP := op, bestReward := (ops.slide before op).1, bestValue := value
                    bestAfterstate := (ops.slide before op).2 } := by
              simp only [chooseLoop, if_neg hill, hexp, if_pos hgt]
            rw [hrun]
            exact chooseResult_take ops net shuffle before op rest best _ value hill hexp hgt
              (ih _ hrest)
          · have hrun : chooseLoop ops net shuffle before (op :: rest) best
                = chooseLoop ops net shuffle before rest best := by
              simp only [chooseLoop, if_neg hill, hexp, if_neg hgt]
            rw [hrun]
            exact chooseResult_keep ops net shuffle before op rest best _ (ih best hrest)
              (by
                intro sc hs
                rw [hscore] at hs
                rw [← Option.some.inj hs]
                exact not_lt.mp hgt)

theorem take_action_best {β : Type} (ops : BoardOps β) (net : List weight)
    (shuffle : List Nat → List Nat) (replayBuffer : List (step β)) (before : β)
    (hdef : ∀ op ∈ opcode, (ops.slide before op).1 ≠ -1 →
      expectationEstimate ops net shuffle (ops.slide before op).2 ≠ none)
    (hsome : ∃ op ∈ opcode, ∃ sc, slideScore ops net shuffle before op = some sc ∧
      (-100001 : ℚ) < sc) :
    ∃ pre op post value, opcode = pre ++ op :: post ∧ (ops.slide before op).1 ≠ -1 ∧
      expectationEstimate ops net shuffle (ops.slide before op).2 = some (fval.num value) ∧
      take_action ops net shuffle replayBuffer before = some (action.slide op,
        replayBuffer ++ [{ reward := (ops.slide before op).1
                           afterstate := (ops.slide before op).2 }]) ∧
      (∀ d ∈ pre, ∀ sc, slideScore ops net shuffle before d = some sc →
        sc < ((ops.slide before op).1 : ℚ) + value) ∧
      (∀ d ∈ post, ∀ sc, slideScore ops net shuffle before d = some sc →
        sc ≤ ((ops.slide before op).1 : ℚ) + value) := by
  rcases chooseLoop_spec ops net shuffle before opcode
      { bestOP := -1, bestReward := -1, bestValue := -100000, bestAfterstate := ops.fresh } hdef
    with ⟨_, hall⟩ | ⟨pre, op, post, value, hsplit, hleg, hexp, heq, _, hpre, hpost⟩
  · exfalso
    obtain ⟨op, hop, sc, hs, hgt⟩ := hsome
    have := hall op hop sc hs
    simp only at this
    norm_num at this
    linarith
  · have hop : op ∈ opcode := by rw [hsplit]; simp
    have hne : op ≠ -1 := by
      intro h
      rw [h] at hop
      simp [opcode] at hop
    exact ⟨pre, op, post, value, hsplit, hleg, hexp, by simp [take_action, heq, hne],
      hpre, hpost⟩

/-- C9 (evaluation of the code): on the board `lastMove`, sliding right and sliding up are
legal with reward 0, sliding down and sliding left are illegal, and both afterstates have the expectation estimate `-100001` (after the
placement no slide is legal, so the one eligible cell scores the initial `-1 + -100000`).
The test `reward + value > bestReward + bestValue` is then false for both, `bestOP` stays
`-1`: `take_action` returns `action::slide(-1)` and appends nothing to the trajectory,
although two directions are legal. -/
theorem take_action_skips_legal_slide :
    (tilesOps.slide lastMove 1).1 = 0 ∧ (tilesOps.slide lastMove 0).1 = 0 ∧
    (tilesOps.slide lastMove 2).1 = -1 ∧ (tilesOps.slide lastMove 3).1 = -1 ∧
    expectationEstimate tilesOps zeroNet id (tilesOps.slide lastMove 1).2
      = some (fval.num (-100001)) ∧
    expectationEstimate tilesOps zeroNet id (tilesOps.slide lastMove 0).2
      = some (fval.num (-100001)) ∧
    take_action tilesOps zeroNet id [] lastMove = some (action.slide (-1), []) := by
  refine ⟨by decide!, by decide!, by decide!, by decide!, by decide!, by decide!, by decide!⟩

/-- C10 (evaluation of the code): on the board `deadBoard` no slide is legal, the trajectory
is left as it was, and the value returned is `action::slide(-1)`, a slide action built from
`bestOP = -1`, which is not the default-constructed `action()`. -/
theorem take_action_returns_slide_when_stuck :
    (∀ op ∈ opcode, (tilesOps.slide deadBoard op).1 = -1) ∧
    take_action tilesOps zeroNet id [{ reward := 0, afterstate := deadBoard }] deadBoard
      = some (action.slide (-1), [{ reward := 0, afterstate := deadBoard }]) ∧
    action.slide (-1) ≠ action.none := by
  refine ⟨by decide!, by decide!, by decide⟩

end Threes

namespace Threes

/-! ## Expectation estimate -/

theorem bestOnePly_spec {β : Type} (ops : BoardOps β) (net : List weight) (b : β) :
    ∀ (ops1 : List Int) (r0 : Int) (v0 : ℚ),
      (∀ op ∈ ops1, (ops.slide b op).1 ≠ -1 →
        valueEstimate ops net (ops.slide b op).2 ≠ none) →
      ∃ r v, bestOnePly ops net b ops1 r0 v0 = some (r, v) ∧
        (r : ℚ) + v = (ops1.filterMap (onePlyScore ops net b)).foldl max ((r0 : ℚ) + v0) := by
  intro ops1
  induction ops1 with
  | nil => intro r0 v0 _; exact ⟨r0, v0, rfl, rfl⟩
  | cons op rest ih =>
    intro r0 v0 hdef
    have hrest : ∀ o ∈ rest, (ops.slide b o).1 ≠ -1 →
        valueEstimate ops net (ops.slide b o).2 ≠ none :=
      fun o ho => hdef o (List.mem_cons_of_mem op ho)
    by_cases hill : (ops.slide b op).1 = -1
    · obtain ⟨r, v, hrun, hsum⟩ := ih r0 v0 hrest
      refine ⟨r, v, by simp only [bestOnePly, hill, if_true]; exact hrun, ?_⟩
      have hs : onePlyScore ops net b op = none := by simp [onePlyScore, hill]
      simp only [List.filterMap_cons, hs]
      exact hsum
    · cases hval : valueEstimate ops net (ops.slide b op).2 with
      | none => exact absurd hval (hdef op (List.mem_cons_self op rest) hill)
      | some value =>
        have hs : onePlyScore ops net b op = some (((ops.slide b op).1 : ℚ) + value) := by
          simp [onePlyScore, hill, hval]
        simp only [List.filterMap_cons, hs, List.foldl_cons]
        by_cases hgt : ((ops.slide b op).1 : ℚ) + value > (r0 : ℚ) + v0
        · obtain ⟨r, v, hrun, hsum⟩ := ih (ops.slide b op).1 value hrest
          refine ⟨r, v, by simp only [bestOnePly, if_neg hill, hval, if_pos hgt]; exact hrun, ?_⟩
          rw [hsum, max_eq_right (le_of_lt hgt)]
        · obtain ⟨r, v, hrun, hsum⟩ := ih r0 v0 hrest
          refine ⟨r, v, by simp only [bestOnePly, if_neg hill, hval, if_neg hgt]; exact hrun, ?_⟩
          rw [hsum, max_eq_left (not_lt.mp hgt)]

theorem expectLoop_spec {β : Type} (ops : BoardOps β) (net : List weight) (after : β)
    (tile hint : Nat) :
    ∀ (space : List Nat) (expectation : ℚ) (emptySpace : Nat),
      (∀ pos ∈ space, ops.cell after pos = 0 → ∀ op ∈ opcode,
        (ops.slide (ops.place after pos tile hint) op).1 ≠ -1 →
        valueEstimate ops net (ops.slide (ops.place after pos tile hint) op).2 ≠ none) →
      expectLoop ops net after tile hint space expectation emptySpace = some
        (expectation + ((eligible ops after space).map (cellScore ops net after tile hint)).sum,
          emptySpace + (eligible ops after space).length) := by
  intro space
  induction space with
  | nil => intro e n _; simp [expectLoop, eligible]
  | cons pos rest ih =>
    intro e n hdef
    have hrest : ∀ q ∈ rest, ops.cell after q = 0 → ∀ op ∈ opcode,
        (ops.slide (ops.place after q tile hint) op).1 ≠ -1 →
        valueEstimate ops net (ops.slide (ops.place after q tile hint) op).2 ≠ none :=
      fun q hq => hdef q (List.mem_cons_of_mem pos hq)
    by_cases hc : ops.cell after pos = 0
    · obtain ⟨r, v, hrun, hsum⟩ := bestOnePly_spec ops net (ops.place after pos tile hint)
        opcode (-1) (-100000) (hdef pos (List.mem_cons_self pos rest) hc)
      have hcs : cellScore ops net after tile hint pos = (r : ℚ) + v := by
        rw [hsum]; unfold cellScore; norm_num
      simp only [expectLoop, hc, ne_eq, not_true_eq_false, if_false, hrun]
      rw [ih _ _ hrest]
      simp only [eligible, List.filter_cons, hc, decide_True, if_true, List.map_cons,
        List.sum_cons, List.length_cons, hcs]
      congr 2
      · ring
      · omega
    · simp only [expectLoop, ne_eq, hc, not_false_eq_true, if_true]
      rw [ih _ _ hrest]
      simp [eligible, List.filter_cons, hc]

theorem expectationEstimate_mean {β : Type} (ops : BoardOps β) (net : List weight)
    (shuffle : List Nat → List Nat) (after : β) (space : List Nat) (tile hint : Nat)
    (bag1 rest : List Nat)
    (hspace : spaces[ops.last after]? = some space)
    (hbag : (fillBag ops after).length ≤ 3)
    (htile : (if ops.hint after ≠ 0 then some (ops.hint after, shuffle (fillBag ops after))
              else popBag (shuffle (fillBag ops after))) = some (tile, bag1))
    (hhint : popBag bag1 = some (hint, rest))
    (hdef : ∀ pos ∈ space, ops.cell after pos = 0 → ∀ op ∈ opcode,
      (ops.slide (ops.place after pos tile hint) op).1 ≠ -1 →
      valueEstimate ops net (ops.slide (ops.place after pos tile hint) op).2 ≠ none)
    (hne : eligible ops after space ≠ []) :
    expectationEstimate ops net shuffle after = some (fval.num
      (((eligible ops after space).map (cellScore ops net after tile hint)).sum
        / ((eligible ops after space).length : ℚ))) := by
  have hlen : (eligible ops after space).length ≠ 0 := by
    intro h; exact hne (List.length_eq_zero.mp h)
  unfold expectationEstimate
  simp only [hspace, not_lt.mpr hbag, if_false, htile, hhint,
    expectLoop_spec ops net after tile hint space 0 0 hdef, zero_add, hlen]

/-- C11 (evaluation of the code): on the afterstate `mergeAfter` with tables that hold
`-5000` everywhere, the only eligible cell is the top left corner; with the tile placed
there, sliding left is legal with reward 4 and value estimate `-160000`, so the largest
`reward + valueEstimate` over the legal slides is `-159996` (`cellScore` without the initial
value). The expectation estimate is nevertheless `-100001`, the initial
`bestReward + bestValue`, because no legal slide passes the test
`reward + value > bestReward + bestValue`. -/
theorem expectationEstimate_keeps_initial_score :
    eligible tilesOps mergeAfter [0, 4, 8, 12] = [0] ∧
    (tilesOps.slide (tilesOps.place mergeAfter 0 3 2) 3).1 = 4 ∧
    valueEstimate tilesOps lowNet (tilesOps.slide (tilesOps.place mergeAfter 0 3 2) 3).2
      = some (-160000) ∧
    opcode.filterMap (onePlyScore tilesOps lowNet (tilesOps.place mergeAfter 0 3 2))
      = [-159996, -159996] ∧
    expectationEstimate tilesOps lowNet id mergeAfter = some (fval.num (-100001)) := by
  refine ⟨by decide!, by decide!, by decide!, by decide!, by decide!⟩

end Threes

namespace Threes

/-! ## The value estimate and the adjustment as folds over the 32 lookups -/

theorem sumKeys_append (net : List weight) :
    ∀ (l1 l2 : List (Nat × Int)) (v : ℚ),
      sumKeys net (l1 ++ l2) v = (sumKeys net l1 v).bind (sumKeys net l2) := by
  intro l1
  induction l1 with
  | nil => intro l2 v; rfl
  | cons key rest ih =>
    intro l2 v
    simp only [List.cons_append, sumKeys]
    cases lookup net key.1 key.2 with
    | none => rfl
    | some x => exact ih l2 (v + x)

theorem bumpKeys_append (delta : ℚ) :
    ∀ (l1 l2 : List (Nat × Int)) (net : List weight),
      bumpKeys delta (l1 ++ l2) net = (bumpKeys delta l1 net).bind (bumpKeys delta l2) := by
  intro l1
  induction l1 with
  | nil => intro l2 net; rfl
  | cons key rest ih =>
    intro l2 net
    simp only [List.cons_append, bumpKeys]
    cases bump net key.1 key.2 delta with
    | none => rfl
    | some net1 => exact ih l2 net1

theorem addTuples_eq_sumKeys {β : Type} (ops : BoardOps β) (net : List weight) (state : β)
    (v : ℚ) : addTuples ops net state v = sumKeys net (tupleKeys ops state) v := by
  unfold addTuples tupleKeys
  simp only [sumKeys]
  cases lookup net 0 (featureExtract ops state 0 1 2 3 4 5) <;>
  cases lookup net 1 (featureExtract ops state 4 5 6 7 8 9) <;>
  cases lookup net 2 (featureExtract ops state 0 1 2 4 5 6) <;>
  cases lookup net 3 (featureExtract ops state 4 5 6 8 9 10) <;> rfl

theorem adjustTuples_eq_bumpKeys {β : Type} (ops : BoardOps β) (net : List weight)
    (state : β) (delta : ℚ) :
    adjustTuples ops net state delta = bumpKeys delta (tupleKeys ops state) net := by
  unfold adjustTuples tupleKeys
  simp only [bumpKeys]
  cases bump net 0 (featureExtract ops state 0 1 2 3 4 5) delta with
  | none => rfl
  | some n0 =>
    simp only
    cases bump n0 1 (featureExtract ops state 4 5 6 7 8 9) delta with
    | none => rfl
    | some n1 =>
      simp only
      cases bump n1 2 (featureExtract ops state 0 1 2 4 5 6) delta with
      | none => rfl
      | some n2 =>
        simp only
        cases bump n2 3 (featureExtract ops state 4 5 6 8 9 10) delta <;> rfl

theorem estimateLoop_eq_sumKeys {β : Type} (ops : BoardOps β) (net : List weight) :
    ∀ (r : Nat) (state : β) (v : ℚ),
      estimateLoop ops net r state v =
        (sumKeys net ((rotations ops r state).map (tupleKeys ops)).flatten v).map
          (fun x => (ops.rotate_clockwise^[r] state, x)) := by
  intro r
  induction r with
  | zero => intro state v; rfl
  | succ r ih =>
    intro state v
    simp only [estimateLoop, rotations, List.map_cons, List.flatten_cons, sumKeys_append,
      addTuples_eq_sumKeys, Function.iterate_succ_apply]
    cases sumKeys net (tupleKeys ops state) v with
    | none => rfl
    | some x => exact ih (ops.rotate_clockwise state) x

theorem adjustLoop_eq_bumpKeys {β : Type} (ops : BoardOps β) (delta : ℚ) :
    ∀ (r : Nat) (state : β) (net : List weight),
      adjustLoop ops delta r state net =
        (bumpKeys delta ((rotations ops r state).map (tupleKeys ops)).flatten net).map
          (fun n => (ops.rotate_clockwise^[r] state, n)) := by
  intro r
  induction r with
  | zero => intro state net; rfl
  | succ r ih =>
    intro state net
    simp only [adjustLoop, rotations, List.map_cons, List.flatten_cons, bumpKeys_append,
      adjustTuples_eq_bumpKeys, Function.iterate_succ_apply]
    cases bumpKeys delta (tupleKeys ops state) net with
    | none => rfl
    | some n1 => exact ih (ops.rotate_clockwise state) n1

theorem valueEstimate_eq_sumKeys {β : Type} (ops : BoardOps β) (net : List weight)
    (after : β) : valueEstimate ops net after = sumKeys net (featureKeys ops after) 0 := by
  unfold valueEstimate featureKeys orientations
  rw [List.map_append, List.flatten_append, sumKeys_append, estimateLoop_eq_sumKeys]
  cases sumKeys net ((rotations ops 4 after).map (tupleKeys ops)).flatten 0 with
  | none => rfl
  | some x =>
    simp only [Option.map_some', Option.some_bind, estimateLoop_eq_sumKeys]
    cases sumKeys net ((rotations ops 4 (ops.reflect_horizontal
      (ops.rotate_clockwise^[4] after))).map (tupleKeys ops)).flatten x <;> rfl

theorem valueAdjust_eq_bumpKeys {β : Type} (ops : BoardOps β) (net : List weight) (alpha : ℚ)
    (after : β) (TDtarget : ℚ) :
    valueAdjust ops net alpha after TDtarget =
      (valueEstimate ops net after).bind
        (fun currentV => bumpKeys (alpha * (TDtarget - currentV) / 8)
          (featureKeys ops after) net) := by
  unfold valueAdjust
  cases valueEstimate ops net after with
  | none => rfl
  | some currentV =>
    simp only [Option.some_bind, featureKeys, orientations]
    rw [List.map_append, List.flatten_append, bumpKeys_append, adjustLoop_eq_bumpKeys]
    cases bumpKeys (alpha * (TDtarget - currentV) / 8)
        ((rotations ops 4 after).map (tupleKeys ops)).flatten net with
    | none => rfl
    | some n1 =>
      simp only [Option.map_some', Option.some_bind, adjustLoop_eq_bumpKeys]
      cases bumpKeys (alpha * (TDtarget - currentV) / 8)
        ((rotations ops 4 (ops.reflect_horizontal
          (ops.rotate_clockwise^[4] after))).map (tupleKeys ops)).flatten n1 <;> rfl

theorem featureKeys_length {β : Type} (ops : BoardOps β) (after : β) :
    (featureKeys ops after).length = 32 := by
  simp [featureKeys, orientations, rotations, tupleKeys]

end Threes

namespace Threes

theorem lookup_of_valid (net : List weight) (key : Nat × Int) (h : ValidKey net key) :
    lookup net key.1 key.2 = some (entry net key.1 key.2.toNat) := by
  obtain ⟨w, hw, h0, h1⟩ := h
  simp [lookup, entry, hw, weight.get, h0, h1]

theorem valid_of_lookup (net : List weight) (key : Nat × Int) (x : ℚ)
    (h : lookup net key.1 key.2 = some x) : ValidKey net key := by
  unfold lookup at h
  cases hw : net[key.1]? with
  | none => simp [hw] at h
  | some w =>
    simp only [hw, weight.get] at h
    by_cases hc : 0 ≤ key.2 ∧ key.2.toNat < w.size
    · exact ⟨w, hw, hc.1, hc.2⟩
    · simp [hc] at h

theorem sumKeys_of_valid (net : List weight) :
    ∀ (keys : List (Nat × Int)) (v : ℚ), (∀ key ∈ keys, ValidKey net key) →
      sumKeys net keys v
        = some (v + (keys.map (fun key => entry net key.1 key.2.toNat)).sum) := by
  intro keys
  induction keys with
  | nil => intro v _; simp [sumKeys]
  | cons key rest ih =>
    intro v h
    simp only [sumKeys, lookup_of_valid net key (h key (List.mem_cons_self key rest)),
      List.map_cons, List.sum_cons]
    rw [ih _ (fun k hk => h k (List.mem_cons_of_mem key hk))]
    congr 1
    ring

theorem sumKeys_valid (net : List weight) :
    ∀ (keys : List (Nat × Int)) (v s : ℚ), sumKeys net keys v = some s →
      ∀ key ∈ keys, ValidKey net key := by
  intro keys
  induction keys with
  | nil => intro v s _ key hk; cases hk
  | cons key rest ih =>
    intro v s h k hk
    simp only [sumKeys] at h
    cases hl : lookup net key.1 key.2 with
    | none => simp [hl] at h
    | some x =>
      simp only [hl] at h
      rcases List.mem_cons.mp hk with rfl | hk
      · exact valid_of_lookup net k x hl
      · exact ih (v + x) s h k hk

theorem bump_spec (net : List weight) (k : Nat) (i : Int) (delta : ℚ)
    (h : ValidKey net (k, i)) :
    ∃ net1, bump net k i delta = some net1 ∧ net1.length = net.length ∧
      (∀ k1 : Nat, (net1[k1]?).map weight.size = (net[k1]?).map weight.size) ∧
      ∀ k1 j : Nat, entry net1 k1 j
        = entry net k1 j + (if (k, i) = (k1, (j : Int)) then delta else 0) := by
  obtain ⟨w, hw, h0, h1⟩ := h
  simp only at hw h0 h1
  have hk : k < net.length := (List.getElem?_eq_some.mp hw).1
  refine ⟨net.set k
      { w with value := Function.update w.value i.toNat (w.value i.toNat + delta) },
    by simp only [bump, hw, h0, h1, and_self, if_true], by simp, ?_, ?_⟩
  · intro k1
    rw [List.getElem?_set]
    by_cases e : k = k1
    · subst e; simp [hk, hw]
    · simp [e]
  · intro k1 j
    unfold entry
    rw [List.getElem?_set]
    by_cases e : k = k1
    · subst e
      simp only [hk, if_true, hw]
      by_cases ej : i = (j : Int)
      · have hj : i.toNat = j := by omega
        rw [if_pos (by rw [ej]), hj]
        simp
      · have hj : ¬ j = i.toNat := by omega
        rw [if_neg (by intro h; exact ej (Prod.mk.inj h).2)]
        simp [Function.update, hj]
    · simp [e]

theorem validKey_congr (net net1 : List weight)
    (h : ∀ k : Nat, (net1[k]?).map weight.size = (net[k]?).map weight.size) (key : Nat × Int)
    (hv : ValidKey net key) : ValidKey net1 key := by
  obtain ⟨w, hw, h0, h1⟩ := hv
  have hk := h key.1
  rw [hw] at hk
  cases hw1 : net1[key.1]? with
  | none => simp [hw1] at hk
  | some w1 =>
    simp only [hw1, Option.map_some', Option.some.injEq] at hk
    exact ⟨w1, hw1, h0, by rw [hk]; exact h1⟩

theorem bumpKeys_spec (delta : ℚ) :
    ∀ (keys : List (Nat × Int)) (net : List weight), (∀ key ∈ keys, ValidKey net key) →
      ∃ net1, bumpKeys delta keys net = some net1 ∧ net1.length = net.length ∧
        (∀ k : Nat, (net1[k]?).map weight.size = (net[k]?).map weight.size) ∧
        ∀ k j : Nat, entry net1 k j = entry net k j + (keys.count (k, (j : Int)) : ℚ) * delta := by
  intro keys
  induction keys with
  | nil => intro net _; exact ⟨net, rfl, rfl, fun _ => rfl, by simp⟩
  | cons key rest ih =>
    intro net h
    obtain ⟨n1, hb, hlen1, hsz1, hent1⟩ :=
      bump_spec net key.1 key.2 delta (h key (List.mem_cons_self key rest))
    obtain ⟨n2, hb2, hlen2, hsz2, hent2⟩ := ih n1
      (fun k hk => validKey_congr net n1 hsz1 k (h k (List.mem_cons_of_mem key hk)))
    refine ⟨n2, by simp only [bumpKeys, hb]; exact hb2, by rw [hlen2, hlen1],
      fun k => by rw [hsz2, hsz1], ?_⟩
    intro k j
    rw [hent2, hent1, List.count_cons]
    by_cases e : key = (k, (j : Int))
    · have e2 : (key.1, key.2) = (k, (j : Int)) := e
      simp only [e2, if_true, e, beq_self_eq_true]
      push_cast
      ring
    · have e2 : ¬ (key.1, key.2) = (k, (j : Int)) := e
      have e3 : (key == (k, (j : Int))) = false := by simpa using e
      simp only [e2, if_false, e3]
      push_cast
      ring

/-- In exact arithmetic: when `valueEstimate(after)` is defined with value `V` on the tables
before the call
(all 32 lookups address existing entries), `valueAdjust(after, target)` returns tables of the
same number and sizes in which every entry of every table has gained
`alpha * (target - V) / 8` once for each of the 32 (orientation, tuple) lookups of `after`
that address it, so `k * alpha * (target - V) / 8` for an entry addressed `k` times; an
entry addressed by none of the 32 lookups is unchanged. The 32 pairs are those that
`valueEstimate` reads: `V` is the sum of the entries they address. -/
theorem valueAdjust_spec {β : Type} (ops : BoardOps β) (net : List weight) (alpha : ℚ)
    (after : β) (target V : ℚ) (hV : valueEstimate ops net after = some V) :
    (featureKeys ops after).length = 32 ∧
    V = ((featureKeys ops after).map (fun key => entry net key.1 key.2.toNat)).sum ∧
    ∃ net1, valueAdjust ops net alpha after target = some net1 ∧
      net1.length = net.length ∧
      (∀ k : Nat, (net1[k]?).map weight.size = (net[k]?).map weight.size) ∧
      (∀ k j : Nat, entry net1 k j = entry net k j
        + ((featureKeys ops after).count (k, (j : Int)) : ℚ) * (alpha * (target - V) / 8)) ∧
      (∀ k j : Nat, (k, (j : Int)) ∉ featureKeys ops after → entry net1 k j = entry net k j) := by
  have hsum := hV
  rw [valueEstimate_eq_sumKeys] at hsum
  have hvalid := sumKeys_valid net (featureKeys ops after) 0 V hsum
  have hV2 := sumKeys_of_valid net (featureKeys ops after) 0 hvalid
  rw [hsum] at hV2
  obtain ⟨net1, hb, hlen, hsz, hent⟩ :=
    bumpKeys_spec (alpha * (target - V) / 8) (featureKeys ops after) net hvalid
  refine ⟨featureKeys_length ops after, by simpa using Option.some.inj hV2, net1, ?_, hlen,
    hsz, hent, ?_⟩
  · rw [valueAdjust_eq_bumpKeys, hV]
    exact hb
  · intro k j hnot
    rw [hent, List.count_eq_zero_of_not_mem hnot]
    simp

theorem valueAdjust_spec_witness :
    valueEstimate tilesOps zeroNet lastMove = some 0 ∧
    ((featureKeys tilesOps lastMove).length = 32 ∧
    (0 : ℚ) = ((featureKeys tilesOps lastMove).map
      (fun key => entry zeroNet key.1 key.2.toNat)).sum ∧
    ∃ net1, valueAdjust tilesOps zeroNet (1 / 4) lastMove 8 = some net1 ∧
      net1.length = zeroNet.length ∧
      (∀ k : Nat, (net1[k]?).map weight.size = (zeroNet[k]?).map weight.size) ∧
      (∀ k j : Nat, entry net1 k j = entry zeroNet k j
        + ((featureKeys tilesOps lastMove).count (k, (j : Int)) : ℚ)
          * ((1 / 4) * (8 - 0) / 8)) ∧
      (∀ k j : Nat, (k, (j : Int)) ∉ featureKeys tilesOps lastMove →
        entry net1 k j = entry zeroNet k j)) :=
  ⟨by decide!, valueAdjust_spec tilesOps zeroNet (1 / 4) lastMove 8 0 (by decide!)⟩

end Threes

namespace Threes

/-! ## Episodes -/

theorem valueAdjust_total {β : Type} (ops : BoardOps β) (net : List weight) (alpha : ℚ)
    (after : β) (target : ℚ) (h : ∀ key ∈ featureKeys ops after, ValidKey net key) :
    ∃ net1, valueAdjust ops net alpha after target = some net1 ∧
      ∀ k : Nat, (net1[k]?).map weight.size = (net[k]?).map weight.size := by
  have hV := sumKeys_of_valid net (featureKeys ops after) 0 h
  obtain ⟨net1, hb, _, hsz, _⟩ := bumpKeys_spec
    (alpha * (target - (0 + ((featureKeys ops after).map
      (fun key => entry net key.1 key.2.toNat)).sum)) / 8) (featureKeys ops after) net h
  refine ⟨net1, ?_, hsz⟩
  rw [valueAdjust_eq_bumpKeys, valueEstimate_eq_sumKeys, hV]
  exact hb

theorem closeSpec_total {β : Type} (ops : BoardOps β) (alpha : ℚ) :
    ∀ (buf : List (step β)) (net : List weight),
      (∀ s ∈ buf, ∀ key ∈ featureKeys ops s.afterstate, ValidKey net key) →
      ∃ net1, closeSpec ops alpha buf net = some net1 ∧
        ∀ k : Nat, (net1[k]?).map weight.size = (net[k]?).map weight.size := by
  intro buf
  induction buf with
  | nil => intro net _; exact ⟨net, rfl, fun _ => rfl⟩
  | cons s rest ih =>
    intro net h
    cases rest with
    | nil =>
      simp only [closeSpec]
      exact valueAdjust_total ops net alpha s.afterstate 0
        (h s (List.mem_cons_self s []))
    | cons s1 rest1 =>
      obtain ⟨net1, h1, hsz1⟩ := ih net (fun t ht => h t (List.mem_cons_of_mem s ht))
      have hv1 : ∀ key ∈ featureKeys ops s1.afterstate, ValidKey net1 key :=
        fun key hk => validKey_congr net net1 hsz1 key
          (h s1 (List.mem_cons_of_mem s (List.mem_cons_self s1 rest1)) key hk)
      have hv : ∀ key ∈ featureKeys ops s.afterstate, ValidKey net1 key :=
        fun key hk => validKey_congr net net1 hsz1 key
          (h s (List.mem_cons_self s (s1 :: rest1)) key hk)
      have hE := sumKeys_of_valid net1 (featureKeys ops s1.afterstate) 0 hv1
      rw [← valueEstimate_eq_sumKeys] at hE
      obtain ⟨net2, h2, hsz2⟩ := valueAdjust_total ops net1 alpha s.afterstate
        ((s1.reward : ℚ) + (0 + ((featureKeys ops s1.afterstate).map
          (fun key => entry net1 key.1 key.2.toNat)).sum)) hv
      refine ⟨net2, ?_, fun k => by rw [hsz2, hsz1]⟩
      simp only [closeSpec, h1, hE, h2]

theorem closeLoop_closeSpec {β : Type} (ops : BoardOps β) (alpha : ℚ) (buf : List (step β))
    (net : List weight) :
    ∀ t : Nat, t < buf.length →
      (closeSpec ops alpha (buf.drop t) net).bind (closeLoop ops alpha buf t)
        = closeSpec ops alpha buf net := by
  intro t
  induction t with
  | zero =>
    intro _
    rw [List.drop_zero]
    cases closeSpec ops alpha buf net <;> rfl
  | succ t ih =>
    intro ht
    have ht0 : t < buf.length := by omega
    rw [← ih ht0]
    have hd1 : buf.drop (t + 1) = buf[t + 1] :: buf.drop (t + 2) :=
      List.drop_eq_getElem_cons ht
    have hd0 : buf.drop t = buf[t] :: buf[t + 1] :: buf.drop (t + 2) := by
      rw [List.drop_eq_getElem_cons ht0, hd1]
    rw [hd0, hd1]
    simp only [closeSpec]
    cases closeSpec ops alpha (buf[t + 1] :: buf.drop (t + 2)) net with
    | none => rfl
    | some net1 =>
      simp only [Option.some_bind, closeLoop, List.getElem?_eq_getElem ht,
        List.getElem?_eq_getElem ht0]
      cases valueEstimate ops net1 buf[t + 1].afterstate with
      | none => rfl
      | some v =>
        simp only
        cases valueAdjust ops net1 alpha buf[t].afterstate ((buf[t + 1].reward : ℚ) + v) <;> rfl

/-- C13: `close_episode` returns the agent as it is for an empty trajectory or `alpha == 0`;
for a non-empty trajectory `(r_0, s_0), ..., (r_{n-1}, s_{n-1})` and `alpha != 0` it changes
the tables only, and the tables are those obtained by `valueAdjust(s_{n-1}, 0)` followed, for
`t = n-2` down to `0`, by `valueAdjust(s_t, r_{t+1} + valueEstimate(s_{t+1}))` with each
target evaluated on the tables already updated by the later steps (`closeSpec`). When every
lookup of every afterstate of the trajectory addresses an existing entry, the call
returns. -/
theorem close_episode_spec {β : Type} (ops : BoardOps β) (self : td_agent β) :
    close_episode ops self =
      (if self.replayBuffer.length = 0 ∨ self.alpha = 0 then some self
       else (closeSpec ops self.alpha self.replayBuffer self.net).map
         (fun net2 => { self with net := net2 })) ∧
    ((∀ s ∈ self.replayBuffer, ∀ key ∈ featureKeys ops s.afterstate, ValidKey self.net key) →
      ∃ a, close_episode ops self = some a) := by
  have main : close_episode ops self =
      (if self.replayBuffer.length = 0 ∨ self.alpha = 0 then some self
       else (closeSpec ops self.alpha self.replayBuffer self.net).map
         (fun net2 => { self with net := net2 })) := by
    by_cases hc : self.replayBuffer.length = 0 ∨ self.alpha = 0
    · rw [if_pos hc]
      unfold close_episode
      rcases hc with h | h
      · simp [List.length_eq_zero.mp h]
      · simp [h]
    · rw [if_neg hc]
      have hne : self.replayBuffer ≠ [] := fun h => hc (Or.inl (by rw [h]; rfl))
      have ha : self.alpha ≠ 0 := fun h => hc (Or.inr h)
      have hlen : 0 < self.replayBuffer.length := List.length_pos.mpr hne
      have hlast : self.replayBuffer.length - 1 < self.replayBuffer.length := by omega
      have hcond : (self.replayBuffer.isEmpty || decide (self.alpha = 0)) = false := by
        simp [hne, ha, List.isEmpty_iff]
      have hdrop : self.replayBuffer.drop (self.replayBuffer.length - 1)
          = [self.replayBuffer[self.replayBuffer.length - 1]] := by
        rw [List.drop_eq_getElem_cons hlast]
        have : self.replayBuffer.length - 1 + 1 = self.replayBuffer.length := by omega
        rw [this, List.drop_length]
      rw [← closeLoop_closeSpec ops self.alpha self.replayBuffer self.net
        (self.replayBuffer.length - 1) hlast, hdrop]
      unfold close_episode
      simp only [hcond, Bool.false_eq_true, if_false, List.getElem?_eq_getElem hlast, closeSpec]
      cases valueAdjust ops self.net self.alpha
          self.replayBuffer[self.replayBuffer.length - 1].afterstate 0 with
      | none => rfl
      | some net1 =>
        simp only [Option.some_bind]
        cases closeLoop ops self.alpha self.replayBuffer (self.replayBuffer.length - 1)
          net1 <;> rfl
  refine ⟨main, ?_⟩
  intro hvalid
  rw [main]
  by_cases hc : self.replayBuffer.length = 0 ∨ self.alpha = 0
  · exact ⟨self, by rw [if_pos hc]⟩
  · obtain ⟨net1, h1, _⟩ := closeSpec_total ops self.alpha self.replayBuffer self.net hvalid
    exact ⟨{ self with net := net1 }, by rw [if_neg hc, h1]; rfl⟩

end Threes

namespace Threes

/-- C14 (the statement as written fails): `close_episode` on an agent with a trajectory of two
steps and a non-zero learning rate returns an agent whose trajectory still has its two
steps, so the trajectory is not empty after `close_episode`. -/
theorem close_episode_keeps_trajectory :
    (close_episode tilesOps demoAgent).map (fun a => a.replayBuffer.length) = some 2 := by
  decide!

/-- C14 (amended): the trajectory is empty after `open_episode`, for every trajectory and
learning rate; `close_episode`, when it returns, leaves the trajectory and the learning rate
as they were (it reads the trajectory and does not clear it); and the agent that reaches
`close_episode` at the end of an episode, which starts with `open_episode`, does not depend
on the trajectory that the agent held before the episode: steps recorded in an earlier
episode are not present when `close_episode` runs. -/
theorem episode_trajectory {β : Type} (ops : BoardOps β) (shuffle : List Nat → List Nat)
    (self : td_agent β) (boards : List β) :
    (open_episode self).replayBuffer = [] ∧
    (∀ a, close_episode ops self = some a →
      a.replayBuffer = self.replayBuffer ∧ a.alpha = self.alpha) ∧
    (∀ earlier : List (step β),
      playEpisode ops shuffle { self with replayBuffer := earlier } boards
        = playEpisode ops shuffle self boards) := by
  refine ⟨rfl, ?_, fun _ => rfl⟩
  intro a ha
  unfold close_episode at ha
  split at ha
  · rw [← Option.some.inj ha]
    exact ⟨rfl, rfl⟩
  · split at ha
    · cases ha
    · split at ha
      · cases ha
      · split at ha
        · cases ha
        · rw [← Option.some.inj ha]
          exact ⟨rfl, rfl⟩

end Threes

namespace Threes

theorem episode_trajectory_witness :
    ∃ a, close_episode tilesOps demoAgent = some a ∧
      a.replayBuffer = demoAgent.replayBuffer ∧ a.alpha = demoAgent.alpha := by
  have h : (close_episode tilesOps demoAgent).isSome = true := by decide!
  obtain ⟨a, ha⟩ := Option.isSome_iff_exists.mp h
  exact ⟨a, ha, (episode_trajectory tilesOps id demoAgent []).2.1 a ha⟩

theorem demoAgent_valid :
    ∀ s ∈ demoAgent.replayBuffer, ∀ key ∈ featureKeys tilesOps s.afterstate,
      ValidKey demoAgent.net key := by
  intro s hs key hk
  have hs2 : s = { reward := 0, afterstate := lastMove } ∨
      s = { reward := 5, afterstate := deadBoard } := by
    simpa [demoAgent] using hs
  rcases hs2 with rfl | rfl
  · exact sumKeys_valid zeroNet _ 0 0
      (by rw [← valueEstimate_eq_sumKeys]; decide!) key hk
  · exact sumKeys_valid zeroNet _ 0 0
      (by rw [← valueEstimate_eq_sumKeys]; decide!) key hk

theorem close_episode_spec_witness :
    (∀ s ∈ demoAgent.replayBuffer, ∀ key ∈ featureKeys tilesOps s.afterstate,
      ValidKey demoAgent.net key) ∧
    ∃ a, close_episode tilesOps demoAgent = some a :=
  ⟨demoAgent_valid, (close_episode_spec tilesOps demoAgent).2 demoAgent_valid⟩

end Threes

namespace Threes

/-! ## Symmetry of the value estimate -/

theorem sumKeys_perm (net : List weight) {keys1 keys2 : List (Nat × Int)}
    (h : keys1.Perm keys2) (v : ℚ) : sumKeys net keys1 v = sumKeys net keys2 v := by
  by_cases hv : ∀ key ∈ keys1, ValidKey net key
  · have hv2 : ∀ key ∈ keys2, ValidKey net key := fun k hk => hv k (h.mem_iff.mpr hk)
    rw [sumKeys_of_valid net keys1 v hv, sumKeys_of_valid net keys2 v hv2,
      (h.map (fun key => entry net key.1 key.2.toNat)).sum_eq]
  · have h1 : sumKeys net keys1 v = none := by
      cases hs : sumKeys net keys1 v with
      | none => rfl
      | some s => exact absurd (sumKeys_valid net keys1 v s hs) hv
    have h2 : sumKeys net keys2 v = none := by
      cases hs : sumKeys net keys2 v with
      | none => rfl
      | some s =>
        exact absurd (fun k hk => sumKeys_valid net keys2 v s hs k (h.mem_iff.mp hk)) hv
    rw [h1, h2]

theorem orientations_rotate {β : Type} (ops : BoardOps β) (b : β)
    (h4 : ops.rotate_clockwise^[4] b = b)
    (h4f : ops.rotate_clockwise^[4] (ops.reflect_horizontal b) = ops.reflect_horizontal b)
    (hr : ops.reflect_horizontal (ops.rotate_clockwise b)
      = ops.rotate_clockwise^[3] (ops.reflect_horizontal b)) :
    (orientations ops (ops.rotate_clockwise b)).Perm (orientations ops b) := by
  have e1 : ops.rotate_clockwise^[4] (ops.rotate_clockwise b) = ops.rotate_clockwise b := by
    rw [← Function.iterate_succ_apply, Function.iterate_succ_apply', h4]
  have h4a : ops.rotate_clockwise (ops.rotate_clockwise (ops.rotate_clockwise
      (ops.rotate_clockwise b))) = b := by
    simpa [Function.iterate_succ_apply] using h4
  have h4b : ops.rotate_clockwise (ops.rotate_clockwise (ops.rotate_clockwise
      (ops.rotate_clockwise (ops.reflect_horizontal b)))) = ops.reflect_horizontal b := by
    simpa [Function.iterate_succ_apply] using h4f
  have hr1 : ops.reflect_horizontal (ops.rotate_clockwise b)
      = ops.rotate_clockwise (ops.rotate_clockwise (ops.rotate_clockwise
          (ops.reflect_horizontal b))) := by
    simpa [Function.iterate_succ_apply] using hr
  unfold orientations
  rw [e1, h4, hr1]
  simp only [rotations, h4a, h4b, List.cons_append, List.nil_append]
  generalize ops.rotate_clockwise b = x1
  generalize ops.rotate_clockwise x1 = x2
  generalize ops.rotate_clockwise x2 = x3
  generalize ops.reflect_horizontal b = y0
  generalize ops.rotate_clockwise y0 = y1
  generalize ops.rotate_clockwise y1 = y2
  generalize ops.rotate_clockwise y2 = y3
  have p1 : [x1, x2, x3, b].Perm [b, x1, x2, x3] :=
    @List.perm_append_comm _ [x1, x2, x3] [b]
  have p2 : [y3, y0, y1, y2].Perm [y0, y1, y2, y3] :=
    @List.perm_append_comm _ [y3] [y0, y1, y2]
  exact List.Perm.append p1 p2

/-- C15: symmetry of the value estimate. For every board `b` on which four quarter turns give
the board back (also after a horizontal reflection) and on which reflecting the rotated board
is the same as rotating the reflected board three times, and for every content of the weight
tables, the 8 boards visited for `rotate_clockwise(b)` are a rearrangement of the 8 boards
visited for `b`, and `valueEstimate` gives the same result on both boards, in exact
arithmetic. -/
theorem valueEstimate_rotate_clockwise {β : Type} (ops : BoardOps β) (net : List weight)
    (b : β)
    (h4 : ops.rotate_clockwise^[4] b = b)
    (h4f : ops.rotate_clockwise^[4] (ops.reflect_horizontal b) = ops.reflect_horizontal b)
    (hr : ops.reflect_horizontal (ops.rotate_clockwise b)
      = ops.rotate_clockwise^[3] (ops.reflect_horizontal b)) :
    (orientations ops (ops.rotate_clockwise b)).Perm (orientations ops b) ∧
    valueEstimate ops net (ops.rotate_clockwise b) = valueEstimate ops net b := by
  have hp := orientations_rotate ops b h4 h4f hr
  refine ⟨hp, ?_⟩
  rw [valueEstimate_eq_sumKeys, valueEstimate_eq_sumKeys]
  exact sumKeys_perm net (hp.map (tupleKeys ops)).flatten 0

end Threes

namespace Threes

theorem cells_sixteen (l : List Nat) (h : l.length = 16) :
    ∃ a0 a1 a2 a3 a4 a5 a6 a7 a8 a9 a10 a11 a12 a13 a14 a15 : Nat,
      l = [a0, a1, a2, a3, a4, a5, a6, a7, a8, a9, a10, a11, a12, a13, a14, a15] :=
  match l, h with
  | [a0, a1, a2, a3, a4, a5, a6, a7, a8, a9, a10, a11, a12, a13, a14, a15], _ =>
    ⟨a0, a1, a2, a3, a4, a5, a6, a7, a8, a9, a10, a11, a12, a13, a14, a15, rfl⟩

/-- On the stand-in board with sixteen cells, four quarter turns give the board back and a
reflection after a quarter turn is three quarter turns after the reflection. -/
theorem tilesOps_geometry (b : Tiles) (h : b.cells.length = 16) :
    tilesOps.rotate_clockwise^[4] b = b ∧
    tilesOps.rotate_clockwise^[4] (tilesOps.reflect_horizontal b)
      = tilesOps.reflect_horizontal b ∧
    tilesOps.reflect_horizontal (tilesOps.rotate_clockwise b)
      = tilesOps.rotate_clockwise^[3] (tilesOps.reflect_horizontal b) := by
  obtain ⟨cells, hint, bag, last⟩ := b
  obtain ⟨a0, a1, a2, a3, a4, a5, a6, a7, a8, a9, a10, a11, a12, a13, a14, a15, rfl⟩ :=
    cells_sixteen cells h
  exact ⟨rfl, rfl, rfl⟩

theorem valueEstimate_rotate_clockwise_witness :
    (orientations tilesOps (tilesOps.rotate_clockwise lastMove)).Perm
      (orientations tilesOps lastMove) ∧
    valueEstimate tilesOps zeroNet (tilesOps.rotate_clockwise lastMove)
      = valueEstimate tilesOps zeroNet lastMove :=
  valueEstimate_rotate_clockwise tilesOps zeroNet lastMove rfl rfl rfl

end Threes

namespace Threes

/-! ## The index computed by `featureExtract` -/

theorem wrap32_small (x : Nat) (h : x < 2 ^ 31) : wrap32 x = (x : Int) := by
  have h1 : x % 2 ^ 32 = x := Nat.mod_eq_of_lt (by omega)
  unfold wrap32
  rw [h1, if_pos h]

theorem featureExtract_eq {β : Type} (ops : BoardOps β) (after : β) (a b c d e f : Nat)
    (ha : ops.cell after a ≤ 15) (hb : ops.cell after b ≤ 15) (hc : ops.cell after c ≤ 15)
    (hd : ops.cell after d ≤ 15) (he : ops.cell after e ≤ 15) (hf : ops.cell after f ≤ 15) :
    featureExtract ops after a b c d e f
      = ((ops.cell after a * 16 ^ 5 + ops.cell after b * 16 ^ 4 + ops.cell after c * 16 ^ 3
          + ops.cell after d * 16 ^ 2 + ops.cell after e * 16 + ops.cell after f : Nat) : Int)
      ∧ ops.cell after a * 16 ^ 5 + ops.cell after b * 16 ^ 4 + ops.cell after c * 16 ^ 3
          + ops.cell after d * 16 ^ 2 + ops.cell after e * 16 + ops.cell after f < 16 ^ 6 := by
  unfold featureExtract
  generalize ops.cell after a = xa at *
  generalize ops.cell after b = xb at *
  generalize ops.cell after c = xc at *
  generalize ops.cell after d = xd at *
  generalize ops.cell after e = xe at *
  generalize ops.cell after f = xf at *
  have e : xa * 16 * 16 * 16 * 16 * 16 + xb * 16 * 16 * 16 * 16 + xc * 16 * 16 * 16
      + xd * 16 * 16 + xe * 16 + xf
      = xa * 16 ^ 5 + xb * 16 ^ 4 + xc * 16 ^ 3 + xd * 16 ^ 2 + xe * 16 + xf := by ring
  rw [e]
  have hlt : xa * 16 ^ 5 + xb * 16 ^ 4 + xc * 16 ^ 3 + xd * 16 ^ 2 + xe * 16 + xf < 16 ^ 6 := by
    norm_num
    omega
  exact ⟨wrap32_small _ (lt_trans hlt (by norm_num)), hlt⟩

/-- C16: the index computed by `featureExtract`. For every board whose six addressed cells
hold values in `[0,15]`, the result is the base-16 number
`after(a)*16^5 + after(b)*16^4 + after(c)*16^3 + after(d)*16^2 + after(e)*16 + after(f)`
(the 32-bit arithmetic does not overflow), it lies in `[0, 16^6)`, it addresses an existing
entry of every table of 16777216 entries, so that the lookup of `valueEstimate` reads that
entry and the update of `valueAdjust` succeeds, and another six values in `[0,15]` that give
the same index are the same six values. -/
theorem featureExtract_spec {β : Type} (ops : BoardOps β) (after : β) (a b c d e f : Nat)
    (ha : ops.cell after a ≤ 15) (hb : ops.cell after b ≤ 15) (hc : ops.cell after c ≤ 15)
    (hd : ops.cell after d ≤ 15) (he : ops.cell after e ≤ 15) (hf : ops.cell after f ≤ 15) :
    featureExtract ops after a b c d e f
      = ((ops.cell after a * 16 ^ 5 + ops.cell after b * 16 ^ 4 + ops.cell after c * 16 ^ 3
          + ops.cell after d * 16 ^ 2 + ops.cell after e * 16 + ops.cell after f : Nat) : Int) ∧
    0 ≤ featureExtract ops after a b c d e f ∧
    featureExtract ops after a b c d e f < 16 ^ 6 ∧
    (∀ (net : List weight) (k : Nat) (w : weight), net[k]? = some w → w.size = 16777216 →
      ValidKey net (k, featureExtract ops after a b c d e f) ∧
      lookup net k (featureExtract ops after a b c d e f)
        = some (w.value (featureExtract ops after a b c d e f).toNat) ∧
      ∀ delta : ℚ, ∃ net1, bump net k (featureExtract ops after a b c d e f) delta
        = some net1) ∧
    (∀ (after1 : β) (a1 b1 c1 d1 e1 f1 : Nat),
      ops.cell after1 a1 ≤ 15 → ops.cell after1 b1 ≤ 15 → ops.cell after1 c1 ≤ 15 →
      ops.cell after1 d1 ≤ 15 → ops.cell after1 e1 ≤ 15 → ops.cell after1 f1 ≤ 15 →
      featureExtract ops after1 a1 b1 c1 d1 e1 f1 = featureExtract ops after a b c d e f →
      ops.cell after1 a1 = ops.cell after a ∧ ops.cell after1 b1 = ops.cell after b ∧
      ops.cell after1 c1 = ops.cell after c ∧ ops.cell after1 d1 = ops.cell after d ∧
      ops.cell after1 e1 = ops.cell after e ∧ ops.cell after1 f1 = ops.cell after f) := by
  obtain ⟨heq, hlt⟩ := featureExtract_eq ops after a b c d e f ha hb hc hd he hf
  have h0 : 0 ≤ featureExtract ops after a b c d e f := by rw [heq]; exact Int.natCast_nonneg _
  have h1 : (featureExtract ops after a b c d e f).toNat < 16777216 := by
    rw [heq, Int.toNat_natCast]
    exact lt_of_lt_of_le hlt (by norm_num)
  refine ⟨heq, h0, ?_, ?_, ?_⟩
  · rw [heq]
    exact_mod_cast hlt
  · intro net k w hw hsz
    have hv : ValidKey net (k, featureExtract ops after a b c d e f) :=
      ⟨w, hw, h0, by rw [hsz]; exact h1⟩
    refine ⟨hv, ?_, ?_⟩
    · have := lookup_of_valid net _ hv
      simpa [entry, hw] using this
    · intro delta
      have hc : 0 ≤ featureExtract ops after a b c d e f ∧
          (featureExtract ops after a b c d e f).toNat < w.size := ⟨h0, by rw [hsz]; exact h1⟩
      simp only [bump, hw, if_pos hc]
      exact ⟨_, rfl⟩
  · intro after1 a1 b1 c1 d1 e1 f1 ha1 hb1 hc1 hd1 he1 hf1 hsame
    obtain ⟨heq1, _⟩ := featureExtract_eq ops after1 a1 b1 c1 d1 e1 f1 ha1 hb1 hc1 hd1 he1 hf1
    rw [heq, heq1] at hsame
    have hs : ops.cell after1 a1 * 16 ^ 5 + ops.cell after1 b1 * 16 ^ 4
        + ops.cell after1 c1 * 16 ^ 3 + ops.cell after1 d1 * 16 ^ 2 + ops.cell after1 e1 * 16
        + ops.cell after1 f1
        = ops.cell after a * 16 ^ 5 + ops.cell after b * 16 ^ 4 + ops.cell after c * 16 ^ 3
          + ops.cell after d * 16 ^ 2 + ops.cell after e * 16 + ops.cell after f := by
      exact_mod_cast hsame
    norm_num at hs
    omega

theorem featureExtract_spec_witness :
    featureExtract tilesOps lastMove 0 1 2 3 4 5 = (((4 * 16 ^ 5 + 5 * 16 ^ 4 + 6 * 16 ^ 3
      + 0 * 16 ^ 2 + 7 * 16 + 8 : Nat)) : Int) ∧
    lookup zeroNet 0 (featureExtract tilesOps lastMove 0 1 2 3 4 5) = some 0 :=
  ⟨(featureExtract_spec tilesOps lastMove 0 1 2 3 4 5 (by decide) (by decide) (by decide)
      (by decide) (by decide) (by decide)).1,
   ((featureExtract_spec tilesOps lastMove 0 1 2 3 4 5 (by decide) (by decide) (by decide)
      (by decide) (by decide) (by decide)).2.2.2.1 zeroNet 0
      { size := 16777216, value := fun _ => 0 } rfl rfl).2.1⟩

/-- On a board all of whose 8 orientations hold values in `[0,15]`, with tables of 16777216
entries, the 32 lookups address existing entries: `valueEstimate` returns a value and
`valueAdjust` returns the updated tables. -/
theorem featureKeys_valid_of_cells {β : Type} (ops : BoardOps β) (net : List weight)
    (after : β) (hnet : ∀ k : Nat, k < 4 → ∃ w, net[k]? = some w ∧ w.size = 16777216)
    (hcells : ∀ s ∈ orientations ops after, ∀ i : Nat, ops.cell s i ≤ 15) :
    (∀ key ∈ featureKeys ops after, ValidKey net key) ∧
    (∃ v, valueEstimate ops net after = some v) ∧
    ∀ alpha target : ℚ, ∃ net1, valueAdjust ops net alpha after target = some net1 := by
  have hvalid : ∀ key ∈ featureKeys ops after, ValidKey net key := by
    intro key hk
    simp only [featureKeys, List.mem_flatten, List.mem_map] at hk
    obtain ⟨l, ⟨s, hs, rfl⟩, hkey⟩ := hk
    have hc := hcells s hs
    have key4 : ∀ (k : Nat) (a b c d e f : Nat), k < 4 →
        ValidKey net (k, featureExtract ops s a b c d e f) := by
      intro k a b c d e f hk4
      obtain ⟨w, hw, hsz⟩ := hnet k hk4
      obtain ⟨heq, hlt⟩ := featureExtract_eq ops s a b c d e f (hc a) (hc b) (hc c) (hc d)
        (hc e) (hc f)
      refine ⟨w, hw, ?_, ?_⟩
      · show 0 ≤ featureExtract ops s a b c d e f
        rw [heq]; exact Int.natCast_nonneg _
      · show (featureExtract ops s a b c d e f).toNat < w.size
        rw [heq, Int.toNat_natCast, hsz]
        exact lt_of_lt_of_le hlt (by norm_num)
    simp only [tupleKeys, List.mem_cons, List.mem_singleton, List.not_mem_nil, or_false] at hkey
    rcases hkey with rfl | rfl | rfl | rfl
    · exact key4 0 _ _ _ _ _ _ (by decide)
    · exact key4 1 _ _ _ _ _ _ (by decide)
    · exact key4 2 _ _ _ _ _ _ (by decide)
    · exact key4 3 _ _ _ _ _ _ (by decide)
  refine ⟨hvalid, ?_, ?_⟩
  · rw [valueEstimate_eq_sumKeys, sumKeys_of_valid net _ 0 hvalid]
    exact ⟨_, rfl⟩
  · intro alpha target
    obtain ⟨net1, h1, _⟩ := valueAdjust_total ops net alpha after target hvalid
    exact ⟨net1, h1⟩

end Threes

namespace Threes

open Framework

/-! ## Construction of the weight tables -/

theorem readSizes_tuple6 : readSizes tuple6 = [16777216, 16777216, 16777216, 16777216] := by
  decide!

theorem find_set (m : MetaMap) (key value : List Char) :
    (m.set key value).find key = some value := by
  simp [MetaMap.set, MetaMap.find, List.lookup]

/-- C17, counterexample: the arguments `init=65536,65536` give the option `init` the value
`65536,65536`, which `init_weights` reads as two tables of 65536 entries; the constructor
builds four tables of 16777216 entries. -/
theorem weight_agent_new_ignores_init :
    (agent.new "init=65536,65536".toList).find "init".toList = some "65536,65536".toList ∧
    (init_weights [] "65536,65536".toList).map weight.size = [65536, 65536] ∧
    (weight_agent.new "init=65536,65536".toList).net.map weight.size
      = [16777216, 16777216, 16777216, 16777216] := by
  decide!

/-- C17: initialisation of the weight tables. For every argument string, with or without an
`init` option, the tables after the constructor has called `init_weights` (before any load)
are four tables of 16777216 entries, all zero: the constructor assigns the default sizes to
the option `init` before it reads the option. -/
theorem weight_agent_new_tables (args : List Char) :
    (weight_agent.new args).net.map weight.size
      = [16777216, 16777216, 16777216, 16777216] ∧
    (weight_agent.new args).net = zeroNet ∧
    (weight_agent.new args).meta.find "init".toList = some tuple6 := by
  have h : (weight_agent.new args).net = zeroNet := by
    unfold weight_agent.new
    simp only [find_set]
    unfold init_weights
    rw [readSizes_tuple6]
    rfl
  refine ⟨?_, h, find_set _ _ _⟩
  rw [h]
  rfl

end Threes

namespace NoGo

open Framework

/-! ## Construction of the player -/

theorem readTokens_append_space (b : List Char) (c : Char) (hc : isspace c = true) :
    ∀ (a cur : List Char),
      readTokens (a ++ c :: b) cur = readTokens (a ++ [c]) cur ++ readTokens b [] := by
  intro a
  induction a with
  | nil =>
    intro cur
    cases cur <;> simp [readTokens, hc]
  | cons x a ih =>
    intro cur
    simp only [List.cons_append, readTokens]
    cases isspace x <;> cases cur <;> simp [ih]

theorem readTokens_no_space :
    ∀ (s cur : List Char), (∀ c ∈ cur, isspace c = false) →
      ∀ t ∈ readTokens s cur, ∀ c ∈ t, isspace c = false := by
  intro s
  induction s with
  | nil =>
    intro cur hcur t ht c hc
    cases cur with
    | nil => simp [readTokens] at ht
    | cons y ys =>
      simp only [readTokens, List.isEmpty_cons, Bool.false_eq_true, if_false,
        List.mem_singleton] at ht
      subst ht
      exact hcur c (List.mem_reverse.mp hc)
  | cons x s ih =>
    intro cur hcur t ht c hc
    simp only [readTokens] at ht
    cases hx : isspace x with
    | true =>
      simp only [hx, if_true] at ht
      cases cur with
      | nil =>
        simp only [List.isEmpty_nil, if_true] at ht
        exact ih [] (by simp) t ht c hc
      | cons y ys =>
        simp only [List.isEmpty_cons, Bool.false_eq_true, if_false, List.mem_cons] at ht
        rcases ht with rfl | ht
        · exact hcur c (List.mem_reverse.mp hc)
        · exact ih [] (by simp) t ht c hc
    | false =>
      simp only [hx, Bool.false_eq_true, if_false] at ht
      refine ih (x :: cur) ?_ t ht c hc
      intro d hd
      rcases List.mem_cons.mp hd with rfl | hd
      · exact hx
      · exact hcur d hd

theorem valueOf_subset (pair : List Char) : ∀ c ∈ valueOf pair, c ∈ pair := by
  intro c hc
  unfold valueOf at hc
  split at hc
  · exact (List.dropWhile_sublist _).subset (List.mem_of_mem_drop hc)
  · exact hc

theorem foldl_set (toks : List (List Char)) :
    ∀ m : MetaMap, toks.foldl (fun m pair => m.set (keyOf pair) (valueOf pair)) m
      = (toks.map (fun pair => (keyOf pair, valueOf pair))).reverse ++ m := by
  induction toks with
  | nil => intro m; rfl
  | cons t toks ih =>
    intro m
    rw [List.foldl_cons, ih]
    simp [MetaMap.set]

theorem lookup_pairs (key : List Char) (toks : List (List Char)) :
    List.lookup key (toks.map (fun pair => (keyOf pair, valueOf pair)))
      = (toks.find? (fun pair => keyOf pair == key)).map valueOf := by
  induction toks with
  | nil => rfl
  | cons t toks ih =>
    simp only [List.map_cons, List.lookup_cons, List.find?_cons]
    by_cases h : keyOf t = key
    · simp [h]
    · have h1 : (key == keyOf t) = false := by simpa using fun e => h e.symm
      have h2 : (keyOf t == key) = false := by simpa using h
      simp only [h1, h2, ih]

theorem agent_new_find (args key : List Char) :
    (agent.new args).find key
      = ((readTokens ("name=unknown role=unknown ".toList ++ args) []).reverse.find?
          (fun pair => keyOf pair == key)).map valueOf := by
  unfold agent.new MetaMap.find
  rw [foldl_set, List.append_nil, ← List.map_reverse, lookup_pairs]

theorem player_tokens (args : List Char) :
    readTokens ("name=unknown role=unknown ".toList
        ++ ("name=random role=unknown ".toList ++ args)) []
      = ["name=unknown".toList, "role=unknown".toList, "name=random".toList,
          "role=unknown".toList] ++ readTokens args [] := by
  have e : "name=unknown role=unknown ".toList ++ ("name=random role=unknown ".toList ++ args)
      = "name=unknown role=unknown name=random role=unknown".toList ++ ' ' :: args := by
    have e1 : "name=unknown role=unknown ".toList ++ "name=random role=unknown ".toList
        = "name=unknown role=unknown name=random role=unknown".toList ++ [' '] := by decide!
    rw [← List.append_assoc, e1, List.append_assoc]
    rfl
  have e2 : readTokens ("name=unknown role=unknown name=random role=unknown".toList ++ [' ']) []
      = ["name=unknown".toList, "role=unknown".toList, "name=random".toList,
          "role=unknown".toList] := by decide!
  rw [e, readTokens_append_space args ' ' (by decide!), e2]

theorem player_find (args key dflt : List Char)
    (h : (["role=unknown".toList, "name=random".toList, "role=unknown".toList,
        "name=unknown".toList].find? (fun pair => keyOf pair == key)).map valueOf = some dflt) :
    (agent.new ("name=random role=unknown ".toList ++ args)).find key
      = some (resolved key dflt args) := by
  rw [agent_new_find, player_tokens, List.reverse_append, List.find?_append]
  unfold resolved
  cases hf : (readTokens args []).reverse.find? (fun pair => keyOf pair == key) with
  | some pair => rfl
  | none =>
    simp only [Option.or, Option.none_or]
    exact h

theorem player_find_seed (args : List Char) :
    (agent.new ("name=random role=unknown ".toList ++ args)).find "seed".toList
      = ((readTokens args []).reverse.find?
          (fun pair => keyOf pair == "seed".toList)).map valueOf := by
  rw [agent_new_find, player_tokens, List.reverse_append, List.find?_append]
  cases hf : (readTokens args []).reverse.find? (fun pair => keyOf pair == "seed".toList) with
  | some pair => rfl
  | none =>
    simp only [Option.or, Option.none_or]
    decide!

theorem resolved_no_space (key dflt args : List Char) (hd : ∀ c ∈ dflt, isspace c = false) :
    ∀ c ∈ resolved key dflt args, isspace c = false := by
  intro c hc
  unfold resolved at hc
  cases hf : (readTokens args []).reverse.find? (fun pair => keyOf pair == key) with
  | none =>
    rw [hf] at hc
    exact hd c hc
  | some pair =>
    rw [hf] at hc
    have hm : pair ∈ readTokens args [] := List.mem_reverse.mp (List.mem_of_find?_eq_some hf)
    exact readTokens_no_space args [] (by simp) pair hm c (valueOf_subset pair c hc)

end NoGo

namespace NoGo

open Framework

theorem random_agent_new_meta (stod : List Char → StodResult) (args : List Char)
    (base : random_agent) (h : random_agent.new stod args = Except.ok base) :
    base.meta = agent.new args := by
  unfold random_agent.new at h
  split at h
  · cases h; rfl
  · split at h
    · cases h
    · cases h
    · split at h
      · cases h
      · cases h; rfl

theorem random_agent_new_ok (stod : List Char → StodResult) (args : List Char)
    (h : (agent.new args).find "seed".toList = none ∨
      ∃ (text : List Char) (x : ℚ) (s : Int), (agent.new args).find "seed".toList = some text ∧
        stod text = StodResult.value x ∧ toInt x = some s) :
    ∃ base, random_agent.new stod args = Except.ok base := by
  unfold random_agent.new
  rcases h with h | ⟨text, x, s, h1, h2, h3⟩
  · rw [h]; exact ⟨_, rfl⟩
  · rw [h1]
    simp only [h2, h3]
    exact ⟨_, rfl⟩

theorem player_new_of_base (stod : List Char → StodResult) (args : List Char)
    (base : random_agent)
    (h : random_agent.new stod ("name=random role=unknown ".toList ++ args) = Except.ok base) :
    player.new stod args =
      if reservedName (resolved "name".toList "random".toList args) = true then
        Except.error Failure.invalid_argument
      else if resolved "role".toList "unknown".toList args = "black".toList then
        Except.ok (player.ofRole piece_type.black)
      else if resolved "role".toList "unknown".toList args = "white".toList then
        Except.ok (player.ofRole piece_type.white)
      else Except.error Failure.invalid_argument := by
  have hm := random_agent_new_meta stod _ base h
  have hname := player_find args "name".toList "random".toList (by decide!)
  have hrole := player_find args "role".toList "unknown".toList (by decide!)
  unfold player.new
  rw [h]
  simp only [property, hm, hname, hrole, reservedName]
  split
  · rfl
  · by_cases hb : resolved "role".toList "unknown".toList args = "black".toList
    · have hw : ¬ resolved "role".toList "unknown".toList args = "white".toList := by
        rw [hb]; decide!
      simp only [if_pos hb, if_neg hw]
      rfl
    · by_cases hw : resolved "role".toList "unknown".toList args = "white".toList
      · simp only [if_neg hb, if_pos hw]
        rfl
      · simp only [if_neg hb, if_neg hw]
        rfl

/-- C18, counterexample: with the arguments `role=black seed=x` the resolved name `random`
holds no reserved character and the resolved role is `black`, but the constructor fails with
`invalid_argument`: `std::stod` rejects the seed `x` before the name and the role are
looked at. -/
theorem player_new_fails_on_seed :
    reservedName (resolved "name".toList "random".toList "role=black seed=x".toList) = false ∧
    resolved "role".toList "unknown".toList "role=black seed=x".toList = "black".toList ∧
    player.new stodDigits "role=black seed=x".toList
      = Except.error Failure.invalid_argument := by
  decide!

/-- C18: construction of the NoGo player. The name and the role that the constructor reads
are the values of the last pairs `name=...` and `role=...` of the arguments, with the defaults
`random` and `unknown`; the name never holds white space. A seed that `std::stod` rejects makes
the construction fail with the exception of `std::stod` (`invalid_argument` or
`out_of_range`), whatever the name and the role. When the arguments give no seed, or a seed
that converts to an `int`, the construction fails with `invalid_argument` if and only if the
name holds one of `[ ] ( ) : ;` or a space or the role is neither `black` nor `white`, and
otherwise it succeeds with `who` the colour named by the role and with the 81 placements of
that colour, one for each position 0..80 in order. -/
theorem player_new_spec (stod : List Char → StodResult) (args : List Char) :
    (agent.new ("name=random role=unknown ".toList ++ args)).find "name".toList
      = some (resolved "name".toList "random".toList args) ∧
    (agent.new ("name=random role=unknown ".toList ++ args)).find "role".toList
      = some (resolved "role".toList "unknown".toList args) ∧
    (∀ c ∈ resolved "name".toList "random".toList args, isspace c = false) ∧
    (∀ text : List Char,
      (agent.new ("name=random role=unknown ".toList ++ args)).find "seed".toList = some text →
      stod text = StodResult.invalid_argument →
      player.new stod args = Except.error Failure.invalid_argument) ∧
    (∀ text : List Char,
      (agent.new ("name=random role=unknown ".toList ++ args)).find "seed".toList = some text →
      stod text = StodResult.out_of_range →
      player.new stod args = Except.error Failure.out_of_range) ∧
    (((agent.new ("name=random role=unknown ".toList ++ args)).find "seed".toList = none ∨
      ∃ (text : List Char) (x : ℚ) (s : Int),
        (agent.new ("name=random role=unknown ".toList ++ args)).find "seed".toList
          = some text ∧ stod text = StodResult.value x ∧ toInt x = some s) →
      (player.new stod args = Except.error Failure.invalid_argument ↔
        (reservedName (resolved "name".toList "random".toList args) = true ∨
          (resolved "role".toList "unknown".toList args ≠ "black".toList ∧
            resolved "role".toList "unknown".toList args ≠ "white".toList))) ∧
      (reservedName (resolved "name".toList "random".toList args) = false →
        resolved "role".toList "unknown".toList args = "black".toList →
        player.new stod args = Except.ok (player.ofRole piece_type.black)) ∧
      (reservedName (resolved "name".toList "random".toList args) = false →
        resolved "role".toList "unknown".toList args = "white".toList →
        player.new stod args = Except.ok (player.ofRole piece_type.white))) ∧
    (∀ who : piece_type, (player.ofRole who).who = who ∧
      (player.ofRole who).space
        = (List.range 81).map (fun (i : Nat) => { position := (i : Int), color := who })) := by
  refine ⟨player_find args "name".toList "random".toList (by decide!),
    player_find args "role".toList "unknown".toList (by decide!),
    resolved_no_space _ _ args (by decide!), ?_, ?_, ?_, fun who => ⟨rfl, rfl⟩⟩
  · intro text h1 h2
    unfold player.new random_agent.new
    rw [h1]
    simp only [h2]
  · intro text h1 h2
    unfold player.new random_agent.new
    rw [h1]
    simp only [h2]
  · intro hseed
    obtain ⟨base, hbase⟩ := random_agent_new_ok stod _ hseed
    have hp := player_new_of_base stod args base hbase
    have hne : "white".toList ≠ "black".toList := by decide!
    rw [hp]
    generalize resolved "role".toList "unknown".toList args = role
    generalize reservedName (resolved "name".toList "random".toList args) = reserved
    generalize "black".toList = black at hne ⊢
    generalize "white".toList = white at hne ⊢
    refine ⟨?_, ?_, ?_⟩
    · by_cases hn : reserved = true
      · simp [hn]
      · by_cases hb : role = black
        · simp [hn, hb]
        · by_cases hw : role = white
          · subst hw
            simp [hn, hb]
          · simp [hn, hb, hw]
    · intro hn hb
      simp [hn, hb]
    · intro hn hw
      subst hw
      simp [hn, hne]

theorem player_new_spec_witness :
    player.new stodDigits "name=bob role=white seed=7".toList
      = Except.ok (player.ofRole piece_type.white) :=
  ((player_new_spec stodDigits "name=bob role=white seed=7".toList).2.2.2.2.2.1
    (Or.inr ⟨"7".toList, ((7 : Nat) : ℚ), 7, by decide!, by decide!, by decide!⟩)).2.2 (by decide!) (by decide!)

end NoGo

namespace NoGo

/-! ## The node invariant -/

theorem findMove_sound {β : Type} (ops : BoardOps β) (state : β) (cp : Finset Int) :
    ∀ (vec : List Int) (p : Int) (b : β), findMove ops state cp vec = some (p, b) →
      (ops.place state p).1 = true ∧ p ∉ cp ∧ b = (ops.place state p).2 := by
  intro vec
  induction vec with
  | nil => intro p b h; simp [findMove] at h
  | cons v rest ih =>
    intro p b h
    simp only [findMove] at h
    by_cases hv : ((ops.place state v).1 && decide (v ∉ cp)) = true
    · rw [if_pos hv] at h
      simp only [Option.some.injEq, Prod.mk.injEq] at h
      obtain ⟨rfl, rfl⟩ := h
      simp only [Bool.and_eq_true, decide_eq_true_eq] at hv
      exact ⟨hv.1, hv.2, rfl⟩
    · rw [if_neg hv] at h
      exact ih p b h

theorem takeExpansion_shape {β : Type} (ops : BoardOps β) (tree tree1 : Tree β)
    (Node res : Nat) (vec : List Int) (h : takeExpansion ops tree Node vec = some (tree1, res)) :
    (tree1 = tree ∧ res = Node) ∨
    ∃ (nd : node β) (p : Int), tree[Node]? = some nd ∧ (ops.place nd.state p).1 = true ∧
      p ∉ nd.children_pos ∧ tree1 = attachChild tree Node p (ops.place nd.state p).2 ∧
      res = tree.length := by
  unfold takeExpansion at h
  cases hnd : tree[Node]? with
  | none => simp [hnd] at h
  | some nd =>
    simp only [hnd] at h
    cases hf : findMove ops nd.state nd.children_pos vec with
    | none =>
      simp only [hf, Option.some.injEq, Prod.mk.injEq] at h
      exact Or.inl ⟨h.1.symm, h.2.symm⟩
    | some pb =>
      obtain ⟨p, b⟩ := pb
      simp only [hf, Option.some.injEq, Prod.mk.injEq] at h
      obtain ⟨hl, hc, hb⟩ := findMove_sound ops nd.state nd.children_pos vec p b hf
      exact Or.inr ⟨nd, p, rfl, hl, hc, by rw [← h.1, hb], h.2.symm⟩

theorem attachChild_pos {β : Type} (tree : Tree β) (Node : Nat) (pos : Int) (b : β) (c : Nat)
    (hc : c < tree.length) :
    ((attachChild tree Node pos b)[c]?).map node.pos = (tree[c]?).map node.pos := by
  have hcn : tree[c]? = some tree[c] := List.getElem?_eq_getElem hc
  by_cases hcl : c = Node
  · subst hcl
    rw [attachChild_self tree c pos b _ hcn, hcn]
    rfl
  · rw [attachChild_other tree Node pos b c _ hcn hcl, hcn]

theorem backprop_pos {β : Type} (ops : BoardOps β) (tree : Tree β) (path : List Nat)
    (winner : piece_type) (games win_count : Int) (c : Nat) :
    ((takeBackpropagation ops tree path winner games win_count)[c]?).map node.pos
      = (tree[c]?).map node.pos := by
  rw [takeBackpropagation_getElem?]
  cases tree[c]? with
  | none => rfl
  | some n => simp [backpropNode_iterate]

theorem childPos_congr {β : Type} (tree tree1 : Tree β) (n n1 : node β)
    (hch : n1.children = n.children)
    (h : ∀ c ∈ n.children, (tree1[c]?).map node.pos = (tree[c]?).map node.pos) :
    childPos tree1 n1 = childPos tree n := by
  unfold childPos
  rw [hch]
  apply List.map_congr_left
  intro c hc
  rw [h c hc]

theorem nodeInv_attach {β : Type} (ops : BoardOps β) (tree : Tree β)
    (hinv : ∀ (i : Nat) (n : node β), tree[i]? = some n → NodeInv ops tree n)
    (Node : Nat) (nd : node β) (hnd : tree[Node]? = some nd) (p : Int)
    (hl : (ops.place nd.state p).1 = true) (hp : p ∉ nd.children_pos) (b : β) :
    ∀ (i : Nat) (n : node β), (attachChild tree Node p b)[i]? = some n →
      NodeInv ops (attachChild tree Node p b) n := by
  intro i n hn
  have hlen := length_attachChild tree Node p b
  rcases attachChild_cases tree Node p b i n hn with ⟨_, rfl⟩ | ⟨_, nd1, hnd1, rfl⟩ | ⟨_, hold⟩
  · exact ⟨by simp, by simp [childPos], by simp [childPos], by simp⟩
  · rw [hnd] at hnd1
    obtain rfl : nd = nd1 := Option.some.inj hnd1
    obtain ⟨h1, h2, h3, h4⟩ := hinv Node nd hnd
    have hcp : childPos (attachChild tree Node p b)
        { nd with children := nd.children ++ [tree.length]
                  children_pos := insert p nd.children_pos }
        = childPos tree nd ++ [p] := by
      unfold childPos
      simp only [List.map_append, List.map_cons, List.map_nil, attachChild_new,
        Option.map_some', Option.getD_some]
      congr 1
      apply List.map_congr_left
      intro c hc
      rw [attachChild_pos tree Node p b c (h1 c hc)]
    refine ⟨?_, ?_, ?_, ?_⟩
    · intro c hc
      rw [hlen]
      rcases List.mem_append.mp hc with hc | hc
      · exact Nat.lt_succ_of_lt (h1 c hc)
      · simp only [List.mem_singleton] at hc
        omega
    · rw [hcp]
      refine List.Nodup.append h2 (List.nodup_singleton p) ?_
      intro x hx hx1
      simp only [List.mem_singleton] at hx1
      subst hx1
      exact hp ((h3 x).mpr hx)
    · intro q
      rw [hcp]
      simp only [Finset.mem_insert, List.mem_append, List.mem_singleton, h3 q]
      exact or_comm
    · intro c hc
      rcases List.mem_append.mp hc with hc | hc
      · obtain ⟨cn, hcn, hleg⟩ := h4 c hc
        have hpos := attachChild_pos tree Node p b c (h1 c hc)
        rw [hcn] at hpos
        cases hc1 : (attachChild tree Node p b)[c]? with
        | none => simp [hc1] at hpos
        | some cn1 =>
          rw [hc1] at hpos
          simp only [Option.map_some', Option.some.injEq] at hpos
          exact ⟨cn1, rfl, by rw [hpos]; exact hleg⟩
      · simp only [List.mem_singleton] at hc
        subst hc
        exact ⟨_, attachChild_new tree Node p b, hl⟩
  · obtain ⟨h1, h2, h3, h4⟩ := hinv i n hold
    have hcp : childPos (attachChild tree Node p b) n = childPos tree n :=
      childPos_congr tree _ n n rfl (fun c hc => attachChild_pos tree Node p b c (h1 c hc))
    refine ⟨fun c hc => by rw [hlen]; exact Nat.lt_succ_of_lt (h1 c hc), by rw [hcp]; exact h2,
      fun q => by rw [hcp]; exact h3 q, ?_⟩
    intro c hc
    obtain ⟨cn, hcn, hleg⟩ := h4 c hc
    have hpos := attachChild_pos tree Node p b c (h1 c hc)
    rw [hcn] at hpos
    cases hc1 : (attachChild tree Node p b)[c]? with
    | none => simp [hc1] at hpos
    | some cn1 =>
      rw [hc1] at hpos
      simp only [Option.map_some', Option.some.injEq] at hpos
      exact ⟨cn1, rfl, by rw [hpos]; exact hleg⟩

theorem nodeInv_backprop {β : Type} (ops : BoardOps β) (tree : Tree β)
    (hinv : ∀ (i : Nat) (n : node β), tree[i]? = some n → NodeInv ops tree n)
    (path : List Nat) (winner : piece_type) (games win_count : Int) :
    ∀ (i : Nat) (n : node β),
      (takeBackpropagation ops tree path winner games win_count)[i]? = some n →
      NodeInv ops (takeBackpropagation ops tree path winner games win_count) n := by
  intro i n1 hn1
  obtain ⟨n, hn, rfl⟩ := backprop_lookup_inv ops tree path winner games win_count i n1 hn1
  obtain ⟨h1, h2, h3, h4⟩ := hinv i n hn
  have hcp : childPos (takeBackpropagation ops tree path winner games win_count)
      { n with
        total := n.total + games * (path.count i : Nat)
        wins := if winner ≠ ops.who_take_turns n.state then
                  n.wins + win_count * (path.count i : Nat)
                else n.wins - win_count * (path.count i : Nat) }
      = childPos tree n :=
    childPos_congr tree _ n _ rfl (fun c _ => backprop_pos ops tree path winner games win_count c)
  refine ⟨fun c hc => by rw [takeBackpropagation_length]; exact h1 c hc,
    by rw [hcp]; exact h2, fun q => by rw [hcp]; exact h3 q, ?_⟩
  intro c hc
  obtain ⟨cn, hcn, hleg⟩ := h4 c hc
  have hpos := backprop_pos ops tree path winner games win_count c
  rw [hcn] at hpos
  cases hc1 : (takeBackpropagation ops tree path winner games win_count)[c]? with
  | none => simp [hc1] at hpos
  | some cn1 =>
    rw [hc1] at hpos
    simp only [Option.map_some', Option.some.injEq] at hpos
    exact ⟨cn1, rfl, by rw [hpos]; exact hleg⟩

theorem grown_nodeInv {β : Type} (ops : BoardOps β) (board : β) (tree : Tree β)
    (h : Grown ops board tree) :
    ∀ (i : Nat) (n : node β), tree[i]? = some n → NodeInv ops tree n := by
  induction h with
  | fresh =>
    intro i n hn
    have hi : i = 0 := by
      have := (List.getElem?_eq_some.mp hn).1
      simpa using this
    subst hi
    simp only [List.getElem?_cons_zero, Option.some.injEq] at hn
    subst hn
    exact ⟨by simp [node.new], by simp [childPos, node.new], by simp [childPos, node.new],
      by simp [node.new]⟩
  | expand hg hexp ih =>
    rcases takeExpansion_shape ops _ _ _ _ _ hexp with ⟨rfl, _⟩ | ⟨nd, p, hnd, hl, hp, rfl, _⟩
    · exact ih
    · exact nodeInv_attach ops _ ih _ nd hnd p hl hp _
  | backprop path winner games win_count hg ih =>
    exact nodeInv_backprop ops _ ih path winner games win_count

theorem mctsRound_grown {β : Type} (M : Libm) (ops : BoardOps β) (self : player) (board : β)
    (root : Nat) (tree tree2 : Tree β) (vecE vecS : List Int) (hg : Grown ops board tree)
    (h : mctsRound M ops self root tree vecE vecS = some tree2) : Grown ops board tree2 := by
  unfold mctsRound at h
  cases hsel : takeSelection M ops self tree tree.length root with
  | none => simp [hsel] at h
  | some path =>
    simp only [hsel] at h
    cases hback : path.getLast? with
    | none => simp [hback] at h
    | some back =>
      simp only [hback] at h
      cases hexp : takeExpansion ops tree back vecE with
      | none => simp [hexp] at h
      | some te =>
        obtain ⟨tree1, expandNode⟩ := te
        simp only [hexp] at h
        split at h
        · cases h
        · split at h
          · cases h
          · split at h
            · cases h
            · simp only [Option.some.injEq] at h
              rw [← h]
              exact Grown.backprop _ _ _ _ (Grown.expand hg hexp)

theorem mctsLoop_grown {β : Type} (M : Libm) (ops : BoardOps β) (self : player) (board : β)
    (root : Nat) (shuffles : Nat → List Int) :
    ∀ (count k : Nat) (tree t : Tree β), Grown ops board tree →
      mctsLoop M ops self root shuffles count k tree = some t → Grown ops board t := by
  intro count
  induction count with
  | zero =>
    intro k tree t hg h
    simp only [mctsLoop, Option.some.injEq] at h
    rw [← h]; exact hg
  | succ count ih =>
    intro k tree t hg h
    simp only [mctsLoop] at h
    cases hr : mctsRound M ops self root tree (shuffles (2 * k)) (shuffles (2 * k + 1)) with
    | none => simp [hr] at h
    | some tree1 =>
      simp only [hr] at h
      exact ih (k + 1) tree1 t (mctsRound_grown M ops self board root tree tree1 _ _ hg hr) h

/-- C19: the node invariant. In every arena grown from a fresh root by calls of
`takeExpansion` on its nodes (and the calls of `takeBackpropagation` that `MCTS` makes
between them), every node has as many children as `children_pos` has elements, the `pos`
fields of its children are pairwise distinct, `children_pos` is exactly the set of these
fields, and the `pos` of each child is a legal placement on the board of the node. -/
theorem grown_node_invariant {β : Type} (ops : BoardOps β) (board : β) (tree : Tree β)
    (h : Grown ops board tree) (i : Nat) (n : node β) (hn : tree[i]? = some n) :
    n.children.length = n.children_pos.card ∧
    (childPos tree n).length = n.children.length ∧
    (childPos tree n).Nodup ∧
    n.children_pos = (childPos tree n).toFinset ∧
    ∀ c ∈ n.children, ∃ cn, tree[c]? = some cn ∧ (ops.place n.state cn.pos).1 = true := by
  obtain ⟨_, h2, h3, h4⟩ := grown_nodeInv ops board tree h i n hn
  have hset : n.children_pos = (childPos tree n).toFinset := by
    ext q
    rw [List.mem_toFinset]
    exact h3 q
  have hlen : (childPos tree n).length = n.children.length := by simp [childPos]
  refine ⟨?_, hlen, h2, hset, h4⟩
  rw [hset, List.toFinset_card_of_nodup h2, hlen]

end NoGo

namespace NoGo

theorem grown_node_invariant_witness :
    ∃ t r, takeExpansion gridOps [node.new twoHoles] 0 positions = some (t, r) ∧
      ∀ (i : Nat) (n : node Grid), t[i]? = some n →
        n.children.length = n.children_pos.card ∧
        (childPos t n).length = n.children.length ∧
        (childPos t n).Nodup ∧
        n.children_pos = (childPos t n).toFinset ∧
        ∀ c ∈ n.children, ∃ cn, t[c]? = some cn ∧ (gridOps.place n.state cn.pos).1 = true := by
  have hs : (takeExpansion gridOps [node.new twoHoles] 0 positions).isSome = true := by
    decide!
  obtain ⟨⟨t, r⟩, h⟩ := Option.isSome_iff_exists.mp hs
  exact ⟨t, r, h, fun i n hn =>
    grown_node_invariant gridOps twoHoles t (Grown.expand Grown.fresh h) i n hn⟩

/-- The arena that `MCTS` leaves after any number of rounds on a fresh root is grown from
that root. -/
theorem MCTS_grown {β : Type} (M : Libm) (ops : BoardOps β) (self : player) (board : β)
    (count : Nat) (shuffles : Nat → List Int) (res : Int) (t : Tree β)
    (h : MCTS M ops self [node.new board] 0 count shuffles = some (res, t)) :
    Grown ops board t := by
  unfold MCTS at h
  cases hl : mctsLoop M ops self 0 shuffles count 0 [node.new board] with
  | none => simp [hl] at h
  | some t1 =>
    have hg := mctsLoop_grown M ops self board 0 shuffles count 0 _ t1 Grown.fresh hl
    simp only [hl] at h
    cases hr : t1[0]? with
    | none => simp [hr] at h
    | some r =>
      simp only [hr] at h
      split at h
      · simp only [Option.some.injEq, Prod.mk.injEq] at h
        rw [← h.2]; exact hg
      · cases hb : bestChild t1 r.children (-1000000) (-1) with
        | none => simp [hb] at h
        | some x =>
          simp only [hb, Option.map_some', Option.some.injEq, Prod.mk.injEq] at h
          rw [← h.2]; exact hg

end NoGo

namespace NoGo

/-! ## Visit counts -/

end NoGo

namespace NoGo

end NoGo

namespace NoGo

/-- The four rounds of the demonstration search each end at the node they create. -/
theorem mctsEnds_demo :
    mctsEnds demoLibm gridOps (player.ofRole piece_type.black) 0 (fun _ => positions) 4 0
      [node.new twoHoles] = some [1, 2, 3, 4] := by
  decide!

end NoGo

namespace NoGo

/-! ## Termination of the rollout -/

theorem simLoop_succ {β : Type} (ops : BoardOps β) (fuel : Nat) (b : β) (dq : List Int)
    (remaining : Nat) (placed : List Int) :
    simLoop ops (fuel + 1) b dq remaining placed =
      if remaining = 0 then some (b, placed)
      else (simStep ops b dq remaining placed).bind
        (fun s => simLoop ops fuel s.1 s.2.1 s.2.2.1 s.2.2.2) := by
  by_cases hrem : remaining = 0
  · simp [simLoop, hrem]
  · cases dq with
    | nil => simp [simLoop, simStep, hrem]
    | cons i rest =>
      by_cases hl : (ops.place b i).1 = true
      · simp [simLoop, simStep, hrem, hl]
      · have hl2 : (ops.place b i).1 = false := by simpa using hl
        simp [simLoop, simStep, hrem, hl2]

theorem simStep_decreases {β : Type} (ops : BoardOps β) (b : β) (dq : List Int)
    (remaining : Nat) (placed : List Int) (hrem : remaining ≠ 0)
    (hle : remaining ≤ dq.length) :
    ∃ b1 dq1 remaining1 placed1,
      simStep ops b dq remaining placed = some (b1, dq1, remaining1, placed1) ∧
      remaining1 ≤ dq1.length ∧
      ((dq1.length + 1 = dq.length ∧ placed1.length = placed.length + 1) ∨
        (dq1.length = dq.length ∧ remaining1 + 1 = remaining ∧ placed1 = placed)) := by
  cases dq with
  | nil => simp at hle; exact absurd hle hrem
  | cons i rest =>
    simp only [List.length_cons] at hle
    by_cases hl : (ops.place b i).1 = true
    · refine ⟨(ops.place b i).2, rest, rest.length, placed ++ [i], ?_, le_rfl,
        Or.inl ⟨by simp, by simp⟩⟩
      simp only [simStep, hl, if_true]
    · have hl2 : (ops.place b i).1 = false := by simpa using hl
      refine ⟨(ops.place b i).2, rest ++ [i], remaining - 1, placed, ?_, ?_,
        Or.inr ⟨by simp, by omega, rfl⟩⟩
      · simp only [simStep, hl2, Bool.false_eq_true, if_false]
      · simp only [List.length_append, List.length_cons, List.length_nil]
        omega

theorem simLoop_placed {β : Type} (ops : BoardOps β) :
    ∀ (fuel : Nat) (b : β) (dq : List Int) (remaining : Nat) (placed : List Int),
      remaining ≤ dq.length → dq.length * (dq.length + 1) + remaining + 1 ≤ fuel →
      ∃ final placed1 left, simLoop ops fuel b dq remaining placed
          = some (final, placed ++ placed1) ∧ (placed1 ++ left).Perm dq := by
  intro fuel
  induction fuel with
  | zero => intro b dq remaining placed _ h; omega
  | succ fuel ih =>
    intro b dq remaining placed hle hfuel
    by_cases hrem : remaining = 0
    · exact ⟨b, [], dq, by simp [simLoop, hrem], by simp⟩
    · cases dq with
      | nil => simp at hle; exact absurd hle hrem
      | cons i rest =>
        simp only [List.length_cons] at hle hfuel
        by_cases hl : (ops.place b i).1 = true
        · obtain ⟨final, placed1, left, hr, hperm⟩ :=
            ih (ops.place b i).2 rest rest.length (placed ++ [i]) le_rfl (by nlinarith)
          refine ⟨final, i :: placed1, left, ?_, ?_⟩
          · simp only [simLoop, if_neg hrem, hl, if_true]
            rw [hr]
            simp
          · simpa using hperm
        · have hl2 : (ops.place b i).1 = false := by simpa using hl
          obtain ⟨final, placed1, left, hr, hperm⟩ :=
            ih (ops.place b i).2 (rest ++ [i]) (remaining - 1) placed
              (by simp; omega)
              (by
                have e : (rest ++ [i]).length = rest.length + 1 := by simp
                rw [e]; omega)
          refine ⟨final, placed1, left, ?_, ?_⟩
          · simp only [simLoop, if_neg hrem, hl2]
            exact hr
          · exact hperm.trans (List.perm_append_singleton i rest)

theorem positions_nodup : positions.Nodup := by
  unfold positions
  exact List.Nodup.map (fun a b h => by exact_mod_cast h) (List.nodup_range 81)

theorem positions_length : positions.length = 81 := by
  simp [positions]

/-- C21: termination of the rollout. For every board, whatever its placements do, and every
shuffle order of the 81 positions, the loop of `takeSimulation` ends (within the
`81 * 82 + 82` iterations that the model allows) and the method returns; the legal placements
it made are pairwise distinct positions of the board, so there are at most 81 of them. Each
iteration that starts with `remaining != 0` and `remaining` at most the size of the deque
either makes a legal placement and shortens the deque by one, or keeps the size of the deque
and lowers `remaining` by one, and keeps `remaining` at most the size of the deque: the pair
(size of the deque, `remaining`) decreases lexicographically. -/
theorem takeSimulation_terminates {β : Type} (ops : BoardOps β) (state : β) (dq : List Int)
    (hshuffle : dq.Perm positions) :
    (∃ r, takeSimulation ops state dq = some r ∧ r.placed.length ≤ 81 ∧ r.placed.Nodup ∧
      ∀ p ∈ r.placed, p ∈ positions) ∧
    simFuel dq.length = 81 * 82 + 82 ∧
    (∀ (fuel : Nat) (b : β) (q : List Int) (remaining : Nat) (placed : List Int),
      simLoop ops (fuel + 1) b q remaining placed =
        if remaining = 0 then some (b, placed)
        else (simStep ops b q remaining placed).bind
          (fun s => simLoop ops fuel s.1 s.2.1 s.2.2.1 s.2.2.2)) ∧
    (∀ (b : β) (q : List Int) (remaining : Nat) (placed : List Int), remaining ≠ 0 →
      remaining ≤ q.length →
      ∃ b1 q1 remaining1 placed1,
        simStep ops b q remaining placed = some (b1, q1, remaining1, placed1) ∧
        remaining1 ≤ q1.length ∧
        ((q1.length + 1 = q.length ∧ placed1.length = placed.length + 1) ∨
          (q1.length = q.length ∧ remaining1 + 1 = remaining ∧ placed1 = placed))) := by
  have hlen : dq.length = 81 := by rw [hshuffle.length_eq, positions_length]
  refine ⟨?_, by rw [hlen]; rfl, simLoop_succ ops, simStep_decreases ops⟩
  obtain ⟨final, placed1, left, hr, hperm⟩ :=
    simLoop_placed ops (simFuel dq.length) state dq dq.length [] le_rfl (by simp [simFuel])
  have hp : (placed1 ++ left).Perm positions := hperm.trans hshuffle
  have hnd : (placed1 ++ left).Nodup := hp.nodup_iff.mpr positions_nodup
  refine ⟨{ value := if ops.who_take_turns final = piece_type.black then 1 else -1
            final := final, placed := placed1, caller := state }, ?_, ?_,
    (List.nodup_append.mp hnd).1, fun p hpm => hp.subset (List.mem_append_left _ hpm)⟩
  · simp only [takeSimulation, hr, List.nil_append]
  · have h1 : (placed1 ++ left).length = 81 := by rw [hp.length_eq, positions_length]
    simp only [List.length_append] at h1
    show placed1.length ≤ 81
    omega

theorem takeSimulation_terminates_witness :
    ∃ r, takeSimulation gridOps twoHoles positions = some r ∧ r.placed.length ≤ 81 ∧
      r.placed.Nodup ∧ ∀ p ∈ r.placed, p ∈ positions :=
  (takeSimulation_terminates gridOps twoHoles positions (List.Perm.refl _)).1

end NoGo

namespace Threes

/-! ## Effect of one adjustment on the estimate -/

theorem toFinset_dedup_list {α : Type} [DecidableEq α] (l : List α) :
    l.dedup.toFinset = l.toFinset := by
  ext x
  simp

theorem sum_count_eq_squares {α : Type} [DecidableEq α] (l : List α) :
    (l.map (fun e => l.count e)).sum = (l.dedup.map (fun e => l.count e ^ 2)).sum := by
  rw [Finset.sum_list_map_count, ← toFinset_dedup_list, List.sum_toFinset _ (List.nodup_dedup l)]
  congr 1
  apply List.map_congr_left
  intro e _
  simp [sq]

theorem beq_key_eq : (instBEqProd : BEq (Nat × Int)) = instBEqOfDecidableEq := by
  have h : ∀ a b : Nat × Int, (instBEqProd : BEq (Nat × Int)).beq a b
      = (instBEqOfDecidableEq : BEq (Nat × Int)).beq a b := by
    intro a b
    obtain ⟨a1, a2⟩ := a
    obtain ⟨b1, b2⟩ := b
    by_cases e1 : a1 = b1 <;> by_cases e2 : a2 = b2 <;>
      simp [instBEqProd, instBEqOfDecidableEq, e1, e2]
  cases hp : (instBEqProd : BEq (Nat × Int)) with
  | mk f =>
    cases hd : (instBEqOfDecidableEq : BEq (Nat × Int)) with
    | mk g =>
      congr
      funext a b
      have := h a b
      rw [hp, hd] at this
      exact this

theorem touchedSquares_eq (keys : List (Nat × Int)) :
    touchedSquares keys = (keys.map (fun e => keys.count e)).sum := by
  unfold touchedSquares
  rw [beq_key_eq]
  exact (sum_count_eq_squares keys).symm

theorem squares_of_nodup {α : Type} [DecidableEq α] (l : List α) (h : l.Nodup) :
    (l.dedup.map (fun e => l.count e ^ 2)).sum = l.length := by
  rw [← sum_count_eq_squares]
  have e : l.map (fun e => l.count e) = l.map (fun _ => 1) :=
    List.map_congr_left (fun e he => List.count_eq_one_of_mem h he)
  rw [e]
  simp

theorem squares_of_duplicate {α : Type} [DecidableEq α] (l : List α) (h : ¬ l.Nodup) :
    l.length < (l.dedup.map (fun e => l.count e ^ 2)).sum := by
  rw [← sum_count_eq_squares]
  obtain ⟨x, hx⟩ := List.exists_duplicate_iff_not_nodup.mpr h
  have h2 := List.duplicate_iff_two_le_count.mp hx
  have hlt := List.sum_lt_sum (fun _ => 1) (fun e => l.count e)
    (fun e he => List.count_pos_iff.mpr he) ⟨x, hx.mem, h2⟩
  simpa using hlt

theorem touchedSquares_of_nodup (keys : List (Nat × Int)) (h : keys.Nodup) :
    touchedSquares keys = keys.length := by
  unfold touchedSquares
  rw [beq_key_eq]
  exact squares_of_nodup keys h

theorem touchedSquares_of_duplicate (keys : List (Nat × Int)) (h : ¬ keys.Nodup) :
    keys.length < touchedSquares keys := by
  unfold touchedSquares
  rw [beq_key_eq]
  exact squares_of_duplicate keys h

theorem sumKeys_after_bump (net net1 : List weight) (keys : List (Nat × Int)) (delta : ℚ)
    (hvalid : ∀ key ∈ keys, ValidKey net key)
    (hsz : ∀ k : Nat, (net1[k]?).map weight.size = (net[k]?).map weight.size)
    (hent : ∀ k j : Nat, entry net1 k j
      = entry net k j + (keys.count (k, (j : Int)) : ℚ) * delta) :
    sumKeys net1 keys 0
      = some ((keys.map (fun key => entry net key.1 key.2.toNat)).sum
          + (touchedSquares keys : ℚ) * delta) := by
  have hvalid1 : ∀ key ∈ keys, ValidKey net1 key :=
    fun key hk => validKey_congr net net1 hsz key (hvalid key hk)
  rw [sumKeys_of_valid net1 keys 0 hvalid1]
  have hmap : keys.map (fun key => entry net1 key.1 key.2.toNat)
      = keys.map (fun key => entry net key.1 key.2.toNat + (keys.count key : ℚ) * delta) := by
    apply List.map_congr_left
    intro key hk
    obtain ⟨w, _, h0, _⟩ := hvalid key hk
    have e : (key.1, ((key.2.toNat : Nat) : Int)) = key := by
      rw [Int.toNat_of_nonneg h0]
    rw [hent key.1 key.2.toNat, e]
  have hcast : (keys.map (fun key => (keys.count key : ℚ) * delta)).sum
      = (touchedSquares keys : ℚ) * delta := by
    rw [touchedSquares_eq, List.sum_map_mul_right, Nat.cast_list_sum, List.map_map]
    rfl
  rw [hmap, List.sum_map_add, hcast, zero_add]

/-- C22: the effect of one adjustment on the estimate, in exact arithmetic. When
`valueEstimate(after)` is defined with value `V` before the call, `valueAdjust(after, target)`
returns tables on which `valueEstimate(after)` is
`V + alpha * (target - V) * S / 8`, where `S` is the sum, over the entries that the 32 lookups
of `after` address, of the square of the number of lookups that address the entry. When the
32 lookups address 32 distinct entries, `S = 32` and the new estimate is
`V + 4 * alpha * (target - V)`, which is `target` for `alpha = 1/4`. When two lookups
coincide, `S > 32`: the factor `S / 8` is strictly larger than 4. -/
theorem valueAdjust_effect {β : Type} (ops : BoardOps β) (net : List weight) (alpha : ℚ)
    (after : β) (target V : ℚ) (hV : valueEstimate ops net after = some V) :
    ∃ net1, valueAdjust ops net alpha after target = some net1 ∧
      valueEstimate ops net1 after = some
        (V + alpha * (target - V) * (touchedSquares (featureKeys ops after) : ℚ) / 8) ∧
      ((featureKeys ops after).Nodup →
        touchedSquares (featureKeys ops after) = 32 ∧
        valueEstimate ops net1 after = some (V + 4 * alpha * (target - V)) ∧
        (alpha = 1 / 4 → valueEstimate ops net1 after = some target)) ∧
      (¬ (featureKeys ops after).Nodup →
        32 < touchedSquares (featureKeys ops after) ∧
        (4 : ℚ) < (touchedSquares (featureKeys ops after) : ℚ) / 8) := by
  have hsum := hV
  rw [valueEstimate_eq_sumKeys] at hsum
  have hvalid := sumKeys_valid net (featureKeys ops after) 0 V hsum
  have hV2 := sumKeys_of_valid net (featureKeys ops after) 0 hvalid
  rw [hsum, zero_add] at hV2
  have hVsum : ((featureKeys ops after).map (fun key => entry net key.1 key.2.toNat)).sum = V :=
    (Option.some.inj hV2).symm
  obtain ⟨net1, hb, _, hsz, hent⟩ :=
    bumpKeys_spec (alpha * (target - V) / 8) (featureKeys ops after) net hvalid
  have hnew : valueEstimate ops net1 after = some
      (V + alpha * (target - V) * (touchedSquares (featureKeys ops after) : ℚ) / 8) := by
    have ed : V + (touchedSquares (featureKeys ops after) : ℚ) * (alpha * (target - V) / 8)
        = V + alpha * (target - V) * (touchedSquares (featureKeys ops after) : ℚ) / 8 := by
      ring
    rw [valueEstimate_eq_sumKeys,
      sumKeys_after_bump net net1 (featureKeys ops after) _ hvalid hsz hent, hVsum, ed]
  refine ⟨net1, ?_, hnew, ?_, ?_⟩
  · rw [valueAdjust_eq_bumpKeys, hV]
    exact hb
  · intro hnd
    have h32 : touchedSquares (featureKeys ops after) = 32 := by
      rw [touchedSquares_of_nodup _ hnd, featureKeys_length]
    have e4 : V + alpha * (target - V) * ((32 : Nat) : ℚ) / 8
        = V + 4 * alpha * (target - V) := by
      push_cast
      ring
    have h4 : valueEstimate ops net1 after = some (V + 4 * alpha * (target - V)) := by
      rw [hnew, h32, e4]
    refine ⟨h32, h4, ?_⟩
    intro ha
    have et : V + 4 * (1 / 4) * (target - V) = target := by ring
    rw [h4, ha, et]
  · intro hnd
    have hlt := touchedSquares_of_duplicate _ hnd
    rw [featureKeys_length] at hlt
    refine ⟨hlt, ?_⟩
    have hq : ((32 : Nat) : ℚ) < (touchedSquares (featureKeys ops after) : ℚ) := by
      exact_mod_cast hlt
    have h8 : (4 : ℚ) = ((32 : Nat) : ℚ) / 8 := by norm_num
    rw [h8]
    exact div_lt_div_of_pos_right hq (by norm_num)

theorem valueAdjust_effect_witness :
    ∃ net1, valueAdjust tilesOps zeroNet (1 / 4) lastMove 8 = some net1 ∧
      valueEstimate tilesOps net1 lastMove = some
        (0 + (1 / 4) * (8 - 0) * (touchedSquares (featureKeys tilesOps lastMove) : ℚ) / 8) ∧
      ((featureKeys tilesOps lastMove).Nodup →
        touchedSquares (featureKeys tilesOps lastMove) = 32 ∧
        valueEstimate tilesOps net1 lastMove = some (0 + 4 * (1 / 4) * (8 - 0)) ∧
        ((1 / 4 : ℚ) = 1 / 4 → valueEstimate tilesOps net1 lastMove = some 8)) ∧
      (¬ (featureKeys tilesOps lastMove).Nodup →
        32 < touchedSquares (featureKeys tilesOps lastMove) ∧
        (4 : ℚ) < (touchedSquares (featureKeys tilesOps lastMove) : ℚ) / 8) :=
  valueAdjust_effect tilesOps zeroNet (1 / 4) lastMove 8 0 (by decide!)

/-- The 32 lookups of the board `lastMove` address 32 distinct entries; those of the empty
board address four entries, eight times each. -/
theorem touchedSquares_examples :
    (featureKeys tilesOps lastMove).Nodup ∧
    touchedSquares (featureKeys tilesOps lastMove) = 32 ∧
    touchedSquares (featureKeys tilesOps tilesOps.fresh) = 256 := by
  decide!

end Threes

namespace NoGo

open Framework

/-! ## Selection in floating-point arithmetic -/

theorem rounded_calculateUCB_exact {β : Type} (M : Libm) (tree : Tree β) (n : node β) :
    Rounded.calculateUCB Rounding.exact M tree n = n.calculateUCB M tree := rfl

theorem rounded_pickChild_exact {β : Type} (M : Libm) (tree : Tree β) :
    ∀ (cs : List Nat) (value : ℚ) (next : Option Nat),
      Rounded.pickChild Rounding.exact M tree cs value next = pickChild M tree cs value next := by
  intro cs
  induction cs with
  | nil => intro value next; rfl
  | cons c rest ih =>
    intro value next
    simp only [Rounded.pickChild, pickChild, rounded_calculateUCB_exact, ih]

theorem rounded_selectLoop_exact {β : Type} (M : Libm) (ops : BoardOps β) (self : player)
    (tree : Tree β) :
    ∀ (fuel current : Nat) (vec : List Nat),
      Rounded.selectLoop Rounding.exact M ops self tree fuel current vec
        = selectLoop M ops self tree fuel current vec := by
  intro fuel
  induction fuel with
  | zero => intro current vec; rfl
  | succ fuel ih =>
    intro current vec
    simp only [Rounded.selectLoop, selectLoop, rounded_pickChild_exact, ih]

/-- Without rounding, the selection with `float` scores is the selection in exact
arithmetic. -/
theorem rounded_takeSelection_exact {β : Type} (M : Libm) (ops : BoardOps β) (self : player)
    (tree : Tree β) (fuel root : Nat) :
    Rounded.takeSelection Rounding.exact M ops self tree fuel root
      = takeSelection M ops self tree fuel root :=
  rounded_selectLoop_exact M ops self tree fuel root [root]

theorem roundedScore_exact (M : Libm) (wins total parentTotal : Int) :
    roundedScore Rounding.exact M wins total parentTotal
      = specScore M wins total parentTotal := rfl

theorem rounded_calculateUCB_eq_score {β : Type} (R : Rounding) (M : Libm) {tree : Tree β}
    {p : Nat} {pn cn : node β} (hp : tree[p]? = some pn) (hpar : cn.parent = some p) :
    Rounded.calculateUCB R M tree cn = some (roundedScore R M cn.wins cn.total pn.total) := by
  simp only [Rounded.calculateUCB, hpar, hp, roundedScore, Rounded.calculateWinRate]

theorem rounded_pickChild_spec {β : Type} (R : Rounding) (M : Libm) (tree : Tree β)
    (score : Nat → ℚ) :
    ∀ (cs : List Nat) (value : ℚ) (next : Option Nat),
      (∀ c ∈ cs, ∃ cn, tree[c]? = some cn ∧
        Rounded.calculateUCB R M tree cn = some (score c)) →
      (Rounded.pickChild R M tree cs value next = next ∧ ∀ c ∈ cs, score c ≤ value) ∨
      (∃ pre c post, cs = pre ++ c :: post ∧
        Rounded.pickChild R M tree cs value next = some c ∧
        value < score c ∧ (∀ d ∈ pre, score d < score c) ∧ (∀ d ∈ post, score d ≤ score c)) := by
  intro cs
  induction cs with
  | nil => intro value next _; left; simp [Rounded.pickChild]
  | cons c rest ih =>
    intro value next h
    obtain ⟨cn, hcn, hs⟩ := h c (List.mem_cons_self c rest)
    have hrest : ∀ d ∈ rest, ∃ dn, tree[d]? = some dn ∧
        Rounded.calculateUCB R M tree dn = some (score d) :=
      fun d hd => h d (List.mem_cons_of_mem c hd)
    simp only [Rounded.pickChild, hcn, hs]
    by_cases hgt : score c > value
    · rw [if_pos hgt]
      rcases ih (score c) (some c) hrest with
        ⟨heq, hle⟩ | ⟨pre, d, post, hsplit, heq, hlt, hpre, hpost⟩
      · right
        exact ⟨[], c, rest, rfl, heq, hgt, by simp, hle⟩
      · right
        refine ⟨c :: pre, d, post, by simp [hsplit], heq, lt_trans hgt hlt, ?_, hpost⟩
        intro e he
        rcases List.mem_cons.mp he with rfl | he
        · exact hlt
        · exact hpre e he
    · rw [if_neg hgt]
      have hle : score c ≤ value := not_lt.mp hgt
      rcases ih value next hrest with
        ⟨heq, hall⟩ | ⟨pre, d, post, hsplit, heq, hlt, hpre, hpost⟩
      · left
        refine ⟨heq, ?_⟩
        intro e he
        rcases List.mem_cons.mp he with rfl | he
        · exact hle
        · exact hall e he
      · right
        refine ⟨c :: pre, d, post, by simp [hsplit], heq, hlt, ?_, hpost⟩
        intro e he
        rcases List.mem_cons.mp he with rfl | he
        · exact lt_of_le_of_lt hle hlt
        · exact hpre e he

theorem rounded_selectLoop_spec {β : Type} (R : Rounding) (M : Libm) (ops : BoardOps β)
    (self : player) {tree : Tree β} (hwf : WellFormed tree)
    (hinit : Rounded.ScoresAboveInit R M tree) :
    ∀ (fuel current : Nat) (vec : List Nat), current < tree.length →
      tree.length ≤ fuel + current →
      ∃ rest, Rounded.selectLoop R M ops self tree fuel current vec = some (vec ++ rest) ∧
        List.Chain (Rounded.SelStep R M ops self tree) current rest ∧
        ∃ l ln, (current :: rest).getLast? = some l ∧ tree[l]? = some ln ∧
          isLeaf ops self ln = true := by
  intro fuel
  induction fuel with
  | zero => intro current vec h1 h2; omega
  | succ fuel ih =>
    intro current vec h1 h2
    obtain ⟨cur, hcur⟩ : ∃ cur, tree[current]? = some cur :=
      ⟨tree[current], List.getElem?_eq_getElem h1⟩
    simp only [Rounded.selectLoop, hcur]
    by_cases hleaf : isLeaf ops self cur = true
    · rw [if_pos hleaf]
      exact ⟨[], by simp, List.Chain.nil, current, cur, by simp, hcur, hleaf⟩
    · have hleaf2 : isLeaf ops self cur = false := by simpa using hleaf
      rw [if_neg hleaf]
      have hch : ∀ c ∈ cur.children, ∃ cn, tree[c]? = some cn ∧
          Rounded.calculateUCB R M tree cn = some (Rounded.scoreOf R M tree cur.total c) := by
        intro c hc
        obtain ⟨_, cn, hcn, hpar⟩ := hwf.child hcur hc
        exact ⟨cn, hcn, by
          rw [rounded_calculateUCB_eq_score R M hcur hpar]; simp [Rounded.scoreOf, hcn]⟩
      rcases rounded_pickChild_spec R M tree (Rounded.scoreOf R M tree cur.total) cur.children
          (-1000000) none hch
        with ⟨_, hall⟩ | ⟨pre, c, post, hsplit, heq, hlt, hpre, hpost⟩
      · exfalso
        obtain ⟨c, hc⟩ := List.exists_mem_of_ne_nil _ (isLeaf_false_children ops self cur hleaf2)
        obtain ⟨cn, hcn, hs⟩ := hch c hc
        have hgt := hinit cn (List.getElem?_mem hcn) _ hs
        exact absurd (hall c hc) (not_le.mpr hgt)
      · have hc : c ∈ cur.children := by rw [hsplit]; simp
        obtain ⟨hpc, cn, hcn, hpar⟩ := hwf.child hcur hc
        have hclt : c < tree.length := (List.getElem?_eq_some.mp hcn).1
        obtain ⟨rest, hsel, hchain, l, ln, hl, hln, hlf⟩ := ih c (vec ++ [c]) hclt (by omega)
        rw [heq]
        refine ⟨c :: rest, by simpa using hsel, List.Chain.cons
          ⟨⟨cur, hcur, hleaf2⟩, hpc, cur, cn, pre, post, hcur, hcn, hsplit, ?_, ?_⟩ hchain,
          l, ln, by simpa using hl, hln, hlf⟩
        · intro d hd dn hdn
          have := hpre d hd
          simpa [Rounded.scoreOf, hdn, hcn] using this
        · intro d hd dn hdn
          have := hpost d hd
          simpa [Rounded.scoreOf, hdn, hcn] using this

end NoGo

namespace NoGo

open Framework

/-- C3, counterexample: in the arena `tieTree` the root is not a leaf and its two children
have the scores `16777216 / 16777217` and `1` (the root has no visit, so the score is the win
rate): the second child is the strict maximum, and the selection in exact arithmetic takes it.
In `float` arithmetic `(float) 16777217` is `16777216`, both scores are `1.0f`, and
`takeSelection` takes the first child. -/
theorem takeSelection_float_tie :
    WellFormed tieTree ∧ Rounded.ScoresAboveInit Rounding.ieee demoLibm tieTree ∧
    (∃ rn, tieTree[0]? = some rn ∧
      isLeaf gridOps (player.ofRole piece_type.black) rn = false) ∧
    specScore demoLibm 16777216 16777217 0 = 16777216 / 16777217 ∧
    specScore demoLibm 16777217 16777217 0 = 1 ∧
    takeSelection demoLibm gridOps (player.ofRole piece_type.black) tieTree 3 0
      = some [0, 2] ∧
    binary32 16777217 = 16777216 ∧
    roundedScore Rounding.ieee demoLibm 16777216 16777217 0 = 1 ∧
    roundedScore Rounding.ieee demoLibm 16777217 16777217 0 = 1 ∧
    Rounded.takeSelection Rounding.ieee demoLibm gridOps (player.ofRole piece_type.black)
      tieTree 3 0 = some [0, 1] := by
  refine ⟨by decide!, by decide!, ⟨_, rfl, by decide!⟩, by decide!, by decide!, by decide!,
    by decide!, by decide!, by decide!, by decide!⟩

/-- C3: the path of `takeSelection`, with the scores computed in floating-point arithmetic as
the code does, for every rounding of `float` and `double`. On a well-formed arena whose
visit counts are not negative (so that no score is a NaN) and whose `float` scores are above
the initial value of the loop, `takeSelection` returns a path (fuel as large as the arena
suffices). The path starts with the given root and ends at a node that
is a leaf for the loop; every node before the last is not a leaf for the loop, and the
element after it is one of its children, namely the first one in insertion order whose
`float` score is the maximum among its siblings: every earlier sibling has a strictly
smaller `float` score and no later sibling a larger one. The `float` score (`roundedScore`)
is `winRate + 0.5 * sqrt (ln parent.total / total)` evaluated in `double` and rounded to
`float`, the win rate when `parent.total` or `total` is zero, the win rate being
`float(wins) / float(total)` rounded to `float`, and 0 when `total` is 0; without rounding
it is the exact score `specScore`. -/
theorem takeSelection_rounded_path {β : Type} (R : Rounding) (M : Libm) (ops : BoardOps β)
    (self : player) (tree : Tree β) (root fuel : Nat) (hwf : WellFormed tree)
    (_htotal : ∀ n ∈ tree, 0 ≤ n.total)
    (hinit : Rounded.ScoresAboveInit R M tree) (hroot : root < tree.length)
    (hfuel : tree.length ≤ fuel) :
    (∃ rest, Rounded.takeSelection R M ops self tree fuel root = some (root :: rest) ∧
      List.Chain (Rounded.SelStep R M ops self tree) root rest ∧
      ∃ l ln, (root :: rest).getLast? = some l ∧ tree[l]? = some ln ∧
        isLeaf ops self ln = true) ∧
    (∀ wins total parentTotal : Int,
      roundedScore Rounding.exact M wins total parentTotal
        = specScore M wins total parentTotal) := by
  obtain ⟨rest, hsel, hchain, hlast⟩ :=
    rounded_selectLoop_spec R M ops self hwf hinit fuel root [root] hroot (by omega)
  exact ⟨⟨rest, by simpa [Rounded.takeSelection] using hsel, hchain, hlast⟩, fun _ _ _ => rfl⟩

theorem takeSelection_rounded_path_witness :
    (∃ rest, Rounded.takeSelection Rounding.ieee demoLibm gridOps
        (player.ofRole piece_type.black) demoTree 5 0 = some (0 :: rest) ∧
      List.Chain (Rounded.SelStep Rounding.ieee demoLibm gridOps
        (player.ofRole piece_type.black) demoTree) 0 rest ∧
      ∃ l ln, (0 :: rest).getLast? = some l ∧ demoTree[l]? = some ln ∧
        isLeaf gridOps (player.ofRole piece_type.black) ln = true) ∧
    (∀ wins total parentTotal : Int,
      roundedScore Rounding.exact demoLibm wins total parentTotal
        = specScore demoLibm wins total parentTotal) :=
  takeSelection_rounded_path Rounding.ieee demoLibm gridOps (player.ofRole piece_type.black)
    demoTree 0 5 (by decide) (by decide) (by decide!) (by decide) (by decide)

end NoGo

namespace Threes

open Framework

/-! ## The learning update in `float` arithmetic -/

theorem rounded_valueEstimate_exact {β : Type} (ops : BoardOps β) (net : List weight) :
    ∀ after : β, Rounded.valueEstimate Rounding.exact ops net after
      = valueEstimate ops net after := by
  have hadd : ∀ (state : β) (v : ℚ),
      Rounded.addTuples Rounding.exact ops net state v = addTuples ops net state v :=
    fun _ _ => rfl
  have hloop : ∀ (r : Nat) (state : β) (v : ℚ),
      Rounded.estimateLoop Rounding.exact ops net r state v = estimateLoop ops net r state v := by
    intro r
    induction r with
    | zero => intro state v; rfl
    | succ r ih =>
      intro state v
      simp only [Rounded.estimateLoop, estimateLoop, hadd, ih]
  intro after
  simp only [Rounded.valueEstimate, valueEstimate, hloop]

/-- Without rounding, `valueAdjust` in `float` arithmetic is `valueAdjust` in exact
arithmetic. -/
theorem rounded_valueAdjust_exact {β : Type} (ops : BoardOps β) (net : List weight)
    (alpha : ℚ) (after : β) (TDtarget : ℚ) :
    Rounded.valueAdjust Rounding.exact ops net alpha after TDtarget
      = valueAdjust ops net alpha after TDtarget := by
  have hadj : ∀ (n : List weight) (state : β) (delta : ℚ),
      Rounded.adjustTuples Rounding.exact ops n state delta = adjustTuples ops n state delta :=
    fun _ _ _ => rfl
  have hloop : ∀ (delta : ℚ) (r : Nat) (state : β) (n : List weight),
      Rounded.adjustLoop Rounding.exact ops delta r state n = adjustLoop ops delta r state n := by
    intro delta r
    induction r with
    | zero => intro state n; rfl
    | succ r ih =>
      intro state n
      simp only [Rounded.adjustLoop, adjustLoop, hadj, ih]
  have hstep : ∀ v : ℚ, Rounded.step Rounding.exact alpha TDtarget v
      = alpha * (TDtarget - v) / 8 := fun _ => rfl
  simp only [Rounded.valueAdjust, valueAdjust, rounded_valueEstimate_exact, hloop, hstep]

theorem rounded_sumKeys_append (R : Rounding) (net : List weight) :
    ∀ (l1 l2 : List (Nat × Int)) (v : ℚ),
      Rounded.sumKeys R net (l1 ++ l2) v
        = (Rounded.sumKeys R net l1 v).bind (Rounded.sumKeys R net l2) := by
  intro l1
  induction l1 with
  | nil => intro l2 v; rfl
  | cons key rest ih =>
    intro l2 v
    simp only [List.cons_append, Rounded.sumKeys]
    cases lookup net key.1 key.2 with
    | none => rfl
    | some x => exact ih l2 (R.toFloat (v + x))

theorem rounded_bumpKeys_append (R : Rounding) (delta : ℚ) :
    ∀ (l1 l2 : List (Nat × Int)) (net : List weight),
      Rounded.bumpKeys R delta (l1 ++ l2) net
        = (Rounded.bumpKeys R delta l1 net).bind (Rounded.bumpKeys R delta l2) := by
  intro l1
  induction l1 with
  | nil => intro l2 net; rfl
  | cons key rest ih =>
    intro l2 net
    simp only [List.cons_append, Rounded.bumpKeys]
    cases Rounded.bump R net key.1 key.2 delta with
    | none => rfl
    | some net1 => exact ih l2 net1

theorem rounded_addTuples_eq_sumKeys {β : Type} (R : Rounding) (ops : BoardOps β)
    (net : List weight) (state : β) (v : ℚ) :
    Rounded.addTuples R ops net state v = Rounded.sumKeys R net (tupleKeys ops state) v := by
  unfold Rounded.addTuples tupleKeys
  simp only [Rounded.sumKeys]
  cases lookup net 0 (featureExtract ops state 0 1 2 3 4 5) <;>
  cases lookup net 1 (featureExtract ops state 4 5 6 7 8 9) <;>
  cases lookup net 2 (featureExtract ops state 0 1 2 4 5 6) <;>
  cases lookup net 3 (featureExtract ops state 4 5 6 8 9 10) <;> rfl

theorem rounded_adjustTuples_eq_bumpKeys {β : Type} (R : Rounding) (ops : BoardOps β)
    (net : List weight) (state : β) (delta : ℚ) :
    Rounded.adjustTuples R ops net state delta
      = Rounded.bumpKeys R delta (tupleKeys ops state) net := by
  unfold Rounded.adjustTuples tupleKeys
  simp only [Rounded.bumpKeys]
  cases Rounded.bump R net 0 (featureExtract ops state 0 1 2 3 4 5) delta with
  | none => rfl
  | some n0 =>
    simp only
    cases Rounded.bump R n0 1 (featureExtract ops state 4 5 6 7 8 9) delta with
    | none => rfl
    | some n1 =>
      simp only
      cases Rounded.bump R n1 2 (featureExtract ops state 0 1 2 4 5 6) delta with
      | none => rfl
      | some n2 =>
        simp only
        cases Rounded.bump R n2 3 (featureExtract ops state 4 5 6 8 9 10) delta <;> rfl

theorem rounded_estimateLoop_eq_sumKeys {β : Type} (R : Rounding) (ops : BoardOps β)
    (net : List weight) :
    ∀ (r : Nat) (state : β) (v : ℚ),
      Rounded.estimateLoop R ops net r state v =
        (Rounded.sumKeys R net ((rotations ops r state).map (tupleKeys ops)).flatten v).map
          (fun x => (ops.rotate_clockwise^[r] state, x)) := by
  intro r
  induction r with
  | zero => intro state v; rfl
  | succ r ih =>
    intro state v
    simp only [Rounded.estimateLoop, rotations, List.map_cons, List.flatten_cons,
      rounded_sumKeys_append, rounded_addTuples_eq_sumKeys, Function.iterate_succ_apply]
    cases Rounded.sumKeys R net (tupleKeys ops state) v with
    | none => rfl
    | some x => exact ih (ops.rotate_clockwise state) x

theorem rounded_adjustLoop_eq_bumpKeys {β : Type} (R : Rounding) (ops : BoardOps β)
    (delta : ℚ) :
    ∀ (r : Nat) (state : β) (net : List weight),
      Rounded.adjustLoop R ops delta r state net =
        (Rounded.bumpKeys R delta ((rotations ops r state).map (tupleKeys ops)).flatten net).map
          (fun n => (ops.rotate_clockwise^[r] state, n)) := by
  intro r
  induction r with
  | zero => intro state net; rfl
  | succ r ih =>
    intro state net
    simp only [Rounded.adjustLoop, rotations, List.map_cons, List.flatten_cons,
      rounded_bumpKeys_append, rounded_adjustTuples_eq_bumpKeys, Function.iterate_succ_apply]
    cases Rounded.bumpKeys R delta (tupleKeys ops state) net with
    | none => rfl
    | some n1 => exact ih (ops.rotate_clockwise state) n1

theorem rounded_valueEstimate_eq_sumKeys {β : Type} (R : Rounding) (ops : BoardOps β)
    (net : List weight) (after : β) :
    Rounded.valueEstimate R ops net after
      = Rounded.sumKeys R net (featureKeys ops after) 0 := by
  unfold Rounded.valueEstimate featureKeys orientations
  rw [List.map_append, List.flatten_append, rounded_sumKeys_append,
    rounded_estimateLoop_eq_sumKeys]
  cases Rounded.sumKeys R net ((rotations ops 4 after).map (tupleKeys ops)).flatten 0 with
  | none => rfl
  | some x =>
    simp only [Option.map_some', Option.some_bind, rounded_estimateLoop_eq_sumKeys]
    cases Rounded.sumKeys R net ((rotations ops 4 (ops.reflect_horizontal
      (ops.rotate_clockwise^[4] after))).map (tupleKeys ops)).flatten x <;> rfl

theorem rounded_valueAdjust_eq_bumpKeys {β : Type} (R : Rounding) (ops : BoardOps β)
    (net : List weight) (alpha : ℚ) (after : β) (TDtarget : ℚ) :
    Rounded.valueAdjust R ops net alpha after TDtarget =
      (Rounded.valueEstimate R ops net after).bind
        (fun currentV => Rounded.bumpKeys R (Rounded.step R alpha TDtarget currentV)
          (featureKeys ops after) net) := by
  unfold Rounded.valueAdjust
  cases Rounded.valueEstimate R ops net after with
  | none => rfl
  | some currentV =>
    simp only [Option.some_bind, featureKeys, orientations]
    rw [List.map_append, List.flatten_append, rounded_bumpKeys_append,
      rounded_adjustLoop_eq_bumpKeys]
    cases Rounded.bumpKeys R (Rounded.step R alpha TDtarget currentV)
        ((rotations ops 4 after).map (tupleKeys ops)).flatten net with
    | none => rfl
    | some n1 =>
      simp only [Option.map_some', Option.some_bind, rounded_adjustLoop_eq_bumpKeys]
      cases Rounded.bumpKeys R (Rounded.step R alpha TDtarget currentV)
        ((rotations ops 4 (ops.reflect_horizontal
          (ops.rotate_clockwise^[4] after))).map (tupleKeys ops)).flatten n1 <;> rfl

theorem rounded_sumKeys_valid (R : Rounding) (net : List weight) :
    ∀ (keys : List (Nat × Int)) (v s : ℚ), Rounded.sumKeys R net keys v = some s →
      ∀ key ∈ keys, ValidKey net key := by
  intro keys
  induction keys with
  | nil => intro v s _ key hk; cases hk
  | cons key rest ih =>
    intro v s h k hk
    simp only [Rounded.sumKeys] at h
    cases hl : lookup net key.1 key.2 with
    | none => simp [hl] at h
    | some x =>
      simp only [hl] at h
      rcases List.mem_cons.mp hk with rfl | hk
      · exact valid_of_lookup net k x hl
      · exact ih (R.toFloat (v + x)) s h k hk

theorem rounded_bump_spec (R : Rounding) (net : List weight) (k : Nat) (i : Int) (delta : ℚ)
    (h : ValidKey net (k, i)) :
    ∃ net1, Rounded.bump R net k i delta = some net1 ∧ net1.length = net.length ∧
      (∀ k1 : Nat, (net1[k1]?).map weight.size = (net[k1]?).map weight.size) ∧
      ∀ k1 j : Nat, entry net1 k1 j
        = if (k, i) = (k1, (j : Int)) then R.toFloat (entry net k1 j + delta)
          else entry net k1 j := by
  obtain ⟨w, hw, h0, h1⟩ := h
  simp only at hw h0 h1
  have hk : k < net.length := (List.getElem?_eq_some.mp hw).1
  refine ⟨net.set k
      { w with
        value := Function.update w.value i.toNat (R.toFloat (w.value i.toNat + delta)) },
    by simp only [Rounded.bump, hw, h0, h1, and_self, if_true], by simp, ?_, ?_⟩
  · intro k1
    rw [List.getElem?_set]
    by_cases e : k = k1
    · subst e; simp [hk, hw]
    · simp [e]
  · intro k1 j
    unfold entry
    rw [List.getElem?_set]
    by_cases e : k = k1
    · subst e
      simp only [hk, if_true, hw]
      by_cases ej : i = (j : Int)
      · have hj : i.toNat = j := by omega
        rw [if_pos (by rw [ej]), hj]
        simp
      · have hj : ¬ j = i.toNat := by omega
        rw [if_neg (by intro h; exact ej (Prod.mk.inj h).2)]
        simp [Function.update, hj]
    · have e2 : ¬ (k, i) = (k1, (j : Int)) := fun h => e (Prod.mk.inj h).1
      simp [e, e2]

theorem rounded_bumpKeys_spec (R : Rounding) (delta : ℚ) :
    ∀ (keys : List (Nat × Int)) (net : List weight), (∀ key ∈ keys, ValidKey net key) →
      ∃ net1, Rounded.bumpKeys R delta keys net = some net1 ∧ net1.length = net.length ∧
        (∀ k : Nat, (net1[k]?).map weight.size = (net[k]?).map weight.size) ∧
        ∀ k j : Nat, entry net1 k j
          = (fun x => R.toFloat (x + delta))^[keys.count (k, (j : Int))] (entry net k j) := by
  intro keys
  induction keys with
  | nil => intro net _; exact ⟨net, rfl, rfl, fun _ => rfl, by simp⟩
  | cons key rest ih =>
    intro net h
    obtain ⟨n1, hb, hlen1, hsz1, hent1⟩ :=
      rounded_bump_spec R net key.1 key.2 delta (h key (List.mem_cons_self key rest))
    obtain ⟨n2, hb2, hlen2, hsz2, hent2⟩ := ih n1
      (fun k hk => validKey_congr net n1 hsz1 k (h k (List.mem_cons_of_mem key hk)))
    refine ⟨n2, by simp only [Rounded.bumpKeys, hb]; exact hb2, by rw [hlen2, hlen1],
      fun k => by rw [hsz2, hsz1], ?_⟩
    intro k j
    rw [hent2, hent1, List.count_cons]
    by_cases e : key = (k, (j : Int))
    · have e2 : (key.1, key.2) = (k, (j : Int)) := e
      have e3 : (key == (k, (j : Int))) = true := by simpa using e
      rw [if_pos e2]
      simp only [e3, if_true, Function.iterate_succ_apply]
    · have e2 : ¬ (key.1, key.2) = (k, (j : Int)) := e
      have e3 : (key == (k, (j : Int))) = false := by simpa using e
      rw [if_neg e2]
      simp only [e3, Bool.false_eq_true, if_false, Nat.add_zero]

theorem iterate_add_exact (delta : ℚ) (c : Nat) (x : ℚ) :
    (fun y => y + delta)^[c] x = x + (c : ℚ) * delta := by
  induction c generalizing x with
  | zero => simp
  | succ c ih =>
    rw [Function.iterate_succ_apply, ih]
    push_cast
    ring

theorem rounded_valueAdjust_entries {β : Type} (R : Rounding) (ops : BoardOps β)
    (net : List weight) (alpha : ℚ) (after : β) (target V : ℚ)
    (hV : Rounded.valueEstimate R ops net after = some V) :
    ∃ net1, Rounded.valueAdjust R ops net alpha after target = some net1 ∧
      net1.length = net.length ∧
      (∀ k : Nat, (net1[k]?).map weight.size = (net[k]?).map weight.size) ∧
      ∀ k j : Nat, entry net1 k j
        = (fun x => R.toFloat (x + Rounded.step R alpha target V))^[
            (featureKeys ops after).count (k, (j : Int))] (entry net k j) := by
  have hsum := hV
  rw [rounded_valueEstimate_eq_sumKeys] at hsum
  have hvalid := rounded_sumKeys_valid R net (featureKeys ops after) 0 V hsum
  obtain ⟨net1, hb, hlen, hsz, hent⟩ :=
    rounded_bumpKeys_spec R (Rounded.step R alpha target V) (featureKeys ops after) net hvalid
  refine ⟨net1, ?_, hlen, hsz, hent⟩
  rw [rounded_valueAdjust_eq_bumpKeys, hV]
  exact hb

end Threes

namespace Threes

open Framework

/-- C12, counterexample: on the empty board with the zero tables, `alpha = 0.1f` and target 1,
the estimate `V` is 0 and entry 0 of table 0 is addressed by 8 of the 32 lookups, so a gain
of `8 * alpha * (target - V) / 8` would leave it at `13421773 / 134217728`, the value of
`0.1f`. The eight `float` additions of `valueAdjust` leave it at `6710887 / 67108864`. -/
theorem valueAdjust_float_accumulates :
    binary32 (13421773 / 134217728) = 13421773 / 134217728 ∧
    Rounded.valueEstimate Rounding.ieee tilesOps zeroNet tilesOps.fresh = some 0 ∧
    (featureKeys tilesOps tilesOps.fresh).count (0, ((0 : Nat) : Int)) = 8 ∧
    entry zeroNet 0 0 + ((8 : Nat) : ℚ) * ((13421773 / 134217728) * (1 - 0) / 8)
      = 13421773 / 134217728 ∧
    (Rounded.valueAdjust Rounding.ieee tilesOps zeroNet (13421773 / 134217728)
        tilesOps.fresh 1).map (fun net1 => entry net1 0 0)
      = some (6710887 / 67108864) := by
  refine ⟨by decide!, by decide!, by decide!, by decide!, ?_⟩
  obtain ⟨net1, h1, _, _, hent⟩ :=
    rounded_valueAdjust_entries Rounding.ieee tilesOps zeroNet (13421773 / 134217728)
      tilesOps.fresh 1 0 (by decide!)
  rw [h1, Option.map_some', hent 0 0]
  have hc : (featureKeys tilesOps tilesOps.fresh).count (0, ((0 : Nat) : Int)) = 8 := by
    decide!
  rw [hc]
  have hv : (fun x => Rounding.ieee.toFloat
      (x + Rounded.step Rounding.ieee (13421773 / 134217728) 1 0))^[8] (entry zeroNet 0 0)
      = 6710887 / 67108864 := by decide!
  rw [hv]

/-- C12: `valueAdjust(after, target)` in the `float` arithmetic of the code, for every
rounding. When `valueEstimate(after)` is defined with value `V` on the tables before the call
(all 32 lookups address existing entries; `V` is the sum of the 32 entries accumulated in
`float` in the order of the loops), the step `adjustment/8` is computed once from `V`, as
`alpha * (target - V)` and its quotient by 8 with each operation rounded to `float`, and
`valueAdjust` returns tables of the same number and sizes in which every entry has received
one `float` addition of the step for each of the 32 lookups of `after` that address it: an
entry addressed `k` times is the result of `k` successive additions, each rounded to
`float`. An entry addressed by none of the 32 lookups is unchanged. When no operation rounds,
an entry addressed `k` times gains `k * alpha * (target - V) / 8`. (As everywhere with
`Rounding`, this describes the calls in which no operation overflows.) -/
theorem valueAdjust_rounded_spec {β : Type} (R : Rounding) (ops : BoardOps β)
    (net : List weight) (alpha : ℚ) (after : β) (target V : ℚ)
    (hV : Rounded.valueEstimate R ops net after = some V) :
    (featureKeys ops after).length = 32 ∧
    Rounded.sumKeys R net (featureKeys ops after) 0 = some V ∧
    Rounded.step R alpha target V = R.toFloat (R.toFloat (alpha * R.toFloat (target - V)) / 8) ∧
    ∃ net1, Rounded.valueAdjust R ops net alpha after target = some net1 ∧
      net1.length = net.length ∧
      (∀ k : Nat, (net1[k]?).map weight.size = (net[k]?).map weight.size) ∧
      (∀ k j : Nat, entry net1 k j
        = (fun x => R.toFloat (x + Rounded.step R alpha target V))^[
            (featureKeys ops after).count (k, (j : Int))] (entry net k j)) ∧
      (∀ k j : Nat, (k, (j : Int)) ∉ featureKeys ops after → entry net1 k j = entry net k j) ∧
      ((∀ x : ℚ, R.toFloat x = x) → ∀ k j : Nat, entry net1 k j = entry net k j
        + ((featureKeys ops after).count (k, (j : Int)) : ℚ) * (alpha * (target - V) / 8)) := by
  have hsum := hV
  rw [rounded_valueEstimate_eq_sumKeys] at hsum
  obtain ⟨net1, h1, hlen, hsz, hent⟩ :=
    rounded_valueAdjust_entries R ops net alpha after target V hV
  refine ⟨featureKeys_length ops after, hsum, rfl, net1, h1, hlen, hsz, hent, ?_, ?_⟩
  · intro k j hnot
    rw [hent, List.count_eq_zero_of_not_mem hnot]
    rfl
  · intro hR k j
    have hstep : Rounded.step R alpha target V = alpha * (target - V) / 8 := by
      simp only [Rounded.step, hR]
    have hfun : (fun x => R.toFloat (x + Rounded.step R alpha target V))
        = (fun y => y + alpha * (target - V) / 8) := by
      funext x
      rw [hR, hstep]
    rw [hent, hfun, iterate_add_exact]

theorem valueAdjust_rounded_spec_witness :
    (featureKeys tilesOps lastMove).length = 32 ∧
    Rounded.sumKeys Rounding.ieee zeroNet (featureKeys tilesOps lastMove) 0 = some 0 ∧
    Rounded.step Rounding.ieee (1 / 4) 8 0
      = Rounding.ieee.toFloat (Rounding.ieee.toFloat ((1 / 4) * Rounding.ieee.toFloat (8 - 0)) / 8) ∧
    ∃ net1, Rounded.valueAdjust Rounding.ieee tilesOps zeroNet (1 / 4) lastMove 8 = some net1 ∧
      net1.length = zeroNet.length ∧
      (∀ k : Nat, (net1[k]?).map weight.size = (zeroNet[k]?).map weight.size) ∧
      (∀ k j : Nat, entry net1 k j
        = (fun x => Rounding.ieee.toFloat (x + Rounded.step Rounding.ieee (1 / 4) 8 0))^[
            (featureKeys tilesOps lastMove).count (k, (j : Int))] (entry zeroNet k j)) ∧
      (∀ k j : Nat, (k, (j : Int)) ∉ featureKeys tilesOps lastMove →
        entry net1 k j = entry zeroNet k j) ∧
      ((∀ x : ℚ, Rounding.ieee.toFloat x = x) → ∀ k j : Nat, entry net1 k j = entry zeroNet k j
        + ((featureKeys tilesOps lastMove).count (k, (j : Int)) : ℚ) * ((1 / 4) * (8 - 0) / 8)) :=
  valueAdjust_rounded_spec Rounding.ieee tilesOps zeroNet (1 / 4) lastMove 8 0 (by decide!)

end Threes
